import Mathlib

/-!
Verified properties of the example code of the learn-go course.

The file first gives the embedding of the Go code, lesson by lesson, and then the
theorems about it.

Lesson 11: the calculator package, a shallow embedding of
`11-testing/calculator.go`.

Go's `int` is modelled as a mathematical integer kept inside the
two's-complement range of a 64-bit word (the width of `int` on the 64-bit
targets the course is written for).  Every arithmetic operator that can leave
that range is followed by `wrapInt`, which reduces the exact result modulo
`2 ^ 64` back into the range, as the Go specification prescribes for signed
overflow.  Go's `/` and `%` on integers truncate toward zero, which is
`Int.tdiv` and `Int.tmod`.

A Go `error` result is an `Option GoError`, `none` standing for `nil`.
-/

namespace Calculator

/-! ## Machine integers -/

/-- Width in bits of Go's `int`. -/
def intBits : Nat := 64

/-- Half of the number of values of an `int`: `2 ^ 63`. -/
def halfRange : Int := Int.ofNat (2 ^ (intBits - 1))

/-- Number of values of an `int`: `2 ^ 64`. -/
def fullRange : Int := Int.ofNat (2 ^ intBits)

/-- Smallest value of Go's `int`. -/
def minInt : Int := -halfRange

/-- Largest value of Go's `int`. -/
def maxInt : Int := halfRange - 1

/-- Values that a Go `int` can hold. -/
def InRange (x : Int) : Prop := minInt ≤ x ∧ x ≤ maxInt

instance instDecidableInRange (x : Int) : Decidable (InRange x) := by
  unfold InRange; exact inferInstance

/-- Two's-complement wrap-around of an exact integer result into the range of `int`. -/
def wrapInt (x : Int) : Int := (x + halfRange) % fullRange - halfRange

/-! ## Errors -/

/-- Error values the calculator package can return: the package-level sentinel
`ErrDivisionByZero`, made by `errors.New`, and errors made by `fmt.Errorf`,
which carry their formatted message. -/
inductive GoError where
  | ErrDivisionByZero : GoError
  | errorf (msg : String) : GoError
  deriving DecidableEq

/-- The `Error()` method: the message of an error value. -/
def GoError.Error : GoError → String
  | .ErrDivisionByZero => "division by zero"
  | .errorf msg => msg

/-! ## The calculator functions -/

/-- Go: `func Add(a, b int) int`. -/
def Add (a b : Int) : Int := wrapInt (a + b)

/-- Go: `func Subtract(a, b int) int`. -/
def Subtract (a b : Int) : Int := wrapInt (a - b)

/-- Go: `func Multiply(a, b int) int`. -/
def Multiply (a b : Int) : Int := wrapInt (a * b)

/-- Go: `func Divide(a, b int) (int, error)`. -/
def Divide (a b : Int) : Int × Option GoError :=
  if b = 0 then (0, some GoError.ErrDivisionByZero)
  else (wrapInt (a.tdiv b), none)

/-- Go: `func IsEven(n int) bool`. -/
def IsEven (n : Int) : Bool := n.tmod 2 == 0

/-- Go: `func Abs(n int) int`. -/
def Abs (n : Int) : Int :=
  if n < 0 then wrapInt (-n) else n

/-- Go: `func Max(a, b int) int`. -/
def Max (a b : Int) : Int :=
  if a > b then a else b

/-- Go: `func Min(a, b int) int`. -/
def Min (a b : Int) : Int :=
  if a < b then a else b

/-- Go: `func Sum(numbers []int) int`, the `range` loop as a left fold over the slice. -/
def Sum (numbers : List Int) : Int :=
  numbers.foldl (fun total n => wrapInt (total + n)) 0

/-! ## float64

`Average` is the only function of the package that computes in `float64`.  A
`float64` value is modelled by the rational number it denotes.  Every operation
rounds its exact result to the nearest number with a 53-bit significand, ties
going to the even significand (IEEE 754 binary64, round-to-nearest-even).  The
exponent range is not modelled: the values `Average` handles are 0 or have a
magnitude between `2 ^ (-63)` and `2 ^ 63`, far from overflow and from the
subnormal numbers, and no NaN, infinity or negative zero can arise there. -/

/-- Nearest integer to `x`, a tie going to the even neighbour. -/
def roundHalfEven (x : ℚ) : ℤ :=
  if x - ⌊x⌋ < 1 / 2 then ⌊x⌋
  else if 1 / 2 < x - ⌊x⌋ then ⌊x⌋ + 1
  else if ⌊x⌋ % 2 = 0 then ⌊x⌋ else ⌊x⌋ + 1

/-- Rounding of an exact result to `float64`: with `e` the binary exponent of `x`,
the significand `x / 2 ^ (e - 52)` lies in `[2 ^ 52, 2 ^ 53)` and is rounded to an
integer. -/
def roundFloat64 (x : ℚ) : ℚ :=
  if x = 0 then 0
  else roundHalfEven (x / 2 ^ (Int.log 2 |x| - 52)) * 2 ^ (Int.log 2 |x| - 52)

/-- Go: the conversion `float64(x)` of an `int`. -/
def float64OfInt (x : Int) : ℚ := roundFloat64 x

/-- Go: `x / y` on `float64` operands, `y` non-zero. -/
def float64Div (x y : ℚ) : ℚ := roundFloat64 (x / y)

/-- Go: `func Average(numbers []int) float64`. -/
def Average (numbers : List Int) : ℚ :=
  if numbers.length = 0 then 0
  else float64Div (float64OfInt (Sum numbers)) (float64OfInt numbers.length)

/-- The loop `for i := 2; i <= n; i++ { result *= i }` of `Factorial`, run for at
most `fuel` evaluations of the loop condition; `none` when the fuel runs out
before the condition turns false. -/
def factorialLoop : Nat → Int → Int → Int → Option Int
  | 0, _, _, _ => none
  | fuel + 1, n, result, i =>
    if i ≤ n then factorialLoop fuel n (wrapInt (result * i)) (wrapInt (i + 1))
    else some result

/-- Go: `func Factorial(n int) (int, error)`; `fuel` bounds the number of loop tests. -/
def Factorial (fuel : Nat) (n : Int) : Option (Int × Option GoError) :=
  if n < 0 then
    some (0, some (GoError.errorf ("factorial of negative number: " ++ toString n)))
  else if n = 0 ∨ n = 1 then some (1, none)
  else (factorialLoop fuel n 1 2).map (fun result => (result, none))

end Calculator

/-!
Lesson 3: the FizzBuzzBoom challenge solution,
`03-control-flow/challenge-solution/challenge-solution.go`.

`fmt.Sprintf("%d", n)` is the decimal representation of `n`, which is `toString n`.
-/

namespace ControlFlow

/-- Go: `func fizzBuzzBoom(n int) string`. -/
def fizzBuzzBoom (n : Int) : String :=
  let result := ""
  let result := if n.tmod 3 = 0 then result ++ "Fizz" else result
  let result := if n.tmod 5 = 0 then result ++ "Buzz" else result
  let result := if n.tmod 7 = 0 then result ++ "Boom" else result
  if result = "" then toString n else result

end ControlFlow

/-!
Lesson 9: the stringutil package, `09-packages-modules/stringutil/stringutil.go`.

A Go string is modelled by the sequence of runes that `[]rune(s)` reads from it,
a Lean `String`; `string(runes)` builds the string back.  Strings that are not valid
UTF-8 are outside the model.
-/

namespace Stringutil

/-- The loop `for i, j := 0, len(runes)-1; i < j; i, j = i+1, j-1` of `Reverse`, whose
body swaps `runes[i]` and `runes[j]`.  The indices are Go `int`s; they stay between
-1 and `len(runes)`, so no wrap-around is involved. -/
def reverseLoop (runes : List Char) (i j : Int) : List Char :=
  if i < j then
    reverseLoop
      ((runes.set i.toNat (runes.getD j.toNat default)).set j.toNat (runes.getD i.toNat default))
      (i + 1) (j - 1)
  else runes
termination_by (j - i).toNat
decreasing_by omega

/-- Go: `func Reverse(s string) string`: `[]rune(s)`, the swap loop, `string(runes)`. -/
def Reverse (s : String) : String :=
  String.mk (reverseLoop s.data 0 ((s.data.length : Int) - 1))

/-- Go: `strings.ReplaceAll(s, " ", "")`, which deletes every space character. -/
def ReplaceAllSpaces (s : String) : String :=
  String.mk (s.data.filter (fun c => c != ' '))

/-- Go: `strings.ToLower(s)`, which maps every rune of `s` through `unicode.ToLower`;
that table belongs to the Go library and is the parameter `lower`. -/
def ToLower (lower : Char → Char) (s : String) : String :=
  String.mk (s.data.map lower)

/-- Go: `func IsPalindrome(s string) bool`. -/
def IsPalindrome (lower : Char → Char) (s : String) : Bool :=
  let normalized := ToLower lower (ReplaceAllSpaces s)
  normalized == Reverse normalized

/-- Go: `strings.ToUpper(s)`, which maps every rune of `s` through `unicode.ToUpper`;
that table belongs to the Go library and is the parameter `upper`. -/
def stringsToUpper (upper : Char → Char) (s : String) : String :=
  String.mk (s.data.map upper)

/-- Go: `func ToUpper(s string) string`. -/
def ToUpper (upper : Char → Char) (s : String) : String :=
  stringsToUpper upper s

end Stringutil

/-!
Go's `float64`, for lessons 7 and 8.

A `float64` is NaN, an infinity, or a finite number, given by the rational it
denotes.  The two zeros are one value, `finite 0`: Go's comparisons do not tell
them apart, and the only arithmetic that does, a division by zero, is never reached
in the code below.  Arithmetic rounds the exact result to binary64
(round-to-nearest-even, 53-bit significand, gradual underflow below `2 ^ (-1022)`,
overflow to an infinity from `2 ^ 1024`).
-/

namespace GoFloat

/-- Values of Go's `float64`. -/
inductive F64 where
  | nan : F64
  | negInf : F64
  | finite (q : ℚ) : F64
  | posInf : F64
  deriving DecidableEq

namespace F64

/-- Rounding of an exact non-NaN result to `float64`. -/
def round (x : ℚ) : F64 :=
  if x = 0 then finite 0
  else if 2 ^ (1024 : ℕ) ≤
      |(Calculator.roundHalfEven (x / 2 ^ (max (Int.log 2 |x|) (-1022) - 52)) : ℚ)
        * 2 ^ (max (Int.log 2 |x|) (-1022) - 52)| then
    (if 0 < x then posInf else negInf)
  else
    finite ((Calculator.roundHalfEven (x / 2 ^ (max (Int.log 2 |x|) (-1022) - 52)) : ℚ)
      * 2 ^ (max (Int.log 2 |x|) (-1022) - 52))

/-- Go: `math.IsNaN(f)`. -/
def IsNaN : F64 → Bool
  | nan => true
  | _ => false

/-- Go: `math.IsInf(f, 0)`, true for either infinity. -/
def IsInf : F64 → Bool
  | negInf => true
  | posInf => true
  | _ => false

/-- Go: `x < y` on `float64`; false whenever an operand is NaN. -/
def lt : F64 → F64 → Bool
  | negInf, finite _ => true
  | negInf, posInf => true
  | finite _, posInf => true
  | finite a, finite b => decide (a < b)
  | _, _ => false

/-- Go: `x > y` on `float64`. -/
def gt (x y : F64) : Bool := lt y x

/-- Go: `x == y` on `float64`; NaN equals nothing, itself included. -/
def eq : F64 → F64 → Bool
  | negInf, negInf => true
  | posInf, posInf => true
  | finite a, finite b => decide (a = b)
  | _, _ => false

/-- Go: `x >= y` on `float64`. -/
def ge (x y : F64) : Bool := gt x y || eq x y

/-- Go: `x + y` on `float64`. -/
def add : F64 → F64 → F64
  | nan, _ => nan
  | _, nan => nan
  | posInf, negInf => nan
  | negInf, posInf => nan
  | posInf, _ => posInf
  | _, posInf => posInf
  | negInf, _ => negInf
  | _, negInf => negInf
  | finite a, finite b => round (a + b)

/-- Go: `-x` on `float64`. -/
def neg : F64 → F64
  | nan => nan
  | negInf => posInf
  | finite a => finite (-a)
  | posInf => negInf

/-- Go: `x - y` on `float64`. -/
def sub (x y : F64) : F64 := add x (neg y)

/-- Sign of a non-NaN value: -1, 0 or 1. -/
def sign : F64 → Int
  | nan => 0
  | negInf => -1
  | finite a => if 0 < a then 1 else if a < 0 then -1 else 0
  | posInf => 1

/-- Go: `x * y` on `float64`. -/
def mul : F64 → F64 → F64
  | nan, _ => nan
  | _, nan => nan
  | finite a, finite b => round (a * b)
  | x, y =>
    if sign x * sign y = 0 then nan
    else if 0 < sign x * sign y then posInf else negInf

/-- Go: `x / y` on `float64`.  A zero divisor is taken as `+0`. -/
def div : F64 → F64 → F64
  | nan, _ => nan
  | _, nan => nan
  | finite a, finite b =>
    if b = 0 then (if a = 0 then nan else if 0 < a then posInf else negInf)
    else round (a / b)
  | finite _, _ => finite 0
  | x, finite b => if 0 ≤ sign x * (if b < 0 then -1 else 1) then posInf else negInf
  | _, _ => nan

end F64

end GoFloat

/-!
Lesson 7: the shape calculator, `07-interfaces/challenge-solution/challenge-solution.go`.
-/

namespace Shapes

open GoFloat

/-- The three implementations of the `Shape` interface: the structs `Rectangle`,
`Circle` and `Triangle`. -/
inductive Shape where
  | Rectangle (Width Height : F64) : Shape
  | Circle (Radius : F64) : Shape
  | Triangle (Base Height SideA SideB SideC : F64) : Shape
  deriving DecidableEq

/-- Go: `math.Pi` as a `float64`, the nearest `float64` to π. -/
def Pi : F64 := F64.finite (884279719003555 / 281474976710656)

/-- Go: the `Area()` methods of `Rectangle`, `Circle` and `Triangle`. -/
def Shape.Area : Shape → F64
  | .Rectangle w h => F64.mul w h
  | .Circle r => F64.mul (F64.mul Pi r) r
  | .Triangle b h _ _ _ => F64.mul (F64.mul (F64.finite (1 / 2)) b) h

/-- Go: `func FindLargestShape(shapes []Shape) Shape`, for any type `σ` implementing
the interface with the method `Area`; `none` is the nil interface value.  The loop
state is the pair `(largest, largestArea)`. -/
def FindLargestShape {σ : Type} (Area : σ → F64) : List σ → Option σ
  | [] => none
  | first :: rest =>
    some (rest.foldl
      (fun (state : σ × F64) shape =>
        if F64.gt (Area shape) state.2 then (shape, Area shape) else state)
      (first, Area first)).1

end Shapes

/-!
Lesson 8: the safe calculator, `08-error-handling/challenge-solution.go`.
-/

namespace ErrorHandling

open GoFloat

/-- The error values of the lesson: pointers to the four custom error structs, and
the wrapping error that `fmt.Errorf` builds for a `%w` verb, kept as its format
string and the wrapped error. -/
inductive Error where
  | DivisionByZeroError (Dividend : F64) : Error
  | InvalidInputError (Input Message : String) : Error
  | OutOfRangeError (Value Min Max : F64) : Error
  | CalculationError (Operation : String) (A B : F64) (Err : Error) : Error
  | Errorf (format : String) (err : Error) : Error
  deriving DecidableEq

/-- Go: `const MinValue = -1000`, used as a `float64`. -/
def MinValue : F64 := F64.finite (-1000)

/-- Go: `const MaxValue = 1000`, used as a `float64`. -/
def MaxValue : F64 := F64.finite 1000

/-- Go: `func ValidateNumber(n float64) error`. -/
def ValidateNumber (n : F64) : Option Error :=
  if F64.IsNaN n then some (Error.InvalidInputError "NaN" "not a number")
  else if F64.IsInf n then some (Error.InvalidInputError "Inf" "infinity")
  else if F64.lt n MinValue || F64.gt n MaxValue then
    some (Error.OutOfRangeError n MinValue MaxValue)
  else none

/-- Go: `func SafeDivide(a, b float64) (float64, error)`. -/
def SafeDivide (a b : F64) : F64 × Option Error :=
  if F64.eq b (F64.finite 0) then (F64.finite 0, some (Error.DivisionByZeroError a))
  else
    match ValidateNumber a with
    | some err => (F64.finite 0, some (Error.Errorf "dividend validation failed: %w" err))
    | none =>
      match ValidateNumber b with
      | some err => (F64.finite 0, some (Error.Errorf "divisor validation failed: %w" err))
      | none => (F64.div a b, none)

/-- The end of `Calculate`, after the `switch`: the result is validated and returned. -/
def validateResult (result : F64) : F64 × Option Error :=
  match ValidateNumber result with
  | some err => (F64.finite 0, some (Error.Errorf "result validation failed: %w" err))
  | none => (result, none)

/-- Go: `func Calculate(operation string, a, b float64) (float64, error)`. -/
def Calculate (operation : String) (a b : F64) : F64 × Option Error :=
  match ValidateNumber a with
  | some err => (F64.finite 0, some (Error.CalculationError operation a b err))
  | none =>
    match ValidateNumber b with
    | some err => (F64.finite 0, some (Error.CalculationError operation a b err))
    | none =>
      if operation = "+" then validateResult (F64.add a b)
      else if operation = "-" then validateResult (F64.sub a b)
      else if operation = "*" then validateResult (F64.mul a b)
      else if operation = "/" then
        match SafeDivide a b with
        | (_, some err) => (F64.finite 0, some (Error.CalculationError operation a b err))
        | (result, none) => validateResult result
      else (F64.finite 0, some (Error.InvalidInputError operation "unsupported operation"))

/-- Go: `func (e *CalculationError) Unwrap() error`, and the `Unwrap` of the error
built by `fmt.Errorf` with `%w`; the other error types have no `Unwrap` method. -/
def Error.Unwrap : Error → Option Error
  | .CalculationError _ _ _ err => some err
  | .Errorf _ err => some err
  | _ => none

/-- The `Unwrap` chain of an error: the error itself, the error it wraps, and so on
down to an error that wraps nothing. -/
def Error.chain : Error → List Error
  | .CalculationError operation a b err => .CalculationError operation a b err :: err.chain
  | .Errorf format err => .Errorf format err :: err.chain
  | .DivisionByZeroError dividend => [.DivisionByZeroError dividend]
  | .InvalidInputError input message => [.InvalidInputError input message]
  | .OutOfRangeError value min max => [.OutOfRangeError value min max]

/-- Go: `errors.As(err, &dzErr)` for `var dzErr *DivisionByZeroError`: the first error
of that type on the `Unwrap` chain of `err`, `none` when `As` reports false. -/
def Error.AsDivisionByZeroError : Error → Option Error
  | .DivisionByZeroError dividend => some (.DivisionByZeroError dividend)
  | .CalculationError _ _ _ err => err.AsDivisionByZeroError
  | .Errorf _ err => err.AsDivisionByZeroError
  | .InvalidInputError _ _ => none
  | .OutOfRangeError _ _ _ => none

end ErrorHandling

/-!
Lesson 10: the channel patterns of `10-concurrency/channels.go`.

A concurrent program is modelled as a labelled transition system: a state records
where every goroutine stands and what the channels hold, and each label is one
atomic move of one goroutine (for an unbuffered channel, the joint move of the sender
and the receiver that meet).  `step l s` is `none` when the move `l` is not possible
in `s`, which is how a blocked goroutine shows.  An interleaving is a list of labels
that can be run one after the other; nothing is assumed about the scheduler, and
`time.Sleep` and the print statements, which change no state, are not steps.
-/

namespace Concurrency

/-- Runs a schedule, a list of moves, from a state; `none` when a move of the list
is not possible where it stands. -/
def run {L S : Type} (step : L → S → Option S) : List L → S → Option S
  | [], s => some s
  | l :: ls, s => (step l s).bind (run step ls)

/-! ### Section 7 of `main`: the pipeline `square(generate(nums...))` -/

namespace Pipeline

/-- Where the goroutine started by `square` stands. -/
inductive Squarer where
  /-- At `for n := range in`, waiting for a value or for the close of `in`. -/
  | receiving : Squarer
  /-- Holding `n`, at the send `out <- n * n`. -/
  | sending (n : Int) : Squarer
  /-- Past the loop, at `close(out)`. -/
  | closing : Squarer
  /-- Finished. -/
  | finished : Squarer
  deriving DecidableEq

/-- State of the pipeline once `generate` and `square` have returned their channels
and `main` stands at `for result := range squares`. -/
structure State where
  /-- The values the goroutine of `generate` has still to send. -/
  toSend : List Int
  /-- Whether the channel of `generate` is closed. -/
  numsClosed : Bool
  /-- The goroutine of `square`. -/
  squarer : Squarer
  /-- Whether the channel of `square` is closed. -/
  squaresClosed : Bool
  /-- The values `main` has received in its `range` loop, in order. -/
  received : List Int
  /-- Whether the `range` loop of `main` has ended. -/
  loopEnded : Bool
  deriving DecidableEq

/-- The moves of the pipeline. -/
inductive Move where
  /-- The generator's `out <- n` meets the squarer's receive. -/
  | passNumber : Move
  /-- The generator runs `close(out)`. -/
  | closeNums : Move
  /-- The squarer's `range` finds its input closed and leaves the loop. -/
  | squarerLeavesLoop : Move
  /-- The squarer's `out <- n * n` meets the receive of `main`. -/
  | passSquare : Move
  /-- The squarer runs `close(out)`. -/
  | closeSquares : Move
  /-- The `range` of `main` finds `squares` closed and ends. -/
  | mainLeavesLoop : Move
  deriving DecidableEq

/-- The state in which `main` starts to drain `square(generate(nums...))`. -/
def init (nums : List Int) : State :=
  { toSend := nums, numsClosed := false, squarer := Squarer.receiving,
    squaresClosed := false, received := [], loopEnded := false }

/-- One move of the pipeline. -/
def step : Move → State → Option State
  | .passNumber, s =>
    match s.toSend, s.squarer with
    | n :: rest, Squarer.receiving =>
      if s.numsClosed then none
      else some { s with toSend := rest, squarer := Squarer.sending n }
    | _, _ => none
  | .closeNums, s =>
    match s.toSend with
    | [] => if s.numsClosed then none else some { s with numsClosed := true }
    | _ :: _ => none
  | .squarerLeavesLoop, s =>
    match s.squarer with
    | Squarer.receiving =>
      if s.numsClosed then some { s with squarer := Squarer.closing } else none
    | _ => none
  | .passSquare, s =>
    match s.squarer with
    | Squarer.sending n =>
      if s.loopEnded then none
      else some { s with squarer := Squarer.receiving,
                         received := s.received ++ [Calculator.wrapInt (n * n)] }
    | _ => none
  | .closeSquares, s =>
    match s.squarer with
    | Squarer.closing => some { s with squarer := Squarer.finished, squaresClosed := true }
    | _ => none
  | .mainLeavesLoop, s =>
    if s.squaresClosed && !s.loopEnded then some { s with loopEnded := true } else none

/-- The values still on their way to `main`: the one the squarer holds, then the
ones the generator has still to send. -/
def pending (s : State) : List Int :=
  (match s.squarer with
    | Squarer.sending n => [n]
    | _ => []) ++ s.toSend

/-- The invariant of the pipeline for the input `nums`. -/
def Inv (nums : List Int) (s : State) : Prop :=
  s.received ++ (pending s).map (fun n => Calculator.wrapInt (n * n))
      = nums.map (fun n => Calculator.wrapInt (n * n)) ∧
  (s.numsClosed = true → s.toSend = []) ∧
  (s.squarer = Squarer.closing ∨ s.squarer = Squarer.finished → s.numsClosed = true) ∧
  (s.squaresClosed = true ↔ s.squarer = Squarer.finished) ∧
  (s.loopEnded = true → s.squaresClosed = true)

/-- Number of moves the pipeline can still make, at most. -/
def movesLeft (s : State) : Nat :=
  2 * s.toSend.length + (if s.numsClosed then 0 else 1)
    + (match s.squarer with
        | Squarer.receiving => 2
        | Squarer.sending _ => 3
        | Squarer.closing => 1
        | Squarer.finished => 0)
    + (if s.loopEnded then 0 else 1)

end Pipeline

end Concurrency

namespace Concurrency

/-! ### Section 6 of `main`: the fan-out worker pool -/

namespace FanOut

/-- Where `main` stands in section 6. -/
inductive MainPc where
  /-- In `for w := 1; w <= 3; w++ { go worker(w, jobs, results) }`, before the test of `w`. -/
  | spawning (w : Int) : MainPc
  /-- In `for j := 1; j <= 5; j++ { jobs <- j }`, before the test of `j`. -/
  | sending (j : Int) : MainPc
  /-- At `close(jobs)`. -/
  | closing : MainPc
  /-- In `for a := 1; a <= 5; a++ { <-results }`, before the test of `a`. -/
  | collecting (a : Int) : MainPc
  /-- Past the last receive. -/
  | finished : MainPc
  deriving DecidableEq

/-- Where a goroutine running `worker` stands. -/
inductive Worker where
  /-- At `for job := range jobs`, waiting for a job or for the close of `jobs`. -/
  | waiting : Worker
  /-- Holding `job`, on the way to the send `results <- job * 2`. -/
  | working (job : Int) : Worker
  /-- Past the loop: the function has returned. -/
  | exited : Worker
  deriving DecidableEq

/-- Capacity of the channels `jobs` and `results`: `make(chan int, 10)`. -/
def capacity : Nat := 10

/-- State of the worker pool.  The last three fields are history kept for the
statement of the properties; no move reads them. -/
structure State where
  /-- Position of `main`. -/
  pc : MainPc
  /-- Buffer of the channel `jobs`, oldest first. -/
  jobs : List Int
  /-- Whether `jobs` is closed. -/
  jobsClosed : Bool
  /-- Buffer of the channel `results`, oldest first. -/
  results : List Int
  /-- The worker goroutines started so far, worker `k + 1` at index `k`. -/
  workers : List Worker
  /-- History: the values `main` has received from `results`, in order. -/
  received : List Int
  /-- History: each receive of a job by a worker, as (worker, job), in order. -/
  consumed : List (Nat × Int)
  /-- History: the values sent on `results`, in order. -/
  produced : List Int
  deriving DecidableEq

/-- A move of the worker pool: the next step of `main` or of the worker at an index. -/
inductive Move where
  | main : Move
  | worker (k : Nat) : Move
  deriving DecidableEq

/-- The state at the start of section 6, the two channels just made. -/
def init : State :=
  { pc := MainPc.spawning 1, jobs := [], jobsClosed := false, results := [],
    workers := [], received := [], consumed := [], produced := [] }

/-- One step of `main`; `none` when it is blocked on a channel or has finished. -/
def stepMain (s : State) : Option State :=
  match s.pc with
  | MainPc.spawning w =>
    if w ≤ 3 then
      some { s with workers := s.workers ++ [Worker.waiting], pc := MainPc.spawning (w + 1) }
    else some { s with pc := MainPc.sending 1 }
  | MainPc.sending j =>
    if j ≤ 5 then
      if s.jobs.length < capacity then
        some { s with jobs := s.jobs ++ [j], pc := MainPc.sending (j + 1) }
      else none
    else some { s with pc := MainPc.closing }
  | MainPc.closing => some { s with jobsClosed := true, pc := MainPc.collecting 1 }
  | MainPc.collecting a =>
    if a ≤ 5 then
      match s.results with
      | v :: rest =>
        some { s with results := rest, received := s.received ++ [v],
                      pc := MainPc.collecting (a + 1) }
      | [] => none
    else some { s with pc := MainPc.finished }
  | MainPc.finished => none

/-- One step of the worker at index `k`; `none` when it is blocked on a channel, has
returned, or was never started. -/
def stepWorker (k : Nat) (s : State) : Option State :=
  match s.workers[k]? with
  | some Worker.waiting =>
    match s.jobs with
    | job :: rest =>
      some { s with jobs := rest, workers := s.workers.set k (Worker.working job),
                    consumed := s.consumed ++ [(k + 1, job)] }
    | [] =>
      if s.jobsClosed then some { s with workers := s.workers.set k Worker.exited }
      else none
  | some (Worker.working job) =>
    if s.results.length < capacity then
      some { s with results := s.results ++ [Calculator.wrapInt (job * 2)],
                    produced := s.produced ++ [Calculator.wrapInt (job * 2)],
                    workers := s.workers.set k Worker.waiting }
    else none
  | some Worker.exited => none
  | none => none

/-- One move of the worker pool. -/
def step : Move → State → Option State
  | Move.main, s => stepMain s
  | Move.worker k, s => stepWorker k s

/-- The jobs `main` has sent when it stands at `pc`. -/
def sent : MainPc → List Int
  | MainPc.spawning _ => []
  | MainPc.sending j => [1, 2, 3, 4, 5].filter (fun i => i < j)
  | _ => [1, 2, 3, 4, 5]

/-- The result a worker computes for a job. -/
def double (job : Int) : Int := Calculator.wrapInt (job * 2)

/-- The result a worker is about to send, as a multiset: empty unless it holds a job. -/
def heldResult : Worker → Multiset Int
  | Worker.working job => {double job}
  | _ => 0

/-- The invariant of the worker pool. -/
def Inv (s : State) : Prop :=
  ((s.jobs.map double : Multiset Int) + (s.workers.map heldResult).sum + (s.produced : Multiset Int)
      = ((sent s.pc).map double : Multiset Int)) ∧
  ((s.produced : Multiset Int) = (s.results : Multiset Int) + (s.received : Multiset Int)) ∧
  (((s.consumed.map Prod.snd : List Int) : Multiset Int) + (s.jobs : Multiset Int)
      = (sent s.pc : Multiset Int)) ∧
  (match s.pc with
    | MainPc.spawning w =>
      1 ≤ w ∧ w ≤ 4 ∧ (s.workers.length : Int) + 1 = w ∧ s.jobsClosed = false ∧ s.received = []
    | MainPc.sending j =>
      1 ≤ j ∧ j ≤ 6 ∧ s.workers.length = 3 ∧ s.jobsClosed = false ∧ s.received = []
    | MainPc.closing => s.workers.length = 3 ∧ s.jobsClosed = false ∧ s.received = []
    | MainPc.collecting a =>
      1 ≤ a ∧ a ≤ 6 ∧ s.workers.length = 3 ∧ s.jobsClosed = true ∧
        (s.received.length : Int) + 1 = a
    | MainPc.finished => s.workers.length = 3 ∧ s.jobsClosed = true ∧ s.received.length = 5) ∧
  (Worker.exited ∈ s.workers → s.jobs = [] ∧ s.jobsClosed = true)

/-- Weight of a position of `main` in the bound on the number of moves. -/
def pcWeight : MainPc → Nat
  | MainPc.spawning w => 40 + 2 * (5 - w).toNat
  | MainPc.sending j => 20 + 3 * (6 - j).toNat
  | MainPc.closing => 10
  | MainPc.collecting a => 1 + (6 - a).toNat
  | MainPc.finished => 0

/-- Weight of a worker in the bound on the number of moves. -/
def workerWeight : Worker → Nat
  | Worker.waiting => 1
  | Worker.working _ => 2
  | Worker.exited => 0

/-- A bound on the number of moves the worker pool can still make. -/
def movesLeft (s : State) : Nat :=
  pcWeight s.pc + 2 * s.jobs.length + (s.workers.map workerWeight).sum

end FanOut

end Concurrency

/-!
Lesson 5: the contact book, `05-data-structures/challenge-solution/challenge-solution.go`.

A slice is modelled by the list of its elements; the functions below are described by
the slice they return.
-/

namespace ContactBook

/-- Go: `type Contact struct { Name, Phone, Email string }`. -/
structure Contact where
  Name : String
  Phone : String
  Email : String
  deriving DecidableEq

/-- Go: `func AddContact(contacts []Contact, contact Contact) []Contact`. -/
def AddContact (contacts : List Contact) (contact : Contact) : List Contact :=
  contacts ++ [contact]

/-- Go: `func FindContact(contacts []Contact, name string) (Contact, bool)`; when no
contact has the name the result is the zero `Contact{}` and `false`. -/
def FindContact : List Contact → String → Contact × Bool
  | [], _ => ({ Name := "", Phone := "", Email := "" }, false)
  | contact :: rest, name =>
    if contact.Name = name then (contact, true) else FindContact rest name

/-- The loop `for i, contact := range contacts` of `DeleteContact`, standing at index
`i` with the elements `rest` still to visit: at the first contact with the name it
returns `append(contacts[:i], contacts[i+1:]...)`, and `contacts` when there is
none. -/
def deleteLoop (contacts : List Contact) (name : String) : Nat → List Contact → List Contact
  | _, [] => contacts
  | i, contact :: rest =>
    if contact.Name = name then contacts.take i ++ contacts.drop (i + 1)
    else deleteLoop contacts name (i + 1) rest

/-- Go: `func DeleteContact(contacts []Contact, name string) []Contact`. -/
def DeleteContact (contacts : List Contact) (name : String) : List Contact :=
  deleteLoop contacts name 0 contacts

end ContactBook

/-!
Lesson 14: the in-memory user store of `14-rest-api-fundamentals/main.go`.

The package variables `users` and `nextID` form the state.  What the router and the
JSON decoder extract from a request is the content of the request here: the `{id}`
path parameter as `strconv.Atoi` reads it (`none` when it reports an error) and the
body as decoded into a `User` (`none` when decoding fails).  `time.Now()` is a field
of the request, and a `time.Time` is a natural number.

`http.ListenAndServe` runs the handler of every request in a goroutine of its own, and
the handlers read and write `users` and `nextID` without a lock, so the statements of
handlers of different requests interleave.  A handler in progress is a `Task`: the
statement it executes next, with its local variables.  A move of the server is the
arrival of a request, which starts its handler, or one step of one running handler: a
statement that reads or writes a package variable, together with the neighbouring
statements that touch only local variables of the handler.  Writing the response
changes no package variable; the status code is what a handler leaves when it returns.

The functions `createUser`, `updateUser` and `deleteUser` give the effect of a whole
handler, from its first statement to its last with no step of another handler in
between.
-/

namespace RestApi

/-- Go: `type User struct`. -/
structure User where
  ID : Int
  Name : String
  Email : String
  CreatedAt : Nat
  deriving DecidableEq

/-- The package variables `users` (a `map[int]User`) and `nextID`. -/
structure Store where
  users : Int → Option User
  nextID : Int

/-- Go: `users[id] = user`. -/
def Store.put (s : Store) (id : Int) (user : User) : Store :=
  { s with users := fun k => if k = id then some user else s.users k }

/-- Go: `delete(users, id)`. -/
def Store.remove (s : Store) (id : Int) : Store :=
  { s with users := fun k => if k = id then none else s.users k }

/-- Go: `nextID++`. -/
def Store.increment (s : Store) : Store :=
  { s with nextID := Calculator.wrapInt (s.nextID + 1) }

/-- The package variables as declared: an empty map and `nextID = 1`. -/
def declared : Store := { users := fun _ => none, nextID := 1 }

/-- One block of the sample data of `main`: `users[nextID] = User{ID: nextID, ...}`
followed by `nextID++`. -/
def addSample (s : Store) (name email : String) (now : Nat) : Store :=
  (s.put s.nextID { ID := s.nextID, Name := name, Email := email, CreatedAt := now }).increment

/-- The state when the server starts: the two sample users of `main`, created at the
times `t₁` and `t₂`. -/
def seeded (t₁ t₂ : Nat) : Store :=
  addSample (addSample declared "Alice Johnson" "alice@example.com" t₁)
    "Bob Smith" "bob@example.com" t₂

/-- Go: `func createUser(w, r)`, with the decoded body and the value of `time.Now()`. -/
def createUser (body : Option User) (now : Nat) (s : Store) : Store × Nat :=
  match body with
  | none => (s, 400)
  | some user =>
    if user.Name = "" then (s, 400)
    else if user.Email = "" then (s, 400)
    else
      ((s.put s.nextID { user with ID := s.nextID, CreatedAt := now }).increment, 201)

/-- Go: `func updateUser(w, r)`, with the parsed path parameter and the decoded body. -/
def updateUser (id : Option Int) (body : Option User) (s : Store) : Store × Nat :=
  match id with
  | none => (s, 400)
  | some id =>
    match s.users id with
    | none => (s, 404)
    | some user =>
      match body with
      | none => (s, 400)
      | some updates =>
        (s.put id { user with Name := updates.Name, Email := updates.Email }, 200)

/-- Go: `func deleteUser(w, r)`, with the parsed path parameter. -/
def deleteUser (id : Option Int) (s : Store) : Store × Nat :=
  match id with
  | none => (s, 400)
  | some id =>
    match s.users id with
    | none => (s, 404)
    | some _ => (s.remove id, 204)

/-- A request that can change the store, as routed by `setupRouter`. -/
inductive Request where
  /-- `POST /api/users`. -/
  | create (body : Option User) (now : Nat) : Request
  /-- `PUT /api/users/{id}`. -/
  | update (id : Option Int) (body : Option User) : Request
  /-- `DELETE /api/users/{id}`. -/
  | delete (id : Option Int) : Request

/-- The handler the router calls for a request. -/
def handle : Request → Store → Store × Nat
  | Request.create body now, s => createUser body now s
  | Request.update id body, s => updateUser id body s
  | Request.delete id, s => deleteUser id s

/-- The store after a sequence of requests each of which is handled from its first
statement to its last before the next one starts. -/
def serve (requests : List Request) (s : Store) : Store :=
  requests.foldl (fun s request => (handle request s).1) s

/-- A handler in progress: the statement it executes next and its local variables. -/
inductive Task where
  /-- `createUser` at its start: lines 126-140 decode and validate the body, line 143 is
  `user.ID = nextID` and line 144 `user.CreatedAt = time.Now()`. -/
  | createAssign (body : Option User) (now : Nat) : Task
  /-- `createUser` at line 145, `users[nextID] = user`. -/
  | createStore (user : User) : Task
  /-- `createUser` at line 146, `nextID++`, after which it answers 201. -/
  | createIncrement : Task
  /-- `updateUser` at its start: lines 170-174 parse the path parameter, line 176 is
  `user, exists := users[id]`, lines 182-190 decode the body and set `user.Name` and
  `user.Email`. -/
  | updateLookup (id : Option Int) (body : Option User) : Task
  /-- `updateUser` at line 191, `users[id] = user`, after which it answers 200. -/
  | updateStore (id : Int) (user : User) : Task
  /-- `deleteUser` at its start: lines 198-202 parse the path parameter, line 204 is
  `_, exists := users[id]`. -/
  | deleteLookup (id : Option Int) : Task
  /-- `deleteUser` at line 209, `delete(users, id)`, after which it answers 204. -/
  | deleteRemove (id : Int) : Task
  deriving DecidableEq

/-- One step of a handler on the package variables: the store after the step, and
either the handler at its next statement or the status code it returns with. -/
def Task.move : Task → Store → Store × Sum Task Nat
  | Task.createAssign body now, s =>
    match body with
    | none => (s, Sum.inr 400)
    | some user =>
      if user.Name = "" then (s, Sum.inr 400)
      else if user.Email = "" then (s, Sum.inr 400)
      else (s, Sum.inl (Task.createStore { user with ID := s.nextID, CreatedAt := now }))
  | Task.createStore user, s => (s.put s.nextID user, Sum.inl Task.createIncrement)
  | Task.createIncrement, s => (s.increment, Sum.inr 201)
  | Task.updateLookup id body, s =>
    match id with
    | none => (s, Sum.inr 400)
    | some id =>
      match s.users id with
      | none => (s, Sum.inr 404)
      | some user =>
        match body with
        | none => (s, Sum.inr 400)
        | some updates =>
          (s, Sum.inl (Task.updateStore id
            { user with Name := updates.Name, Email := updates.Email }))
  | Task.updateStore id user, s => (s.put id user, Sum.inr 200)
  | Task.deleteLookup id, s =>
    match id with
    | none => (s, Sum.inr 400)
    | some id =>
      match s.users id with
      | none => (s, Sum.inr 404)
      | some _ => (s, Sum.inl (Task.deleteRemove id))
  | Task.deleteRemove id, s => (s.remove id, Sum.inr 204)

/-- The handler the router starts for a request, at its first statement. -/
def Request.start : Request → Task
  | Request.create body now => Task.createAssign body now
  | Request.update id body => Task.updateLookup id body
  | Request.delete id => Task.deleteLookup id

/-- The server: the package variables and the handlers that are running. -/
structure Server where
  store : Store
  running : List Task

/-- The moves of the server. -/
inductive Move where
  /-- A request arrives and its handler is started in a new goroutine. -/
  | arrive (request : Request) : Move
  /-- The `k`-th running handler executes its next step. -/
  | advance (k : Nat) : Move

/-- One move of the server; `none` when there is no `k`-th running handler.  A handler
that returns leaves the list of running handlers. -/
def step : Move → Server → Option Server
  | Move.arrive request, srv =>
    some { srv with running := srv.running ++ [request.start] }
  | Move.advance k, srv =>
    match srv.running[k]? with
    | none => none
    | some task =>
      match task.move srv.store with
      | (s, Sum.inl next) => some { store := s, running := srv.running.set k next }
      | (s, Sum.inr _) => some { store := s, running := srv.running.eraseIdx k }

/-- The server when `main` calls `http.ListenAndServe`: the two sample users are
stored and no handler is running. -/
def listening (t₁ t₂ : Nat) : Server :=
  { store := seeded t₁ t₂, running := [] }

/-- The requests that arrive in a schedule, in the order of arrival. -/
def arrivals : List Move → List Request
  | [] => []
  | Move.arrive request :: rest => request :: arrivals rest
  | Move.advance _ :: rest => arrivals rest

/-- Whether a schedule, run from a state of the server, handles its requests one at a
time: no request arrives while a handler is running. -/
def exclusive : List Move → Server → Bool
  | [], _ => true
  | Move.arrive request :: rest, srv =>
    srv.running.isEmpty &&
      match step (Move.arrive request) srv with
      | some srv' => exclusive rest srv'
      | none => true
  | Move.advance k :: rest, srv =>
    match step (Move.advance k) srv with
    | some srv' => exclusive rest srv'
    | none => true

/-- An upper bound on the number of steps a handler still takes. -/
def Task.rank : Task → Nat
  | Task.createAssign _ _ => 3
  | Task.createStore _ => 2
  | Task.createIncrement => 1
  | Task.updateLookup _ _ => 2
  | Task.updateStore _ _ => 1
  | Task.deleteLookup _ => 2
  | Task.deleteRemove _ => 1

/-- A handler run alone for at most `fuel` steps: the store and the status code it
returns with, `none` when the fuel runs out first. -/
def Task.solo : Nat → Task → Store → Option (Store × Nat)
  | 0, _, _ => none
  | fuel + 1, task, s =>
    match task.move s with
    | (s', Sum.inl next) => Task.solo fuel next s'
    | (s', Sum.inr status) => some (s', status)

/-- The moves of a handler that runs alone, at most `fuel` of them, as the only
running handler. -/
def Task.soloMoves : Nat → Task → Store → List Move
  | 0, _, _ => []
  | fuel + 1, task, s =>
    Move.advance 0 ::
      match task.move s with
      | (s', Sum.inl next) => Task.soloMoves fuel next s'
      | (_, Sum.inr _) => []

/-- The schedule that handles the requests of a list one at a time, from a store. -/
def sequentialSchedule : List Request → Store → List Move
  | [], _ => []
  | request :: rest, s =>
    Move.arrive request ::
      (Task.soloMoves request.start.rank request.start s
        ++ sequentialSchedule rest (handle request s).1)

/-- Requests used as a long-running example: `n` rounds, each creating a user and
then deleting the user stored under `id`, `id + 1`, ... in turn. -/
def churn (user : User) (now : Nat) : Nat → Int → List Request
  | 0, _ => []
  | n + 1, id =>
    Request.create (some user) now :: Request.delete (some id) :: churn user now n (id + 1)

/-- A schedule used as an example: a user is created, user 1 is renamed, user 2 is
deleted and another user is created, each handler returning before the next request
arrives. -/
def sampleSchedule : List Move :=
  [Move.arrive (Request.create (some ⟨0, "Carol", "carol@example.com", 0⟩) 7),
   Move.advance 0, Move.advance 0, Move.advance 0,
   Move.arrive (Request.update (some 1) (some ⟨0, "Alice J.", "alice@example.org", 0⟩)),
   Move.advance 0, Move.advance 0,
   Move.arrive (Request.delete (some 2)),
   Move.advance 0, Move.advance 0,
   Move.arrive (Request.create (some ⟨0, "Dave", "dave@example.com", 0⟩) 9),
   Move.advance 0, Move.advance 0, Move.advance 0]

/-- Whether a request creates a user: a `POST` whose body decodes and has a name and
an email. -/
def Request.creates : Request → Bool
  | Request.create (some user) _ => user.Name != "" && user.Email != ""
  | _ => false

/-- The invariant of the store: `nextID` is positive, and every stored user carries
the key it is stored under, which is below `nextID`. -/
def Inv (s : Store) : Prop :=
  1 ≤ s.nextID ∧ ∀ k u, s.users k = some u → u.ID = k ∧ k < s.nextID

/-- Every stored user carries the key it is stored under. -/
def KeyInv (s : Store) : Prop :=
  ∀ k u, s.users k = some u → u.ID = k

/-- What links the server, when requests are handled one at a time, to `serve`: with
no handler running the store is the one `serve` gives for the requests that have
arrived, and a single running handler, run alone to its end, leads to that store. -/
def Linked (s₀ : Store) (requests : List Request) (srv : Server) : Prop :=
  (srv.running = [] ∧ srv.store = serve requests s₀) ∨
  (∃ task status, srv.running = [task] ∧
    Task.solo task.rank task srv.store = some (serve requests s₀, status))

end RestApi

namespace Calculator

/-! ## Facts about the machine-integer model -/

theorem halfRange_eq : halfRange = 9223372036854775808 := by decide

theorem fullRange_eq : fullRange = 18446744073709551616 := by decide

theorem minInt_eq : minInt = -9223372036854775808 := by decide

theorem maxInt_eq : maxInt = 9223372036854775807 := by decide

theorem wrapInt_inRange (x : Int) : InRange (wrapInt x) := by
  unfold InRange wrapInt
  rw [minInt_eq, maxInt_eq, halfRange_eq, fullRange_eq]
  omega

theorem wrapInt_of_inRange {x : Int} (h : InRange x) : wrapInt x = x := by
  unfold InRange at h
  unfold wrapInt
  rw [minInt_eq, maxInt_eq] at h
  rw [halfRange_eq, fullRange_eq]
  omega

theorem wrapInt_eq_sub (x : Int) :
    wrapInt x = x - fullRange * ((x + halfRange) / fullRange) := by
  unfold wrapInt
  rw [Int.emod_def]
  ring

theorem wrapInt_add_mul_fullRange (x k : Int) : wrapInt (x + k * fullRange) = wrapInt x := by
  unfold wrapInt
  rw [show x + k * fullRange + halfRange = x + halfRange + k * fullRange by ring,
    Int.add_mul_emod_self]

theorem wrapInt_wrapInt_add (x y : Int) : wrapInt (wrapInt x + y) = wrapInt (x + y) := by
  rw [wrapInt_eq_sub x]
  rw [show x - fullRange * ((x + halfRange) / fullRange) + y
      = (x + y) + (-((x + halfRange) / fullRange)) * fullRange by ring]
  exact wrapInt_add_mul_fullRange _ _

theorem wrapInt_wrapInt_mul (x y : Int) : wrapInt (wrapInt x * y) = wrapInt (x * y) := by
  rw [wrapInt_eq_sub x]
  rw [show (x - fullRange * ((x + halfRange) / fullRange)) * y
      = x * y + (-((x + halfRange) / fullRange) * y) * fullRange by ring]
  exact wrapInt_add_mul_fullRange _ _

theorem wrapInt_congr (x : Int) : ∃ k : Int, wrapInt x = x + k * 2 ^ 64 := by
  refine ⟨-((x + halfRange) / fullRange), ?_⟩
  rw [wrapInt_eq_sub, fullRange_eq]
  ring

theorem wrapInt_eq_self_iff (x : Int) : wrapInt x = x ↔ InRange x := by
  constructor
  · intro h
    rw [← h]
    exact wrapInt_inRange x
  · exact wrapInt_of_inRange

theorem tdiv_inRange {a b : Int} (ha : InRange a) (hb : InRange b)
    (hne : ¬(a = minInt ∧ b = -1)) : InRange (a.tdiv b) := by
  unfold InRange at *
  rw [minInt_eq, maxInt_eq] at *
  have hq : (a.tdiv b).natAbs = a.natAbs / b.natAbs := Int.natAbs_tdiv a b
  have hle : a.natAbs / b.natAbs ≤ a.natAbs := Nat.div_le_self _ _
  constructor
  · omega
  · by_contra hcon
    have h1 : a.natAbs / b.natAbs = 9223372036854775808 := by omega
    have h2 : a = -9223372036854775808 := by omega
    have h3 : a.natAbs = 9223372036854775808 := by omega
    have h4 : b.natAbs = 1 := by
      rcases Nat.lt_or_ge b.natAbs 2 with h | h
      · have : b.natAbs ≠ 0 := by
          intro h0
          rw [h0, Nat.div_zero] at h1
          omega
        omega
      · have : a.natAbs / b.natAbs ≤ a.natAbs / 2 := Nat.div_le_div_left h (by decide)
        omega
    have h5 : b = 1 := by omega
    rw [h5, Int.tdiv_one] at hcon
    omega

theorem tmod_natAbs (a b : Int) : (a.tmod b).natAbs = a.natAbs % b.natAbs := by
  rcases a with m | m <;> rcases b with n | n <;> simp [Int.tmod] <;> rfl

theorem tmod_nonpos_of_nonpos (a b : Int) (ha : a ≤ 0) : a.tmod b ≤ 0 := by
  rcases a with m | m <;> rcases b with n | n
  · have : m = 0 := by simp only [Int.ofNat_eq_coe] at ha; omega
    subst this; simp
  · have : m = 0 := by simp only [Int.ofNat_eq_coe] at ha; omega
    subst this; simp
  · simp only [Int.tmod, Int.ofNat_eq_coe]; omega
  · simp only [Int.tmod, Int.ofNat_eq_coe]; omega

/-! ## Divide -/

/-- C1: for all integers `a` and `b`, `Divide(a, b)` returns a non-nil error
exactly when `b` is zero; dividing by zero returns the quotient 0 together with the
sentinel `ErrDivisionByZero`, whose message is "division by zero". -/
theorem Divide_error_iff_zero (a b : Int) :
    ((Divide a b).2 ≠ none ↔ b = 0) ∧
    Divide a 0 = (0, some GoError.ErrDivisionByZero) ∧
    GoError.ErrDivisionByZero.Error = "division by zero" := by
  refine ⟨?_, ?_, rfl⟩
  · unfold Divide
    by_cases hb : b = 0 <;> simp [hb]
  · simp [Divide]

/-- C2, as stated, fails when the most negative `int` is divided by -1: both
arguments are valid `int` values and the divisor is not zero, yet `Divide` returns
the dividend itself rather than the truncated quotient `2 ^ 63`, and no remainder
of magnitude below 1 completes the returned quotient to the dividend. -/
theorem Divide_minInt_neg_one_overflows :
    InRange minInt ∧ InRange (-1) ∧ (-1 : Int) ≠ 0 ∧
    Divide minInt (-1) = (minInt, none) ∧
    (Divide minInt (-1)).1 ≠ minInt.tdiv (-1) ∧
    ¬ ∃ r : Int, minInt = (Divide minInt (-1)).1 * (-1) + r ∧ |r| < |(-1 : Int)| := by
  refine ⟨by decide, by decide, by decide, by decide, by decide, ?_⟩
  rintro ⟨r, hr, hlt⟩
  have hd : (Divide minInt (-1)).1 = minInt := by decide
  rw [hd, minInt_eq] at hr
  have h1 : |(-1 : Int)| = 1 := by decide
  rw [h1] at hlt
  have h2 := abs_lt.mp hlt
  omega

/-- C2 (amended): for all `int` values `a` and `b` with `b` non-zero, other than the
single pair `a = minInt`, `b = -1`, `Divide(a, b)` returns a nil error and the
quotient `q` of `a` by `b` truncated toward zero; with `r` the truncated remainder,
`a = q * b + r`, `|r| < |b|`, and `r` is zero or has the sign of `a`. -/
theorem Divide_truncates (a b : Int) (ha : InRange a) (hb : InRange b) (hb0 : b ≠ 0)
    (hne : ¬(a = minInt ∧ b = -1)) :
    Divide a b = (a.tdiv b, none) ∧
    a = (Divide a b).1 * b + a.tmod b ∧
    |a.tmod b| < |b| ∧
    (a.tmod b = 0 ∨ (0 < a.tmod b ∧ 0 < a) ∨ (a.tmod b < 0 ∧ a < 0)) := by
  have hdiv : Divide a b = (a.tdiv b, none) := by
    unfold Divide
    rw [if_neg hb0, wrapInt_of_inRange (tdiv_inRange ha hb hne)]
  have hdecomp : a.tdiv b * b + a.tmod b = a := Int.tdiv_add_tmod' a b
  have habs : |a.tmod b| < |b| := by
    have h : (a.tmod b).natAbs < b.natAbs := by
      rw [tmod_natAbs]
      exact Nat.mod_lt _ (Int.natAbs_pos.mpr hb0)
    rw [Int.abs_eq_natAbs, Int.abs_eq_natAbs]
    exact_mod_cast h
  refine ⟨hdiv, ?_, habs, ?_⟩
  · rw [hdiv]
    exact hdecomp.symm
  · rcases lt_trichotomy a 0 with hneg | hzero | hpos
    · have h : a.tmod b ≤ 0 := tmod_nonpos_of_nonpos a b (le_of_lt hneg)
      rcases eq_or_lt_of_le h with h0 | hlt
      · exact Or.inl h0
      · exact Or.inr (Or.inr ⟨hlt, hneg⟩)
    · left
      rw [hzero]
      exact Int.zero_tmod b
    · have h : 0 ≤ a.tmod b := Int.tmod_nonneg b (le_of_lt hpos)
      rcases eq_or_lt_of_le h with h0 | hlt
      · exact Or.inl h0.symm
      · exact Or.inr (Or.inl ⟨hlt, hpos⟩)

/-- Witness for C2 (amended): the test cases `Divide(-10, 2) = -5` and
`Divide(10, -2) = -5`, and a remainder that takes the sign of the dividend. -/
theorem Divide_truncates_witness :
    InRange (-10) ∧ InRange 2 ∧ (2 : Int) ≠ 0 ∧ ¬((-10 : Int) = minInt ∧ (2 : Int) = -1) ∧
    Divide (-10) 2 = (-5, none) ∧ Divide 10 (-2) = (-5, none) ∧
    (-7 : Int) = (Divide (-7) 2).1 * 2 + (-7 : Int).tmod 2 :=
  ⟨by decide, by decide, by decide, by decide,
    (Divide_truncates (-10) 2 (by decide) (by decide) (by decide) (by decide)).1,
    (Divide_truncates 10 (-2) (by decide) (by decide) (by decide) (by decide)).1,
    (Divide_truncates (-7) 2 (by decide) (by decide) (by decide) (by decide)).2.1⟩

/-! ## Sum -/

theorem foldl_wrapInt_add (numbers : List Int) (acc : Int) :
    numbers.foldl (fun total n => wrapInt (total + n)) (wrapInt acc)
      = wrapInt (acc + numbers.sum) := by
  induction numbers generalizing acc with
  | nil => simp
  | cons x xs ih =>
    rw [List.foldl_cons, wrapInt_wrapInt_add, ih, List.sum_cons, add_assoc]

/-- C5, as stated, fails on overflow: the two-element slice holding the largest
`int` and 1 has elements in range, its sum is `2 ^ 63`, and `Sum` returns the most
negative `int` instead. -/
theorem Sum_maxInt_one_overflows :
    InRange maxInt ∧ InRange 1 ∧
    Sum [maxInt, 1] = minInt ∧ Sum [maxInt, 1] ≠ maxInt + 1 ∧
    Sum [maxInt, 1] ≠ [maxInt, 1].sum := by
  decide

/-- C5 (amended): for every slice of integers, `Sum` returns the sum of all its
elements reduced modulo `2 ^ 64` into the range of `int`; whenever that sum is
itself an `int` value the result is exactly the sum, and the empty slice gives 0. -/
theorem Sum_eq_wrapInt_sum (numbers : List Int) :
    Sum numbers = wrapInt numbers.sum ∧
    (InRange numbers.sum → Sum numbers = numbers.sum) ∧
    Sum [] = 0 := by
  have h : Sum numbers = wrapInt numbers.sum := by
    have h0 : (0 : Int) = wrapInt 0 := by decide
    unfold Sum
    rw [h0, foldl_wrapInt_add, zero_add]
  refine ⟨h, ?_, rfl⟩
  intro hr
  rw [h, wrapInt_of_inRange hr]

/-- Witness for C5 (amended): the test cases `Sum([1,2,3,4,5]) = 15` and, through
the same theorem, `Sum([-5,10,-3]) = 2`. -/
theorem Sum_eq_wrapInt_sum_witness :
    Sum [1, 2, 3, 4, 5] = 15 ∧ Sum [-5, 10, -3] = 2 :=
  ⟨(Sum_eq_wrapInt_sum [1, 2, 3, 4, 5]).2.1 (by decide),
   (Sum_eq_wrapInt_sum [-5, 10, -3]).2.1 (by decide)⟩

/-! ## Abs -/

/-- C7, as stated, fails at the most negative `int`: negating it overflows, so
`Abs` returns it unchanged; the result is negative and differs from `-n`. -/
theorem Abs_minInt_negative :
    InRange minInt ∧ Abs minInt = minInt ∧ ¬ (0 ≤ Abs minInt) ∧
    minInt < 0 ∧ Abs minInt ≠ -minInt := by
  decide

/-- C7 (amended): for every `int` value `n` other than the most negative one,
`Abs(n)` is the absolute value of `n`: it is non-negative, equals `n` when `n ≥ 0`
and equals `-n` when `n < 0`. -/
theorem Abs_eq_abs (n : Int) (hn : InRange n) (hmin : n ≠ minInt) :
    0 ≤ Abs n ∧ (0 ≤ n → Abs n = n) ∧ (n < 0 → Abs n = -n) ∧ Abs n = |n| := by
  have hneg : n < 0 → Abs n = -n := by
    intro h
    unfold Abs
    rw [if_pos h]
    apply wrapInt_of_inRange
    unfold InRange at *
    rw [minInt_eq, maxInt_eq] at *
    omega
  have hpos : 0 ≤ n → Abs n = n := by
    intro h
    unfold Abs
    rw [if_neg (not_lt.mpr h)]
  rcases lt_or_le n 0 with h | h
  · refine ⟨?_, hpos, hneg, ?_⟩
    · rw [hneg h]; omega
    · rw [hneg h, abs_of_neg h]
  · refine ⟨?_, hpos, hneg, ?_⟩
    · rw [hpos h]; exact h
    · rw [hpos h, abs_of_nonneg h]

/-- Witness for C7 (amended): the examples `Abs(-42) = 42` and `Abs(42) = 42`. -/
theorem Abs_eq_abs_witness :
    InRange (-42) ∧ (-42 : Int) ≠ minInt ∧ 0 ≤ Abs (-42) ∧ Abs (-42) = -(-42) ∧
    Abs 42 = 42 :=
  ⟨by decide, by decide, (Abs_eq_abs (-42) (by decide) (by decide)).1,
    (Abs_eq_abs (-42) (by decide) (by decide)).2.2.1 (by decide),
    (Abs_eq_abs 42 (by decide) (by decide)).2.1 (by decide)⟩

/-! ## IsEven -/

/-- C8: for every integer `n`, `IsEven(n)` is true exactly when 2 divides `n`,
although the truncated remainder is negative for negative odd `n` (it is -1 at
-5); in particular `IsEven(-4)`, `IsEven(0)` hold and `IsEven(-5)` does not. -/
theorem IsEven_iff_two_dvd (n : Int) :
    (IsEven n = true ↔ 2 ∣ n) ∧
    IsEven (-4) = true ∧ IsEven (-5) = false ∧ IsEven 0 = true ∧
    (-5 : Int).tmod 2 = -1 := by
  refine ⟨?_, by decide, by decide, by decide, by decide⟩
  unfold IsEven
  rw [beq_iff_eq]
  exact Int.dvd_iff_tmod_eq_zero.symm

/-! ## Max and Min -/

/-- C9: for all integers `a` and `b`, `Max(a, b)` is one of `a`, `b` and is at
least both, so it is the larger of the two; `Max(5,5) = 5`, `Max(-5,-3) = -3`. -/
theorem Max_is_larger (a b : Int) :
    (Max a b = a ∨ Max a b = b) ∧ a ≤ Max a b ∧ b ≤ Max a b ∧
    Max a b = max a b ∧ Max 5 5 = 5 ∧ Max (-5) (-3) = -3 := by
  refine ⟨?_, ?_, ?_, ?_, by decide, by decide⟩ <;> unfold Max <;> split <;> omega

/-- C10: for all integers `a` and `b`, `Min(a, b)` is one of `a`, `b` and is at
most both, so it is the smaller of the two; `Min(3,5) = 3`, `Min(-3,-5) = -5`,
`Min(0,0) = 0`. -/
theorem Min_is_smaller (a b : Int) :
    (Min a b = a ∨ Min a b = b) ∧ Min a b ≤ a ∧ Min a b ≤ b ∧
    Min a b = min a b ∧ Min 3 5 = 3 ∧ Min (-3) (-5) = -5 ∧ Min 0 0 = 0 := by
  refine ⟨?_, ?_, ?_, ?_, by decide, by decide, by decide⟩ <;>
    unfold Min <;> split <;> omega

/-! ## Average -/

theorem roundHalfEven_intCast (m : ℤ) : roundHalfEven (m : ℚ) = m := by
  unfold roundHalfEven
  rw [Int.floor_intCast, sub_self, if_pos (by norm_num)]

theorem floor_le_roundHalfEven (x : ℚ) : ⌊x⌋ ≤ roundHalfEven x := by
  unfold roundHalfEven
  split
  · exact le_refl _
  · split
    · omega
    · split <;> omega

theorem roundFloat64_of_scaled_int {x : ℚ} (m : ℤ)
    (h : x / 2 ^ (Int.log 2 |x| - 52) = m) : roundFloat64 x = x := by
  unfold roundFloat64
  split
  · next h0 => exact h0.symm
  · rw [h, roundHalfEven_intCast, ← h]
    have : (2 : ℚ) ^ (Int.log 2 |x| - 52) ≠ 0 := zpow_ne_zero _ (by norm_num)
    field_simp

theorem roundFloat64_intCast (z : ℤ) (hz : |z| ≤ 2 ^ 53) : roundFloat64 (z : ℚ) = z := by
  by_cases h0 : z = 0
  · subst h0; simp [roundFloat64]
  have hpos : (0 : ℚ) < |(z : ℚ)| := abs_pos.mpr (by exact_mod_cast h0)
  have hlow : (2 : ℚ) ^ Int.log 2 |(z : ℚ)| ≤ |(z : ℚ)| := by
    have := Int.zpow_log_le_self (b := 2) (by norm_num) hpos
    exact_mod_cast this
  have hup : |(z : ℚ)| ≤ 2 ^ (53 : ℤ) := by
    have : ((|z| : ℤ) : ℚ) ≤ ((2 ^ 53 : ℤ) : ℚ) := by exact_mod_cast hz
    rw [Int.cast_abs] at this
    calc |(z : ℚ)| ≤ ((2 ^ 53 : ℤ) : ℚ) := this
      _ = 2 ^ (53 : ℤ) := by norm_num
  have he : Int.log 2 |(z : ℚ)| ≤ 53 := by
    by_contra hcon
    have h54 : (2 : ℚ) ^ (54 : ℤ) ≤ 2 ^ Int.log 2 |(z : ℚ)| :=
      zpow_le_zpow_right₀ (by norm_num) (by omega)
    have : (2 : ℚ) ^ (54 : ℤ) ≤ 2 ^ (53 : ℤ) := le_trans h54 (le_trans hlow hup)
    norm_num at this
  rcases lt_or_eq_of_le he with hlt | heq
  · -- scaling by a non-negative power of two
    obtain ⟨k, hk⟩ : ∃ k : ℕ, (k : ℤ) = 52 - Int.log 2 |(z : ℚ)| :=
      ⟨(52 - Int.log 2 |(z : ℚ)|).toNat, Int.toNat_of_nonneg (by omega)⟩
    apply roundFloat64_of_scaled_int (z * 2 ^ k)
    have hexp : Int.log 2 |(z : ℚ)| - 52 = -(k : ℤ) := by omega
    rw [hexp, zpow_neg, zpow_natCast]
    push_cast
    field_simp
  · -- |z| = 2 ^ 53
    have habs : |(z : ℚ)| = 2 ^ (53 : ℤ) := by
      apply le_antisymm hup
      rw [heq] at hlow
      exact hlow
    have hz2 : |z| = 2 ^ 53 := by
      have : ((|z| : ℤ) : ℚ) = ((2 ^ 53 : ℤ) : ℚ) := by
        rw [Int.cast_abs, habs]; norm_num
      exact_mod_cast this
    have hdvd : (2 : ℤ) ∣ z := by
      rcases abs_eq (by norm_num : (0 : ℤ) ≤ 2 ^ 53) |>.mp hz2 with h | h <;> rw [h] <;> norm_num
    obtain ⟨c, hc⟩ := hdvd
    apply roundFloat64_of_scaled_int c
    rw [heq, hc]
    push_cast
    norm_num

theorem roundFloat64_pos {x : ℚ} (hx : 0 < x) : 0 < roundFloat64 x := by
  unfold roundFloat64
  rw [if_neg (ne_of_gt hx), abs_of_pos hx]
  have hulp : (0 : ℚ) < 2 ^ (Int.log 2 x - 52) := zpow_pos (by norm_num) _
  have hlow : (2 : ℚ) ^ Int.log 2 x ≤ x := by
    have := Int.zpow_log_le_self (b := 2) (by norm_num) hx
    exact_mod_cast this
  have hone : ((1 : ℤ) : ℚ) ≤ x / 2 ^ (Int.log 2 x - 52) := by
    rw [le_div_iff₀ hulp]
    have h1 : (2 : ℚ) ^ (Int.log 2 x - 52) ≤ 2 ^ Int.log 2 x :=
      zpow_le_zpow_right₀ (by norm_num) (by omega)
    push_cast
    linarith
  have hfloor : (1 : ℤ) ≤ ⌊x / 2 ^ (Int.log 2 x - 52)⌋ := Int.le_floor.mpr hone
  have hround := floor_le_roundHalfEven (x / 2 ^ (Int.log 2 x - 52))
  have hcast : (0 : ℚ) < (roundHalfEven (x / 2 ^ (Int.log 2 x - 52)) : ℚ) := by
    exact_mod_cast (by omega : 0 < roundHalfEven (x / 2 ^ (Int.log 2 x - 52)))
  exact mul_pos hcast hulp

theorem abs_roundHalfEven_sub_le (y : ℚ) : |(roundHalfEven y : ℚ) - y| ≤ 1 / 2 := by
  have h0 : (⌊y⌋ : ℚ) ≤ y := Int.floor_le y
  have h1 : y < ⌊y⌋ + 1 := Int.lt_floor_add_one y
  unfold roundHalfEven
  rw [abs_le]
  split
  · constructor <;> linarith
  · split
    · push_cast
      constructor <;> linarith
    · split
      · constructor <;> linarith
      · push_cast
        constructor <;> linarith

/-- Rounding to `float64` changes a number by at most half a unit in the last place:
the relative error is at most `2 ^ (-53)`. -/
theorem abs_roundFloat64_sub_le (x : ℚ) : |roundFloat64 x - x| ≤ |x| / 2 ^ 53 := by
  unfold roundFloat64
  split
  · next h0 => simp [h0]
  · next h0 =>
    have hpos : (0 : ℚ) < |x| := abs_pos.mpr h0
    have hlow : (2 : ℚ) ^ Int.log 2 |x| ≤ |x| := by
      have := Int.zpow_log_le_self (b := 2) (by norm_num) hpos
      exact_mod_cast this
    have hulp : (0 : ℚ) < 2 ^ (Int.log 2 |x| - 52) := zpow_pos (by norm_num) _
    have hsplit : (2 : ℚ) ^ (Int.log 2 |x| - 52) * 2 ^ (52 : ℤ) = 2 ^ Int.log 2 |x| := by
      rw [← zpow_add₀ (by norm_num : (2 : ℚ) ≠ 0)]
      congr 1
      ring
    have h52 : (2 : ℚ) ^ (52 : ℤ) = 4503599627370496 := by norm_num
    rw [h52] at hsplit
    have hr := abs_roundHalfEven_sub_le (x / 2 ^ (Int.log 2 |x| - 52))
    have heq : (roundHalfEven (x / 2 ^ (Int.log 2 |x| - 52)) : ℚ) * 2 ^ (Int.log 2 |x| - 52) - x
        = ((roundHalfEven (x / 2 ^ (Int.log 2 |x| - 52)) : ℚ) - x / 2 ^ (Int.log 2 |x| - 52))
          * 2 ^ (Int.log 2 |x| - 52) := by
      field_simp
    rw [heq, abs_mul, abs_of_pos hulp, le_div_iff₀ (by norm_num)]
    have h2 : |(roundHalfEven (x / 2 ^ (Int.log 2 |x| - 52)) : ℚ) - x / 2 ^ (Int.log 2 |x| - 52)|
        * 2 ^ (Int.log 2 |x| - 52) ≤ 1 / 2 * 2 ^ (Int.log 2 |x| - 52) :=
      mul_le_mul_of_nonneg_right hr (le_of_lt hulp)
    nlinarith

/-- The binary exponent of a number between two consecutive powers of two. -/
theorem log_eq_of_bounds {x : ℚ} {e : ℤ} (h1 : (2 : ℚ) ^ e ≤ x) (h2 : x < 2 ^ (e + 1)) :
    Int.log 2 x = e := by
  have hpos : (0 : ℚ) < x := lt_of_lt_of_le (zpow_pos (by norm_num) e) h1
  have ha : e ≤ Int.log 2 x :=
    (Int.zpow_le_iff_le_log (b := 2) (by norm_num) hpos).mp (by exact_mod_cast h1)
  have hb : Int.log 2 x < e + 1 :=
    (Int.lt_zpow_iff_log_lt (b := 2) (by norm_num) hpos).mp (by exact_mod_cast h2)
  omega

/-- Evaluation of `roundFloat64` at a number whose binary exponent is known. -/
theorem roundFloat64_eval {x : ℚ} (e : ℤ) (h1 : (2 : ℚ) ^ e ≤ |x|) (h2 : |x| < 2 ^ (e + 1)) :
    roundFloat64 x = roundHalfEven (x / 2 ^ (e - 52)) * 2 ^ (e - 52) := by
  have hne : x ≠ 0 := by
    intro h0
    rw [h0, abs_zero] at h1
    exact absurd h1 (not_le.mpr (zpow_pos (by norm_num) e))
  unfold roundFloat64
  rw [if_neg hne, log_eq_of_bounds h1 h2]

theorem Average_one_one_two : Average [1, 1, 2] = 6004799503160661 / 4503599627370496 := by
  have hs : Sum [1, 1, 2] = 4 := by decide
  have h4 : float64OfInt 4 = 4 := by
    have := roundFloat64_intCast 4 (by norm_num)
    unfold float64OfInt
    exact_mod_cast this
  have h3 : float64OfInt ((3 : ℕ) : Int) = 3 := by
    have := roundFloat64_intCast 3 (by norm_num)
    unfold float64OfInt
    exact_mod_cast this
  have hfl : ⌊(4 / 3 : ℚ) / 2 ^ ((0 : ℤ) - 52)⌋ = 6004799503160661 := by
    rw [Int.floor_eq_iff]
    norm_num
  have hr : roundHalfEven ((4 / 3 : ℚ) / 2 ^ ((0 : ℤ) - 52)) = 6004799503160661 := by
    unfold roundHalfEven
    rw [hfl, if_pos (by norm_num)]
  unfold Average
  rw [if_neg (by decide)]
  show float64Div (float64OfInt (Sum [1, 1, 2])) (float64OfInt ((3 : ℕ) : Int)) = _
  rw [hs, h4, h3]
  unfold float64Div
  rw [roundFloat64_eval 0 (by norm_num [abs_of_pos]) (by norm_num [abs_of_pos]), hr]
  norm_num

theorem Average_two_pow_53_add_one :
    Average [9007199254740993] = 9007199254740992 := by
  have hs : Sum [9007199254740993] = 9007199254740993 := by decide
  have hfl : ⌊((9007199254740993 : ℤ) : ℚ) / 2 ^ ((53 : ℤ) - 52)⌋ = 4503599627370496 := by
    rw [Int.floor_eq_iff]
    norm_num
  have hr : roundHalfEven (((9007199254740993 : ℤ) : ℚ) / 2 ^ ((53 : ℤ) - 52))
      = 4503599627370496 := by
    unfold roundHalfEven
    rw [hfl, if_neg (by norm_num), if_neg (by norm_num), if_pos (by norm_num)]
  have hconv : float64OfInt 9007199254740993 = 9007199254740992 := by
    unfold float64OfInt
    rw [roundFloat64_eval 53 (by norm_num [abs_of_pos]) (by norm_num [abs_of_pos]), hr]
    norm_num
  have h1 : float64OfInt ((1 : ℕ) : Int) = 1 := by
    have := roundFloat64_intCast 1 (by norm_num)
    unfold float64OfInt
    exact_mod_cast this
  unfold Average
  rw [if_neg (by decide)]
  show float64Div (float64OfInt (Sum [9007199254740993])) (float64OfInt ((1 : ℕ) : Int)) = _
  rw [hs, hconv, h1]
  unfold float64Div
  rw [div_one]
  have := roundFloat64_intCast 9007199254740992 (by norm_num)
  exact_mod_cast this

/-- Error of a quotient of two rounded numbers, rounded again: with each rounding of
relative error at most `u`, the result is within `4 * u` of the exact quotient. -/
theorem abs_rounded_quotient_sub_le (S L a b c u : ℚ) (hu0 : 0 ≤ u) (hu : 5 * u ≤ 1)
    (hL : 0 < L) (hb : 0 < b) (ha : |a - S| ≤ u * |S|) (hbL : |b - L| ≤ u * L)
    (hc : |c - a / b| ≤ u * |a / b|) :
    |c - S / L| ≤ 4 * u * |S / L| := by
  have hσ : 0 ≤ |S| := abs_nonneg S
  have hb1 : L * (1 - u) ≤ b := by
    have := (abs_le.mp hbL).1
    linarith
  have hden : 0 < L * (1 - u) := mul_pos hL (by linarith)
  have ha1 : |a| ≤ |S| * (1 + u) := by
    have h := abs_sub_abs_le_abs_sub a S
    linarith
  have hab : |a / b| ≤ |S| * (1 + u) / (L * (1 - u)) := by
    rw [abs_div, abs_of_pos hb]
    exact div_le_div₀ (by positivity) ha1 hden hb1
  have hnum : |a * L - S * b| ≤ 2 * u * |S| * L := by
    have e : a * L - S * b = (a - S) * L - S * (b - L) := by ring
    rw [e]
    have h1 : |(a - S) * L| ≤ u * |S| * L := by
      rw [abs_mul, abs_of_pos hL]
      exact mul_le_mul_of_nonneg_right ha (le_of_lt hL)
    have h2 : |S * (b - L)| ≤ |S| * (u * L) := by
      rw [abs_mul]
      exact mul_le_mul_of_nonneg_left hbL hσ
    have h3 := abs_sub ((a - S) * L) (S * (b - L))
    linarith
  have hdiff : |a / b - S / L| ≤ 2 * u * |S| / (L * (1 - u)) := by
    have e : a / b - S / L = (a * L - S * b) / (b * L) := by
      field_simp
      ring
    rw [e, abs_div, abs_of_pos (mul_pos hb hL)]
    calc |a * L - S * b| / (b * L) ≤ 2 * u * |S| * L / (b * L) :=
          div_le_div_of_nonneg_right hnum (le_of_lt (mul_pos hb hL))
      _ = 2 * u * |S| / b := by field_simp; ring
      _ ≤ 2 * u * |S| / (L * (1 - u)) :=
          div_le_div_of_nonneg_left (by positivity) hden hb1
  have htri : |c - S / L| ≤ |c - a / b| + |a / b - S / L| := by
    have := abs_add (c - a / b) (a / b - S / L)
    rw [show c - a / b + (a / b - S / L) = c - S / L by ring] at this
    exact this
  have hfin : u * (|S| * (1 + u) / (L * (1 - u))) + 2 * u * |S| / (L * (1 - u))
      ≤ 4 * u * |S / L| := by
    rw [abs_div, abs_of_pos hL, ← mul_div_assoc, ← add_div, ← mul_div_assoc,
      div_le_div_iff₀ hden hL]
    have hprod : 0 ≤ u * |S| * L := by positivity
    nlinarith
  have hcu : u * |a / b| ≤ u * (|S| * (1 + u) / (L * (1 - u))) :=
    mul_le_mul_of_nonneg_left hab hu0
  linarith

/-- C6, as stated, fails where `float64` cannot hold the quotient or the sum.
`Sum([1, 1, 2])` is 4 and `Average([1, 1, 2])` is `6004799503160661 / 2 ^ 52`, the
`float64` nearest to `4 / 3`, not `4 / 3`.  `float64(2 ^ 53 + 1)` is `2 ^ 53`, so
`Average([2 ^ 53 + 1])` is `2 ^ 53`, not the single element. -/
theorem Average_not_exact_quotient :
    Sum [1, 1, 2] = 4 ∧
    Average [1, 1, 2] = 6004799503160661 / 4503599627370496 ∧
    Average [1, 1, 2] ≠ (Sum [1, 1, 2] : ℚ) / 3 ∧
    InRange 9007199254740993 ∧ Sum [9007199254740993] = 9007199254740993 ∧
    Average [9007199254740993] = 9007199254740992 ∧
    Average [9007199254740993] ≠ (Sum [9007199254740993] : ℚ) / 1 := by
  have hs1 : Sum [1, 1, 2] = 4 := by decide
  have hs2 : Sum [9007199254740993] = 9007199254740993 := by decide
  refine ⟨hs1, Average_one_one_two, ?_, by decide, hs2, Average_two_pow_53_add_one, ?_⟩
  · rw [Average_one_one_two, hs1]
    norm_num
  · rw [Average_two_pow_53_add_one, hs2]
    norm_num

/-- C6 (amended): `Average` returns 0 for the empty slice.  For every non-empty slice
the divisor `float64(len(numbers))` is not zero and the result is
`float64(Sum(numbers)) / float64(len(numbers))` computed in `float64`, which lies
within a relative error of `2 ^ (-51)` of `Sum(numbers)` divided by the number of
elements.  When the sum and the length are at most `2 ^ 53` in magnitude the result is
that quotient rounded once to `float64`, with a relative error of at most
`2 ^ (-53)`, and it is the quotient itself when the length divides the sum
(`Average([2,4,6,8]) = 5`, `Average([10]) = 10`). -/
theorem Average_eq (numbers : List Int) :
    Average [] = 0 ∧
    (numbers ≠ [] →
      float64OfInt numbers.length ≠ 0 ∧
      Average numbers
        = float64Div (float64OfInt (Sum numbers)) (float64OfInt numbers.length) ∧
      |Average numbers - (Sum numbers : ℚ) / (numbers.length : ℚ)|
        ≤ |(Sum numbers : ℚ) / (numbers.length : ℚ)| / 2 ^ 51 ∧
      (|Sum numbers| ≤ 2 ^ 53 → (numbers.length : Int) ≤ 2 ^ 53 →
        Average numbers = roundFloat64 ((Sum numbers : ℚ) / (numbers.length : ℚ)) ∧
        |Average numbers - (Sum numbers : ℚ) / (numbers.length : ℚ)|
          ≤ |(Sum numbers : ℚ) / (numbers.length : ℚ)| / 2 ^ 53 ∧
        ((numbers.length : Int) ∣ Sum numbers →
          Average numbers = (Sum numbers : ℚ) / (numbers.length : ℚ)))) := by
  refine ⟨rfl, ?_⟩
  intro hne
  have hlen : numbers.length ≠ 0 := by
    intro h
    exact hne (List.length_eq_zero.mp h)
  have hlenpos : (0 : ℚ) < ((numbers.length : Int) : ℚ) := by
    have : 0 < numbers.length := Nat.pos_of_ne_zero hlen
    exact_mod_cast this
  have hLpos : (0 : ℚ) < (numbers.length : ℚ) := by exact_mod_cast hlenpos
  have havg : Average numbers
      = float64Div (float64OfInt (Sum numbers)) (float64OfInt numbers.length) := by
    unfold Average
    rw [if_neg hlen]
  have hgen : |Average numbers - (Sum numbers : ℚ) / (numbers.length : ℚ)|
      ≤ |(Sum numbers : ℚ) / (numbers.length : ℚ)| / 2 ^ 51 := by
    have h := abs_rounded_quotient_sub_le (Sum numbers : ℚ) (numbers.length : ℚ)
      (float64OfInt (Sum numbers)) (float64OfInt numbers.length) (Average numbers)
      (1 / 2 ^ 53) (by norm_num) (by norm_num) hLpos (roundFloat64_pos hlenpos)
      (by
        have := abs_roundFloat64_sub_le (Sum numbers : ℚ)
        unfold float64OfInt
        calc |roundFloat64 (Sum numbers : ℚ) - (Sum numbers : ℚ)|
            ≤ |(Sum numbers : ℚ)| / 2 ^ 53 := this
          _ = 1 / 2 ^ 53 * |(Sum numbers : ℚ)| := by ring)
      (by
        have := abs_roundFloat64_sub_le ((numbers.length : Int) : ℚ)
        rw [abs_of_pos hlenpos] at this
        unfold float64OfInt
        calc |roundFloat64 ((numbers.length : Int) : ℚ) - (numbers.length : ℚ)|
            = |roundFloat64 ((numbers.length : Int) : ℚ) - ((numbers.length : Int) : ℚ)| := by
              norm_cast
          _ ≤ ((numbers.length : Int) : ℚ) / 2 ^ 53 := this
          _ = 1 / 2 ^ 53 * (numbers.length : ℚ) := by push_cast; ring)
      (by
        rw [havg]
        have := abs_roundFloat64_sub_le
          (float64OfInt (Sum numbers) / float64OfInt numbers.length)
        unfold float64Div
        calc _ ≤ |float64OfInt (Sum numbers) / float64OfInt numbers.length| / 2 ^ 53 := this
          _ = 1 / 2 ^ 53 * |float64OfInt (Sum numbers) / float64OfInt numbers.length| := by
              ring)
    calc |Average numbers - (Sum numbers : ℚ) / (numbers.length : ℚ)|
        ≤ 4 * (1 / 2 ^ 53) * |(Sum numbers : ℚ) / (numbers.length : ℚ)| := h
      _ = |(Sum numbers : ℚ) / (numbers.length : ℚ)| / 2 ^ 51 := by ring
  refine ⟨ne_of_gt (roundFloat64_pos hlenpos), havg, hgen, ?_⟩
  intro hsum hlen53
  have hs : float64OfInt (Sum numbers) = (Sum numbers : ℚ) :=
    roundFloat64_intCast _ hsum
  have hl : float64OfInt numbers.length = (numbers.length : ℚ) := by
    have h := roundFloat64_intCast (numbers.length : Int)
      (by rw [abs_of_nonneg (by omega)]; exact hlen53)
    unfold float64OfInt
    rw [h]
    norm_cast
  have hround : Average numbers = roundFloat64 ((Sum numbers : ℚ) / (numbers.length : ℚ)) := by
    rw [havg, hs, hl]
    rfl
  refine ⟨hround, ?_, ?_⟩
  · rw [hround]
    exact abs_roundFloat64_sub_le _
  rintro ⟨c, hc⟩
  have hquot : (Sum numbers : ℚ) / (numbers.length : ℚ) = (c : ℚ) := by
    rw [hc]
    push_cast
    have : (numbers.length : ℚ) ≠ 0 := by exact_mod_cast hlen
    field_simp
  rw [hround, hquot]
  apply roundFloat64_intCast
  -- |c| ≤ |Sum numbers| since the length is at least 1
  have hge : (1 : Int) ≤ numbers.length := by
    have : 0 < numbers.length := Nat.pos_of_ne_zero hlen
    omega
  have : |c| ≤ |Sum numbers| := by
    rw [hc, abs_mul, abs_of_nonneg (by omega : (0 : Int) ≤ numbers.length)]
    nlinarith [abs_nonneg c]
  exact le_trans this hsum

/-- Witness for C6 (amended): the test cases `Average([2,4,6,8]) = 5` and
`Average([10]) = 10`, and the error bound at `[1, 1, 2]`. -/
theorem Average_eq_witness :
    Average [2, 4, 6, 8] = 5 ∧ Average [10] = 10 ∧
    |Average [1, 1, 2] - (Sum [1, 1, 2] : ℚ) / (([1, 1, 2] : List Int).length : ℚ)|
      ≤ |(Sum [1, 1, 2] : ℚ) / (([1, 1, 2] : List Int).length : ℚ)| / 2 ^ 53 := by
  have h1 := ((Average_eq [2, 4, 6, 8]).2 (by decide)).2.2.2 (by decide) (by decide)
  have h2 := ((Average_eq [10]).2 (by decide)).2.2.2 (by decide) (by decide)
  have h3 := ((Average_eq [1, 1, 2]).2 (by decide)).2.2.2 (by decide) (by decide)
  have e1 : Sum [2, 4, 6, 8] = 20 := by decide
  have e2 : Sum [10] = 10 := by decide
  refine ⟨?_, ?_, h3.2.1⟩
  · rw [h1.2.2 (by decide), e1]
    norm_num
  · rw [h2.2.2 (by decide), e2]
    norm_num

/-! ## Factorial -/

theorem factorialLoop_spec (n : Nat) (hn : (n : Int) < maxInt) :
    ∀ (k i : Nat) (result : Int) (fuel : Nat), i + k = n + 1 → InRange result →
      k + 1 ≤ fuel →
      factorialLoop fuel n result i = some (wrapInt (result * (i.ascFactorial k : Nat))) := by
  intro k
  induction k with
  | zero =>
    intro i result fuel hik hres hfuel
    obtain ⟨f, rfl⟩ : ∃ f, fuel = f + 1 := ⟨fuel - 1, by omega⟩
    have hgt : ¬ ((i : Int) ≤ (n : Int)) := by omega
    simp only [factorialLoop, if_neg hgt, Nat.ascFactorial_zero, Nat.cast_one, mul_one]
    rw [wrapInt_of_inRange hres]
  | succ k ih =>
    intro i result fuel hik hres hfuel
    obtain ⟨f, rfl⟩ : ∃ f, fuel = f + 1 := ⟨fuel - 1, by omega⟩
    have hle : (i : Int) ≤ (n : Int) := by omega
    have hnext : wrapInt ((i : Int) + 1) = ((i + 1 : Nat) : Int) := by
      rw [Nat.cast_add, Nat.cast_one]
      apply wrapInt_of_inRange
      unfold InRange
      rw [minInt_eq, maxInt_eq] at *
      omega
    simp only [factorialLoop, if_pos hle]
    rw [hnext, ih (i + 1) (wrapInt (result * i)) f (by omega) (wrapInt_inRange _) (by omega),
      wrapInt_wrapInt_mul]
    have hasc : i.ascFactorial (k + 1) = i * (i + 1).ascFactorial k := by
      rw [Nat.ascFactorial_succ, Nat.succ_ascFactorial]
    rw [hasc, Nat.cast_mul, mul_assoc]

/-- At the largest `int` the loop condition `i <= n` can never turn false (the
counter wraps around instead of exceeding `n`), so the loop of `Factorial` does not
end there, whatever the fuel. -/
theorem factorialLoop_maxInt_diverges :
    ∀ (fuel : Nat) (result i : Int), InRange i → factorialLoop fuel maxInt result i = none := by
  intro fuel
  induction fuel with
  | zero => intro result i _; rfl
  | succ f ih =>
    intro result i hi
    simp only [factorialLoop, if_pos hi.2]
    exact ih _ _ (wrapInt_inRange _)

theorem Factorial_eq_wrapInt (n : Int) (h0 : 0 ≤ n) (hmax : n < maxInt) (fuel : Nat)
    (hfuel : n.toNat ≤ fuel) :
    Factorial fuel n = some (wrapInt (Nat.factorial n.toNat : Int), none) := by
  obtain ⟨m, rfl⟩ : ∃ m : Nat, n = (m : Int) := ⟨n.toNat, (Int.toNat_of_nonneg h0).symm⟩
  rw [Int.toNat_natCast] at hfuel ⊢
  unfold Factorial
  rw [if_neg (by omega)]
  by_cases h01 : (m : Int) = 0 ∨ (m : Int) = 1
  · rw [if_pos h01]
    have hm : m = 0 ∨ m = 1 := by omega
    rcases hm with rfl | rfl <;> decide
  · rw [if_neg h01]
    have hspec := factorialLoop_spec m hmax (m - 1) 2 1 fuel (by omega) (by decide) (by omega)
    have hprod : Nat.ascFactorial 2 (m - 1) = m.factorial := by
      have h := Nat.factorial_mul_ascFactorial 1 (m - 1)
      rw [Nat.factorial_one, one_mul, show 1 + (m - 1) = m by omega] at h
      exact h
    rw [hprod, one_mul] at hspec
    have hcast : ((2 : Nat) : Int) = 2 := rfl
    rw [hcast] at hspec
    rw [hspec]
    rfl

/-- C3, as stated, fails from 21 on: 21 is a non-negative `int`, and `Factorial(21)`
returns a nil error with the overflowed value -4249290049419214848, which is not
21!. -/
theorem Factorial_21_overflows :
    (0 : Int) ≤ 21 ∧ InRange 21 ∧
    Factorial 21 21 = some (-4249290049419214848, none) ∧
    (-4249290049419214848 : Int) ≠ ((Nat.factorial 21 : Nat) : Int) := by
  decide

/-- C3 (amended): for every integer `n` with `0 ≤ n ≤ 20`, `Factorial(n)` returns
`n!` together with a nil error (so `0! = 1! = 1`); for every non-negative `n` below
the largest `int` it returns, with a nil error, `n!` reduced modulo `2 ^ 64` into
the range of `int`.  The result is reached once the loop may test its condition
`n` times. -/
theorem Factorial_eq_factorial (n : Int) (h0 : 0 ≤ n) (hmax : n < maxInt) (fuel : Nat)
    (hfuel : n.toNat ≤ fuel) :
    Factorial fuel n = some (wrapInt (Nat.factorial n.toNat : Int), none) ∧
    (n ≤ 20 → Factorial fuel n = some ((Nat.factorial n.toNat : Int), none)) := by
  refine ⟨Factorial_eq_wrapInt n h0 hmax fuel hfuel, ?_⟩
  intro h20
  rw [Factorial_eq_wrapInt n h0 hmax fuel hfuel, wrapInt_of_inRange]
  have hle : (n.toNat).factorial ≤ Nat.factorial 20 := Nat.factorial_le (by omega)
  have h20f : Nat.factorial 20 = 2432902008176640000 := by decide
  unfold InRange
  rw [minInt_eq, maxInt_eq]
  omega

/-- Witness for C3 (amended): the test case `Factorial(5) = 120`. -/
theorem Factorial_eq_factorial_witness :
    (0 : Int) ≤ 5 ∧ (5 : Int) < maxInt ∧ (5 : Int).toNat ≤ 5 ∧ (5 : Int) ≤ 20 ∧
    Factorial 5 5 = some (120, none) :=
  ⟨by decide, by decide, by decide, by decide,
    (Factorial_eq_factorial 5 (by decide) (by decide) 5 (by decide)).2 (by decide)⟩

/-- C4: for every integer `n`, `Factorial(n)` returns a non-nil error exactly when
`n < 0`, and the value returned with it is 0: a negative `n` gives 0 and the
formatted error at once; a non-negative `n` never yields a non-nil error, and
below the largest `int` it does return, with a nil error. -/
theorem Factorial_error_iff_negative (n : Int) :
    (n < 0 → ∀ fuel, Factorial fuel n
      = some (0, some (GoError.errorf ("factorial of negative number: " ++ toString n)))) ∧
    (0 ≤ n → ∀ fuel v e, Factorial fuel n ≠ some (v, some e)) ∧
    (0 ≤ n → n < maxInt → ∀ fuel, n.toNat ≤ fuel →
      ∃ v, Factorial fuel n = some (v, none)) := by
  refine ⟨?_, ?_, ?_⟩
  · intro h fuel
    unfold Factorial
    rw [if_pos h]
  · intro h fuel v e
    unfold Factorial
    rw [if_neg (not_lt.mpr h)]
    split
    · simp
    · cases factorialLoop fuel n 1 2 <;> simp
  · intro h0 hmax fuel hfuel
    exact ⟨_, Factorial_eq_wrapInt n h0 hmax fuel hfuel⟩

/-- Witness for C4: the test case `Factorial(-1)`, an error with value 0. -/
theorem Factorial_error_iff_negative_witness :
    (-1 : Int) < 0 ∧
    Factorial 0 (-1) = some (0, some (GoError.errorf "factorial of negative number: -1")) :=
  ⟨by decide, (Factorial_error_iff_negative (-1)).1 (by decide) 0⟩

/-! ## Add and Multiply -/

/-- C11, as stated, fails on overflow: the largest `int` and 1 are both `int`
values, their sum is `2 ^ 63`, and `Add` returns the most negative `int`. -/
theorem Add_maxInt_one_overflows :
    InRange maxInt ∧ InRange 1 ∧ Add maxInt 1 = minInt ∧ Add maxInt 1 ≠ maxInt + 1 := by
  decide

/-- C11 (amended): for all `int` values `a` and `b`, `Add(a, b)` is the `int` value
that differs from `a + b` by a multiple of `2 ^ 64`: it is `a + b` exactly when that
sum is again an `int` value, `a + b - 2 ^ 64` when the sum exceeds the largest `int`
and `a + b + 2 ^ 64` when it is below the smallest.  0 is a right identity for every
`int` value, and `Add(2, 3) = 5`, `Add(-2, 3) = 1`. -/
theorem Add_eq_add (a b : Int) :
    Add a b = wrapInt (a + b) ∧
    InRange (Add a b) ∧ (∃ k : Int, Add a b = a + b + k * 2 ^ 64) ∧
    (Add a b = a + b ↔ InRange (a + b)) ∧
    (InRange a → InRange b → maxInt < a + b → Add a b = a + b - 2 ^ 64) ∧
    (InRange a → InRange b → a + b < minInt → Add a b = a + b + 2 ^ 64) ∧
    (InRange a → Add a 0 = a) ∧ Add 2 3 = 5 ∧ Add (-2) 3 = 1 := by
  refine ⟨rfl, wrapInt_inRange _, wrapInt_congr _, wrapInt_eq_self_iff _, ?_, ?_, ?_,
    by decide, by decide⟩
  · intro ha hb h
    unfold InRange at ha hb
    unfold Add wrapInt
    rw [minInt_eq, maxInt_eq] at *
    rw [halfRange_eq, fullRange_eq]
    omega
  · intro ha hb h
    unfold InRange at ha hb
    unfold Add wrapInt
    rw [minInt_eq, maxInt_eq] at *
    rw [halfRange_eq, fullRange_eq]
    omega
  · intro ha
    unfold Add
    rw [add_zero]
    exact wrapInt_of_inRange ha

/-- Witness for C11 (amended): the test cases `Add(-2, 3) = 1` and `Add(5, 0) = 5`,
and the overflowing sum of the largest `int` and 1. -/
theorem Add_eq_add_witness :
    InRange (-2 + 3) ∧ Add (-2) 3 = -2 + 3 ∧ Add 5 0 = 5 ∧
    Add maxInt 1 = maxInt + 1 - 2 ^ 64 :=
  ⟨by decide, (Add_eq_add (-2) 3).2.2.2.1.mpr (by decide),
    (Add_eq_add 5 0).2.2.2.2.2.2.1 (by decide),
    (Add_eq_add maxInt 1).2.2.2.2.1 (by decide) (by decide) (by decide)⟩

/-- C12, as stated, fails on overflow: `2 ^ 32` is an `int` value whose square is
`2 ^ 64`, and `Multiply` returns 0; the product of the most negative `int` and -1,
two negative values, comes out negative. -/
theorem Multiply_overflows :
    InRange 4294967296 ∧ Multiply 4294967296 4294967296 = 0 ∧
    Multiply 4294967296 4294967296 ≠ 4294967296 * 4294967296 ∧
    InRange minInt ∧ InRange (-1) ∧ Multiply minInt (-1) = minInt ∧ minInt < 0 := by
  decide

/-- C12 (amended): for all `int` values `a` and `b`, `Multiply(a, b)` is the `int`
value that differs from `a * b` by a multiple of `2 ^ 64`: it is `a * b` exactly when
that product is again an `int` value, and then its sign follows the sign rule.  For
every `int` value `Multiply(a, 0) = 0` and `Multiply(a, 1) = a`, and
`Multiply(-3, 4) = -12`, `Multiply(-3, -4) = 12`. -/
theorem Multiply_eq_mul (a b : Int) :
    Multiply a b = wrapInt (a * b) ∧
    InRange (Multiply a b) ∧ (∃ k : Int, Multiply a b = a * b + k * 2 ^ 64) ∧
    (Multiply a b = a * b ↔ InRange (a * b)) ∧
    Multiply a 0 = 0 ∧ (InRange a → Multiply a 1 = a) ∧
    (InRange (a * b) →
      (0 < a → 0 < b → 0 < Multiply a b) ∧ (a < 0 → b < 0 → 0 < Multiply a b) ∧
      (a < 0 → 0 < b → Multiply a b < 0) ∧ (0 < a → b < 0 → Multiply a b < 0)) ∧
    Multiply (-3) 4 = -12 ∧ Multiply (-3) (-4) = 12 := by
  refine ⟨rfl, wrapInt_inRange _, wrapInt_congr _, wrapInt_eq_self_iff _, ?_, ?_, ?_,
    by decide, by decide⟩
  · unfold Multiply
    rw [mul_zero]
    decide
  · intro ha
    unfold Multiply
    rw [mul_one]
    exact wrapInt_of_inRange ha
  · intro hprod
    have h : Multiply a b = a * b := by
      unfold Multiply
      exact wrapInt_of_inRange hprod
    rw [h]
    exact ⟨fun h1 h2 => mul_pos h1 h2, fun h1 h2 => mul_pos_of_neg_of_neg h1 h2,
      fun h1 h2 => mul_neg_of_neg_of_pos h1 h2, fun h1 h2 => mul_neg_of_pos_of_neg h1 h2⟩

/-- Witness for C12 (amended): the test case `Multiply(-3, 4) = -12`, negative as the
sign rule says, and the overflowing square of `2 ^ 32`. -/
theorem Multiply_eq_mul_witness :
    InRange (-3 * 4) ∧ Multiply (-3) 4 = -3 * 4 ∧ Multiply (-3) 4 < 0 ∧
    ¬ InRange (4294967296 * 4294967296) ∧
    Multiply 4294967296 4294967296 ≠ 4294967296 * 4294967296 :=
  ⟨by decide, (Multiply_eq_mul (-3) 4).2.2.2.1.mpr (by decide),
    ((Multiply_eq_mul (-3) 4).2.2.2.2.2.2.1 (by decide)).2.2.1 (by decide) (by decide),
    by decide,
    fun h => absurd ((Multiply_eq_mul 4294967296 4294967296).2.2.2.1.mp h) (by decide)⟩

end Calculator

namespace ControlFlow

/-! ## fizzBuzzBoom -/

theorem toDigitsCore_last (fuel n : Nat) (ds : List Char) (hf : 0 < fuel) :
    ∃ pre, Nat.toDigitsCore 10 fuel n ds = pre ++ Nat.digitChar (n % 10) :: ds := by
  induction fuel generalizing n ds with
  | zero => omega
  | succ f ih =>
    simp only [Nat.toDigitsCore]
    split
    · exact ⟨[], rfl⟩
    · next hne =>
      cases f with
      | zero =>
        exact ⟨[], rfl⟩
      | succ f' =>
        obtain ⟨pre, hpre⟩ := ih (n / 10) (Nat.digitChar (n % 10) :: ds) (by omega)
        exact ⟨pre ++ [Nat.digitChar (n / 10 % 10)], by rw [hpre]; simp⟩

theorem digitChar_mem (k : Nat) (hk : k < 10) :
    Nat.digitChar k ∈ ['0', '1', '2', '3', '4', '5', '6', '7', '8', '9'] := by
  interval_cases k <;> decide

theorem natRepr_last (n : Nat) :
    ∃ pre d, (Nat.repr n).data = pre ++ [d] ∧
      d ∈ ['0', '1', '2', '3', '4', '5', '6', '7', '8', '9'] := by
  obtain ⟨pre, hpre⟩ := toDigitsCore_last (n + 1) n [] (by omega)
  refine ⟨pre, Nat.digitChar (n % 10), ?_, digitChar_mem _ (Nat.mod_lt _ (by decide))⟩
  simp only [Nat.repr, Nat.toDigits, List.asString]
  exact hpre

theorem toString_int_last (n : Int) :
    ∃ pre d, (toString n).data = pre ++ [d] ∧
      d ∈ ['0', '1', '2', '3', '4', '5', '6', '7', '8', '9'] := by
  cases n with
  | ofNat m =>
    exact natRepr_last m
  | negSucc m =>
    obtain ⟨pre, d, h, hd⟩ := natRepr_last (m + 1)
    refine ⟨'-' :: pre, d, ?_, hd⟩
    show ("-" ++ Nat.repr (m + 1)).data = _
    rw [String.data_append, h]
    rfl

theorem toString_int_ne_of_last (n : Int) (w : String) (pre : List Char) (c : Char)
    (hw : w.data = pre ++ [c])
    (hc : c ∉ ['0', '1', '2', '3', '4', '5', '6', '7', '8', '9']) : w ≠ toString n := by
  intro h
  obtain ⟨pre2, d, hd, hmem⟩ := toString_int_last n
  rw [← h, hw] at hd
  have := List.append_inj_right' hd rfl
  simp only [List.cons.injEq, and_true] at this
  rw [this] at hc
  exact hc hmem

/-- C17: for every integer `n` (in particular every `n ≥ 1`), `fizzBuzzBoom(n)` is
the concatenation, in this order, of "Fizz" if 3 divides `n`, "Buzz" if 5 divides
`n` and "Boom" if 7 divides `n`, unless none of them divides `n`, when it is the
decimal representation of `n`; and it is that decimal representation exactly when
none of 3, 5, 7 divides `n`.  So 15 gives "FizzBuzz", 21 "FizzBoom", 35 "BuzzBoom"
and 105 "FizzBuzzBoom". -/
theorem fizzBuzzBoom_spec (n : Int) :
    fizzBuzzBoom n =
      (if ¬ 3 ∣ n ∧ ¬ 5 ∣ n ∧ ¬ 7 ∣ n then toString n
       else (if 3 ∣ n then "Fizz" else "") ++ (if 5 ∣ n then "Buzz" else "")
        ++ (if 7 ∣ n then "Boom" else "")) ∧
    (fizzBuzzBoom n = toString n ↔ ¬ 3 ∣ n ∧ ¬ 5 ∣ n ∧ ¬ 7 ∣ n) ∧
    fizzBuzzBoom 15 = "FizzBuzz" ∧ fizzBuzzBoom 21 = "FizzBoom" ∧
    fizzBuzzBoom 35 = "BuzzBoom" ∧ fizzBuzzBoom 105 = "FizzBuzzBoom" ∧
    fizzBuzzBoom 7 = "Boom" ∧ fizzBuzzBoom 8 = "8" := by
  refine ⟨?_, ?_, by decide, by decide, by decide, by decide, by decide, by decide⟩
  · by_cases h3 : 3 ∣ n <;> by_cases h5 : 5 ∣ n <;> by_cases h7 : 7 ∣ n <;>
      simp only [fizzBuzzBoom, ← Int.dvd_iff_tmod_eq_zero, h3, h5, h7, if_true, if_false,
        not_true_eq_false, not_false_eq_true, and_self, and_false, false_and] <;>
      rfl
  · by_cases h3 : 3 ∣ n <;> by_cases h5 : 5 ∣ n <;> by_cases h7 : 7 ∣ n <;>
      simp only [fizzBuzzBoom, ← Int.dvd_iff_tmod_eq_zero, h3, h5, h7, if_true, if_false,
        not_true_eq_false, not_false_eq_true, and_self, and_false, false_and, iff_false,
        iff_true]
    · exact toString_int_ne_of_last n _
        ['F', 'i', 'z', 'z', 'B', 'u', 'z', 'z', 'B', 'o', 'o'] 'm' rfl (by decide)
    · exact toString_int_ne_of_last n _ ['F', 'i', 'z', 'z', 'B', 'u', 'z'] 'z' rfl (by decide)
    · exact toString_int_ne_of_last n _ ['F', 'i', 'z', 'z', 'B', 'o', 'o'] 'm' rfl (by decide)
    · exact toString_int_ne_of_last n _ ['F', 'i', 'z'] 'z' rfl (by decide)
    · exact toString_int_ne_of_last n _ ['B', 'u', 'z', 'z', 'B', 'o', 'o'] 'm' rfl (by decide)
    · exact toString_int_ne_of_last n _ ['B', 'u', 'z'] 'z' rfl (by decide)
    · exact toString_int_ne_of_last n _ ['B', 'o', 'o'] 'm' rfl (by decide)

end ControlFlow

namespace Stringutil

/-! ## Reverse and IsPalindrome -/

theorem reverseLoop_spec (orig : List Char) :
    ∀ (m : Nat) (runes : List Char) (i j : Int),
      (j - i + 1).toNat ≤ m → 0 ≤ i → i + j = (orig.length : Int) - 1 →
      runes.length = orig.length →
      (∀ t : Nat, t < orig.length →
        runes[t]? = if (t : Int) < i ∨ j < (t : Int) then orig[orig.length - 1 - t]?
          else orig[t]?) →
      reverseLoop runes i j = orig.reverse := by
  intro m
  induction m with
  | zero =>
    intro runes i j hm hi hij hlen hinv
    have hnot : ¬ i < j := by omega
    rw [reverseLoop, if_neg hnot]
    apply List.ext_getElem?
    intro t
    by_cases ht : t < orig.length
    · rw [hinv t ht, List.getElem?_reverse ht]
      split
      · rfl
      · have : t = orig.length - 1 - t := by omega
        rw [← this]
    · rw [List.getElem?_eq_none (by omega), List.getElem?_eq_none (by simp; omega)]
  | succ m ih =>
    intro runes i j hm hi hij hlen hinv
    by_cases hlt : i < j
    · rw [reverseLoop, if_pos hlt]
      obtain ⟨a, rfl⟩ : ∃ a : Nat, i = (a : Int) := ⟨i.toNat, (Int.toNat_of_nonneg hi).symm⟩
      obtain ⟨b, rfl⟩ : ∃ b : Nat, j = (b : Int) := ⟨j.toNat, (Int.toNat_of_nonneg (by omega)).symm⟩
      simp only [Int.toNat_natCast]
      have hab : a < b := by omega
      have hb : b < orig.length := by omega
      apply ih _ _ _ (by omega) (by omega) (by omega) (by simp [hlen])
      intro t ht
      have hra : runes[a]? = orig[a]? := by
        rw [hinv a (by omega), if_neg (by omega)]
      have hrb : runes[b]? = orig[b]? := by
        rw [hinv b hb, if_neg (by omega)]
      have hoa : orig[a]? = some orig[a] := List.getElem?_eq_getElem (by omega)
      have hob : orig[b]? = some orig[b] := List.getElem?_eq_getElem hb
      rw [List.getElem?_set, List.getElem?_set, List.getD_eq_getElem?_getD,
        List.getD_eq_getElem?_getD, hra, hrb, hoa, hob]
      simp only [Option.getD_some, List.length_set, hlen]
      by_cases htb : b = t
      · subst htb
        have hc : ((b : Nat) : Int) < (a : Int) + 1 ∨ (b : Int) - 1 < ((b : Nat) : Int) := by omega
        rw [if_pos rfl, if_pos hb, if_pos hc, ← hoa]
        congr 1
        omega
      · rw [if_neg htb]
        by_cases hta : a = t
        · subst hta
          have ha : a < orig.length := by omega
          have hc : ((a : Nat) : Int) < (a : Int) + 1 ∨ (b : Int) - 1 < ((a : Nat) : Int) := by
            omega
          rw [if_pos rfl, if_pos ha, if_pos hc, ← hob]
          congr 1
          omega
        · rw [if_neg hta, hinv t ht]
          by_cases hc : (t : Int) < (a : Int) ∨ (b : Int) < (t : Int)
          · have hc2 : (t : Int) < (a : Int) + 1 ∨ (b : Int) - 1 < (t : Int) := by omega
            rw [if_pos hc, if_pos hc2]
          · have hc2 : ¬ ((t : Int) < (a : Int) + 1 ∨ (b : Int) - 1 < (t : Int)) := by omega
            rw [if_neg hc, if_neg hc2]
    · rw [reverseLoop, if_neg hlt]
      apply List.ext_getElem?
      intro t
      by_cases ht : t < orig.length
      · rw [hinv t ht, List.getElem?_reverse ht]
        split
        · rfl
        · have : t = orig.length - 1 - t := by omega
          rw [← this]
      · rw [List.getElem?_eq_none (by omega), List.getElem?_eq_none (by simp; omega)]

/-- The swap loop of `Reverse` produces the reversed rune sequence. -/
theorem Reverse_eq (s : String) : Reverse s = String.mk s.data.reverse := by
  unfold Reverse
  congr 1
  apply reverseLoop_spec s.data ((s.data.length : Int) - 1 - 0 + 1).toNat _ _ _ (le_refl _)
    (le_refl _) (by omega) rfl
  intro t ht
  rw [if_neg (by omega)]

/-- C13: for every string `s` of `n` runes, `Reverse(s)` consists of the same `n`
runes in reverse order: its `i`-th rune is the `(n-1-i)`-th rune of `s`.  Runes are
moved whole, whatever their encoded length; `Reverse("Hello") = "olleH"`. -/
theorem Reverse_reverses (s : String) :
    (Reverse s).data = s.data.reverse ∧
    (Reverse s).length = s.length ∧
    (∀ i : Nat, i < s.length → (Reverse s).data[i]? = s.data[s.length - 1 - i]?) ∧
    Reverse "Hello" = "olleH" ∧ Reverse "Hello, Go!" = "!oG ,olleH" ∧
    Reverse "aé日" = "日éa" ∧ Reverse "" = "" := by
  have h : (Reverse s).data = s.data.reverse := by rw [Reverse_eq]
  refine ⟨h, ?_, ?_, ?_, ?_, ?_, ?_⟩
  · simp only [String.length, h, List.length_reverse]
  · intro i hi
    rw [h]
    exact List.getElem?_reverse hi
  all_goals (rw [Reverse_eq]; decide)

/-- What `IsPalindrome` computes: whether the runes of `s` other than spaces, each
lower-cased, read the same in both directions. -/
theorem IsPalindrome_iff (lower : Char → Char) (s : String) :
    IsPalindrome lower s = true ↔
      ((s.data.filter (fun c => c != ' ')).map lower).reverse
        = (s.data.filter (fun c => c != ' ')).map lower := by
  unfold IsPalindrome
  simp only [beq_iff_eq, Reverse_eq, ToLower, ReplaceAllSpaces]
  constructor
  · intro h
    have := congrArg String.data h
    exact this.symm
  · intro h
    rw [h]

/-- C14 fails on the code at the string "σς": Go's `unicode.ToLower` leaves both the
small sigma and the final small sigma unchanged and maps the capital sigma to the
small sigma, while `unicode.ToUpper` maps both small sigmas to the capital one.  So
`ToUpper("σς")` is "ΣΣ", `IsPalindrome("σς")` is false and `IsPalindrome("ΣΣ")` is
true: changing the case of the letters changes the answer, against the claim and
against the function's comment that the comparison is case-insensitive. -/
theorem IsPalindrome_final_sigma (lower upper : Char → Char)
    (h1 : lower 'σ' = 'σ') (h2 : lower 'ς' = 'ς') (h3 : lower 'Σ' = 'σ')
    (h4 : upper 'σ' = 'Σ') (h5 : upper 'ς' = 'Σ') :
    ToUpper upper "σς" = "ΣΣ" ∧
    IsPalindrome lower "σς" = false ∧
    IsPalindrome lower "ΣΣ" = true ∧
    IsPalindrome lower (ToUpper upper "σς") ≠ IsPalindrome lower "σς" := by
  have hup : ToUpper upper "σς" = "ΣΣ" := by
    have e : "σς".data = ['σ', 'ς'] := by decide
    unfold ToUpper stringsToUpper
    rw [e, List.map_cons, List.map_cons, List.map_nil, h4, h5]
  have hfalse : IsPalindrome lower "σς" = false := by
    rw [Bool.eq_false_iff]
    intro h
    rw [IsPalindrome_iff] at h
    have e : "σς".data.filter (fun c => c != ' ') = ['σ', 'ς'] := by decide
    rw [e, List.map_cons, List.map_cons, List.map_nil, h1, h2] at h
    revert h
    decide
  have htrue : IsPalindrome lower "ΣΣ" = true := by
    rw [IsPalindrome_iff]
    have e : "ΣΣ".data.filter (fun c => c != ' ') = ['Σ', 'Σ'] := by decide
    rw [e, List.map_cons, List.map_cons, List.map_nil, h3]
    rfl
  refine ⟨hup, hfalse, htrue, ?_⟩
  rw [hup, hfalse, htrue]
  decide

/-- Witness for C14: lower- and upper-casing that are the usual ones on ASCII and have
the five table entries for the sigmas. -/
theorem IsPalindrome_final_sigma_witness :
    IsPalindrome (fun c => if c = 'Σ' then 'σ' else c.toLower) "σς" = false ∧
    IsPalindrome (fun c => if c = 'Σ' then 'σ' else c.toLower) "ΣΣ" = true ∧
    ToUpper (fun c => if c = 'σ' ∨ c = 'ς' then 'Σ' else c.toUpper) "σς" = "ΣΣ" :=
  ⟨(IsPalindrome_final_sigma (fun c => if c = 'Σ' then 'σ' else c.toLower)
      (fun c => if c = 'σ' ∨ c = 'ς' then 'Σ' else c.toUpper)
      (by decide) (by decide) (by decide) (by decide) (by decide)).2.1,
   (IsPalindrome_final_sigma (fun c => if c = 'Σ' then 'σ' else c.toLower)
      (fun c => if c = 'σ' ∨ c = 'ς' then 'Σ' else c.toUpper)
      (by decide) (by decide) (by decide) (by decide) (by decide)).2.2.1,
   (IsPalindrome_final_sigma (fun c => if c = 'Σ' then 'σ' else c.toLower)
      (fun c => if c = 'σ' ∨ c = 'ς' then 'Σ' else c.toUpper)
      (by decide) (by decide) (by decide) (by decide) (by decide)).1⟩

end Stringutil

namespace GoFloat

/-! ## Facts about float64 rounding -/

theorem F64.round_not_nan (x : ℚ) : F64.IsNaN (F64.round x) = false := by
  unfold F64.round
  split
  · rfl
  · split
    · split <;> rfl
    · rfl

theorem F64.round_intCast (z : ℤ) (hz : |z| ≤ 2 ^ 53) : F64.round (z : ℚ) = F64.finite z := by
  by_cases h0 : z = 0
  · subst h0
    simp [F64.round]
  have hq0 : (z : ℚ) ≠ 0 := by exact_mod_cast h0
  have hone : (1 : ℚ) ≤ |(z : ℚ)| := by
    have : (1 : ℤ) ≤ |z| := Int.one_le_abs h0
    exact_mod_cast this
  have hlog : 0 ≤ Int.log 2 |(z : ℚ)| := by
    rw [Int.log_of_one_le_right 2 hone]
    exact Int.natCast_nonneg _
  have hmax : max (Int.log 2 |(z : ℚ)|) (-1022) = Int.log 2 |(z : ℚ)| := max_eq_left (by omega)
  have hr := Calculator.roundFloat64_intCast z hz
  unfold Calculator.roundFloat64 at hr
  rw [if_neg hq0] at hr
  unfold F64.round
  rw [if_neg hq0, hmax, hr]
  have hlt : ¬ ((2 : ℚ) ^ (1024 : ℕ) ≤ |(z : ℚ)|) := by
    have h1 : |(z : ℚ)| ≤ 2 ^ (53 : ℕ) := by
      have : ((|z| : ℤ) : ℚ) ≤ ((2 ^ 53 : ℤ) : ℚ) := by exact_mod_cast hz
      rw [Int.cast_abs] at this
      calc |(z : ℚ)| ≤ ((2 ^ 53 : ℤ) : ℚ) := this
        _ = 2 ^ (53 : ℕ) := by norm_num
    have h2 : (2 : ℚ) ^ (53 : ℕ) < 2 ^ (1024 : ℕ) := by
      apply pow_lt_pow_right₀ (by norm_num) (by norm_num)
    intro h
    linarith
  rw [if_neg hlt]

end GoFloat

namespace Shapes

open GoFloat

/-! ## FindLargestShape -/

theorem F64_gt_trans {a b c : F64} (h1 : F64.gt b a = true) (h2 : F64.gt c b = true) :
    F64.gt c a = true := by
  cases a <;> cases b <;> cases c <;> simp_all [F64.gt, F64.lt]
  exact lt_trans h1 h2

theorem F64_gt_of_gt_of_ge {a b c : F64} (h1 : F64.ge b a = true) (h2 : F64.gt c b = true) :
    F64.gt c a = true := by
  cases a <;> cases b <;> cases c <;> simp_all [F64.ge, F64.gt, F64.lt, F64.eq]
  rcases h1 with h1 | h1
  · exact lt_trans h1 h2
  · rw [← h1]; exact h2

theorem F64_ge_of_not_gt {a b : F64} (ha : F64.IsNaN a = false) (hb : F64.IsNaN b = false)
    (h : F64.gt a b = false) : F64.ge b a = true := by
  cases a <;> cases b <;> simp_all [F64.ge, F64.gt, F64.lt, F64.eq, F64.IsNaN]
  rcases lt_or_eq_of_le h with h | h
  · exact Or.inl h
  · exact Or.inr h.symm

theorem F64_ge_refl {a : F64} (ha : F64.IsNaN a = false) : F64.ge a a = true := by
  cases a <;> simp_all [F64.ge, F64.gt, F64.lt, F64.eq, F64.IsNaN]

theorem foldl_largest {σ : Type} (Area : σ → F64) :
    ∀ (rest pre mid : List σ) (x : σ),
      (∀ y ∈ pre ++ x :: mid ++ rest, F64.IsNaN (Area y) = false) →
      (∀ y ∈ pre, F64.gt (Area x) (Area y) = true) →
      (∀ y ∈ mid, F64.ge (Area x) (Area y) = true) →
      ∃ pre2 post2 z,
        pre ++ x :: mid ++ rest = pre2 ++ z :: post2 ∧
        (rest.foldl
          (fun (state : σ × F64) shape =>
            if F64.gt (Area shape) state.2 then (shape, Area shape) else state)
          (x, Area x)).1 = z ∧
        (∀ y ∈ pre2, F64.gt (Area z) (Area y) = true) ∧
        (∀ y ∈ post2, F64.ge (Area z) (Area y) = true) := by
  intro rest
  induction rest with
  | nil =>
    intro pre mid x _ hpre hmid
    exact ⟨pre, mid, x, by simp, rfl, hpre, hmid⟩
  | cons s rest ih =>
    intro pre mid x hnan hpre hmid
    rw [List.foldl_cons]
    by_cases hgt : F64.gt (Area s) (Area x) = true
    · rw [if_pos hgt]
      have := ih (pre ++ x :: mid) [] s (by simpa using hnan)
        (by
          intro y hy
          rcases List.mem_append.mp hy with h | h
          · exact F64_gt_trans (hpre y h) hgt
          · rcases List.mem_cons.mp h with h | h
            · rw [h]; exact hgt
            · exact F64_gt_of_gt_of_ge (hmid y h) hgt)
        (by simp)
      simpa using this
    · rw [if_neg hgt]
      have hs : F64.IsNaN (Area s) = false := hnan s (by simp)
      have hx : F64.IsNaN (Area x) = false := hnan x (by simp)
      have := ih pre (mid ++ [s]) x (by simpa using hnan) hpre
        (by
          intro y hy
          rcases List.mem_append.mp hy with h | h
          · exact hmid y h
          · rw [List.mem_singleton.mp h]
            exact F64_ge_of_not_gt hs hx (by simpa using hgt))
      simpa using this

/-- C18, as stated, fails when an area is NaN: the `Rectangle` of width `+Inf` and
height 0 has area NaN, every comparison with NaN is false, so `FindLargestShape`
keeps that first shape although its area is not greater than or equal to the area 1
of the second shape. -/
theorem FindLargestShape_nan_area :
    FindLargestShape Shape.Area
        [Shape.Rectangle F64.posInf (F64.finite 0), Shape.Rectangle (F64.finite 1) (F64.finite 1)]
      = some (Shape.Rectangle F64.posInf (F64.finite 0)) ∧
    (Shape.Rectangle F64.posInf (F64.finite 0)).Area = F64.nan ∧
    F64.ge (Shape.Rectangle F64.posInf (F64.finite 0)).Area
      (Shape.Rectangle (F64.finite 1) (F64.finite 1)).Area = false := by
  have h : (Shape.Rectangle F64.posInf (F64.finite 0)).Area = F64.nan := by
    simp [Shape.Area, F64.mul, F64.sign]
  refine ⟨?_, h, ?_⟩
  · simp [FindLargestShape, h, F64.gt, F64.lt]
  · rw [h]
    simp [F64.ge, F64.gt, F64.lt, F64.eq]

/-- C18 (amended): `FindLargestShape` returns nil for an empty slice; for every
non-empty slice of shapes none of whose areas is NaN it returns an element of the
slice whose `Area()` is greater than or equal to the `Area()` of every element, and
among the elements of maximal area the one that occurs first: every element before
it has a strictly smaller area. -/
theorem FindLargestShape_first_maximal {σ : Type} (Area : σ → F64) (shapes : List σ) :
    FindLargestShape Area [] = none ∧
    (shapes ≠ [] → (∀ y ∈ shapes, F64.IsNaN (Area y) = false) →
      ∃ before largest after,
        shapes = before ++ largest :: after ∧
        FindLargestShape Area shapes = some largest ∧
        (∀ y ∈ shapes, F64.ge (Area largest) (Area y) = true) ∧
        (∀ y ∈ before, F64.gt (Area largest) (Area y) = true)) := by
  refine ⟨rfl, ?_⟩
  intro hne hnan
  cases shapes with
  | nil => exact absurd rfl hne
  | cons first rest =>
    obtain ⟨pre2, post2, z, hsplit, hz, hpre, hpost⟩ :=
      foldl_largest Area rest [] [] first (by simpa using hnan) (by simp) (by simp)
    simp only [List.nil_append, List.cons_append] at hsplit
    refine ⟨pre2, z, post2, hsplit, ?_, ?_, hpre⟩
    · simp only [FindLargestShape, hz]
    · intro y hy
      rw [hsplit] at hy
      rcases List.mem_append.mp hy with h | h
      · have hgt := hpre y h
        simp only [F64.ge, hgt, Bool.true_or]
      · rcases List.mem_cons.mp h with h | h
        · rw [h]
          exact F64_ge_refl (hnan z (by rw [hsplit]; simp))
        · exact hpost y h

/-- Witness for C18 (amended): of the rectangles 5x3, 8x4 and 4x8, with areas 15, 32
and 32, the second is returned, the first of the two largest. -/
theorem FindLargestShape_first_maximal_witness :
    FindLargestShape Shape.Area
        [Shape.Rectangle (F64.finite 5) (F64.finite 3),
         Shape.Rectangle (F64.finite 8) (F64.finite 4),
         Shape.Rectangle (F64.finite 4) (F64.finite 8)]
      = some (Shape.Rectangle (F64.finite 8) (F64.finite 4)) ∧
    ∃ before largest after,
      [Shape.Rectangle (F64.finite 5) (F64.finite 3),
       Shape.Rectangle (F64.finite 8) (F64.finite 4),
       Shape.Rectangle (F64.finite 4) (F64.finite 8)] = before ++ largest :: after ∧
      FindLargestShape Shape.Area
        [Shape.Rectangle (F64.finite 5) (F64.finite 3),
         Shape.Rectangle (F64.finite 8) (F64.finite 4),
         Shape.Rectangle (F64.finite 4) (F64.finite 8)] = some largest ∧
      (∀ y ∈ [Shape.Rectangle (F64.finite 5) (F64.finite 3),
              Shape.Rectangle (F64.finite 8) (F64.finite 4),
              Shape.Rectangle (F64.finite 4) (F64.finite 8)],
        F64.ge (Shape.Area largest) (Shape.Area y) = true) ∧
      (∀ y ∈ before, F64.gt (Shape.Area largest) (Shape.Area y) = true) := by
  have h1 : (Shape.Rectangle (F64.finite 5) (F64.finite 3)).Area = F64.finite 15 := by
    have := F64.round_intCast 15 (by norm_num)
    simp only [Shape.Area, F64.mul]
    norm_num at this ⊢
    exact this
  have h2 : (Shape.Rectangle (F64.finite 8) (F64.finite 4)).Area = F64.finite 32 := by
    have := F64.round_intCast 32 (by norm_num)
    simp only [Shape.Area, F64.mul]
    norm_num at this ⊢
    exact this
  have h3 : (Shape.Rectangle (F64.finite 4) (F64.finite 8)).Area = F64.finite 32 := by
    have := F64.round_intCast 32 (by norm_num)
    simp only [Shape.Area, F64.mul]
    norm_num at this ⊢
    exact this
  constructor
  · simp only [FindLargestShape, List.foldl_cons, List.foldl_nil, h1, h2, h3]
    norm_num [F64.gt, F64.lt]
  · apply (FindLargestShape_first_maximal Shape.Area _).2 (by simp)
    intro y hy
    simp only [List.mem_cons, List.mem_singleton, List.not_mem_nil, or_false] at hy
    rcases hy with rfl | rfl | rfl
    · rw [h1]; rfl
    · rw [h2]; rfl
    · rw [h3]; rfl

end Shapes

namespace ErrorHandling

open GoFloat

/-! ## ValidateNumber and Calculate -/

theorem ValidateNumber_finite (q : ℚ) :
    ValidateNumber (F64.finite q) =
      if q < -1000 ∨ 1000 < q then
        some (Error.OutOfRangeError (F64.finite q) (F64.finite (-1000)) (F64.finite 1000))
      else none := by
  simp only [ValidateNumber, F64.IsNaN, F64.IsInf, MinValue, MaxValue, F64.lt, F64.gt,
    Bool.false_eq_true, if_false, Bool.or_eq_true, decide_eq_true_eq]

/-- C19: `ValidateNumber(n)` returns nil exactly when `n` is a finite number with
`-1000 ≤ n ≤ 1000`, both bounds accepted; for a finite `n` outside that interval it
returns an `*OutOfRangeError` with `Value = n`, `Min = -1000`, `Max = 1000`; for NaN
and for either infinity it returns an `*InvalidInputError`. -/
theorem ValidateNumber_spec (n : F64) :
    (ValidateNumber n = none ↔ ∃ q : ℚ, n = F64.finite q ∧ -1000 ≤ q ∧ q ≤ 1000) ∧
    (∀ q : ℚ, ValidateNumber (F64.finite q) =
      if q < -1000 ∨ 1000 < q then
        some (Error.OutOfRangeError (F64.finite q) (F64.finite (-1000)) (F64.finite 1000))
      else none) ∧
    ValidateNumber F64.nan = some (Error.InvalidInputError "NaN" "not a number") ∧
    ValidateNumber F64.posInf = some (Error.InvalidInputError "Inf" "infinity") ∧
    ValidateNumber F64.negInf = some (Error.InvalidInputError "Inf" "infinity") ∧
    ValidateNumber (F64.finite 1000) = none ∧ ValidateNumber (F64.finite (-1000)) = none := by
  refine ⟨?_, ValidateNumber_finite, rfl, rfl, rfl, ?_, ?_⟩
  · cases n with
    | nan => simp [ValidateNumber, F64.IsNaN]
    | negInf => simp [ValidateNumber, F64.IsNaN, F64.IsInf]
    | posInf => simp [ValidateNumber, F64.IsNaN, F64.IsInf]
    | finite q =>
      rw [ValidateNumber_finite]
      constructor
      · intro h
        refine ⟨q, rfl, ?_⟩
        by_contra hcon
        rw [if_pos (by
          rcases not_and_or.mp hcon with h1 | h1
          · exact Or.inl (not_le.mp h1)
          · exact Or.inr (not_le.mp h1))] at h
        exact absurd h (by simp)
      · rintro ⟨q2, hq, hlo, hhi⟩
        cases hq
        rw [if_neg (by
          rintro (h1 | h1)
          · exact absurd hlo (not_le.mpr h1)
          · exact absurd hhi (not_le.mpr h1))]
  · rw [ValidateNumber_finite, if_neg (by norm_num)]
  · rw [ValidateNumber_finite, if_neg (by norm_num)]

/-- C20: for all `a` and `b` that pass `ValidateNumber`: with an operation string
other than "+", "-", "*", "/", `Calculate` returns 0 and an `*InvalidInputError`
whose `Input` is the operation string and whose `Message` is
"unsupported operation"; with one of those four it computes the operation, checks
the result, and never returns an `*InvalidInputError`. -/
theorem Calculate_unsupported_operation (operation : String) (a b : F64)
    (ha : ValidateNumber a = none) (hb : ValidateNumber b = none) :
    (operation ∉ ["+", "-", "*", "/"] →
      Calculate operation a b
        = (F64.finite 0, some (Error.InvalidInputError operation "unsupported operation"))) ∧
    Calculate "+" a b = validateResult (F64.add a b) ∧
    Calculate "-" a b = validateResult (F64.sub a b) ∧
    Calculate "*" a b = validateResult (F64.mul a b) ∧
    (F64.eq b (F64.finite 0) = false → Calculate "/" a b = validateResult (F64.div a b)) ∧
    (operation ∈ ["+", "-", "*", "/"] →
      ∀ input message,
        (Calculate operation a b).2 ≠ some (Error.InvalidInputError input message)) := by
  have hres : ∀ r input message,
      (validateResult r).2 ≠ some (Error.InvalidInputError input message) := by
    intro r input message
    unfold validateResult
    cases ValidateNumber r <;> simp
  have hplus : Calculate "+" a b = validateResult (F64.add a b) := by
    simp [Calculate, ha, hb]
  have hminus : Calculate "-" a b = validateResult (F64.sub a b) := by
    simp [Calculate, ha, hb]
  have htimes : Calculate "*" a b = validateResult (F64.mul a b) := by
    simp [Calculate, ha, hb]
  refine ⟨?_, hplus, hminus, htimes, ?_, ?_⟩
  · intro hop
    simp only [List.mem_cons, List.mem_singleton, List.not_mem_nil, or_false, not_or] at hop
    simp [Calculate, ha, hb, hop.1, hop.2.1, hop.2.2.1, hop.2.2.2]
  · intro hb0
    simp [Calculate, SafeDivide, ha, hb, hb0]
  · intro hop input message
    simp only [List.mem_cons, List.mem_singleton, List.not_mem_nil, or_false] at hop
    rcases hop with rfl | rfl | rfl | rfl
    · rw [hplus]; exact hres _ _ _
    · rw [hminus]; exact hres _ _ _
    · rw [htimes]; exact hres _ _ _
    · by_cases hb0 : F64.eq b (F64.finite 0) = true
      · simp [Calculate, SafeDivide, ha, hb, hb0]
      · have : Calculate "/" a b = validateResult (F64.div a b) := by
          simp [Calculate, SafeDivide, ha, hb, hb0]
        rw [this]; exact hres _ _ _

/-- Witness for C20: the call `Calculate("%", 10, 3)` of the lesson's `main`. -/
theorem Calculate_unsupported_operation_witness :
    ValidateNumber (F64.finite 10) = none ∧ ValidateNumber (F64.finite 3) = none ∧
    "%" ∉ ["+", "-", "*", "/"] ∧
    Calculate "%" (F64.finite 10) (F64.finite 3)
      = (F64.finite 0, some (Error.InvalidInputError "%" "unsupported operation")) := by
  have ha : ValidateNumber (F64.finite 10) = none := by
    rw [ValidateNumber_finite, if_neg (by norm_num)]
  have hb : ValidateNumber (F64.finite 3) = none := by
    rw [ValidateNumber_finite, if_neg (by norm_num)]
  exact ⟨ha, hb, by decide,
    (Calculate_unsupported_operation "%" (F64.finite 10) (F64.finite 3) ha hb).1 (by decide)⟩

/-! ## Division by zero through Calculate -/

/-- C21: for every `a` that passes `ValidateNumber`, `Calculate("/", a, 0)` returns 0
and a `*CalculationError` with `Operation = "/"`, `A = a`, `B = 0`, whose `Unwrap`
is the `*DivisionByZeroError` with `Dividend = a`; the `Unwrap` chain of the
top-level error is exactly these two errors, and `errors.As` finds the
`*DivisionByZeroError` on it. -/
theorem Calculate_division_by_zero (a : F64) (ha : ValidateNumber a = none) :
    Calculate "/" a (F64.finite 0)
      = (F64.finite 0,
          some (Error.CalculationError "/" a (F64.finite 0) (Error.DivisionByZeroError a))) ∧
    (Error.CalculationError "/" a (F64.finite 0) (Error.DivisionByZeroError a)).Unwrap
      = some (Error.DivisionByZeroError a) ∧
    (Error.CalculationError "/" a (F64.finite 0) (Error.DivisionByZeroError a)).chain
      = [Error.CalculationError "/" a (F64.finite 0) (Error.DivisionByZeroError a),
         Error.DivisionByZeroError a] ∧
    (Error.CalculationError "/" a (F64.finite 0)
        (Error.DivisionByZeroError a)).AsDivisionByZeroError
      = some (Error.DivisionByZeroError a) := by
  refine ⟨?_, rfl, rfl, rfl⟩
  have hb : ValidateNumber (F64.finite 0) = none := by
    rw [ValidateNumber_finite, if_neg (by norm_num)]
  have hdiv : SafeDivide a (F64.finite 0)
      = (F64.finite 0, some (Error.DivisionByZeroError a)) := by
    simp [SafeDivide, F64.eq]
  simp [Calculate, ha, hb, hdiv]

/-- Witness for C21: the call `Calculate("/", 10, 0)` of section 7 of the lesson's
`main`. -/
theorem Calculate_division_by_zero_witness :
    ValidateNumber (F64.finite 10) = none ∧
    Calculate "/" (F64.finite 10) (F64.finite 0)
      = (F64.finite 0,
          some (Error.CalculationError "/" (F64.finite 10) (F64.finite 0)
            (Error.DivisionByZeroError (F64.finite 10)))) ∧
    (Error.CalculationError "/" (F64.finite 10) (F64.finite 0)
        (Error.DivisionByZeroError (F64.finite 10))).AsDivisionByZeroError
      = some (Error.DivisionByZeroError (F64.finite 10)) := by
  have ha : ValidateNumber (F64.finite 10) = none := by
    rw [ValidateNumber_finite, if_neg (by norm_num)]
  exact ⟨ha, (Calculate_division_by_zero (F64.finite 10) ha).1,
    (Calculate_division_by_zero (F64.finite 10) ha).2.2.2⟩

end ErrorHandling

namespace Concurrency

/-! ## Transition systems -/

theorem run_append {L S : Type} (step : L → S → Option S) (l₁ l₂ : List L) (s : S) :
    run step (l₁ ++ l₂) s = (run step l₁ s).bind (run step l₂) := by
  induction l₁ generalizing s with
  | nil => rfl
  | cons l ls ih =>
    simp only [List.cons_append, run]
    cases step l s with
    | none => rfl
    | some s' => simp [ih]

/-- An invariant that holds initially and is kept by every move holds after every
schedule. -/
theorem run_invariant {L S : Type} (step : L → S → Option S) (P : S → Prop)
    (hstep : ∀ l s s', P s → step l s = some s' → P s') :
    ∀ (sched : List L) (s s' : S), P s → run step sched s = some s' → P s' := by
  intro sched
  induction sched with
  | nil =>
    intro s s' hP h
    simp only [run, Option.some.injEq] at h
    rw [← h]; exact hP
  | cons l ls ih =>
    intro s s' hP h
    simp only [run] at h
    cases hl : step l s with
    | none => rw [hl] at h; simp at h
    | some s₁ =>
      rw [hl] at h
      exact ih s₁ s' (hstep l s s₁ hP hl) h

/-- When every move lowers a measure, no schedule is longer than the measure of the
state it starts from. -/
theorem run_length_le {L S : Type} (step : L → S → Option S) (μ : S → Nat)
    (hstep : ∀ l s s', step l s = some s' → μ s' < μ s) :
    ∀ (sched : List L) (s s' : S), run step sched s = some s' →
      sched.length + μ s' ≤ μ s := by
  intro sched
  induction sched with
  | nil =>
    intro s s' h
    simp only [run, Option.some.injEq] at h
    rw [h]; simp
  | cons l ls ih =>
    intro s s' h
    simp only [run] at h
    cases hl : step l s with
    | none => rw [hl] at h; simp at h
    | some s₁ =>
      rw [hl] at h
      have h1 := ih s₁ s' h
      have h2 := hstep l s s₁ hl
      simp only [List.length_cons]
      omega

namespace Pipeline

/-! ## The pipeline -/

theorem pipeline_step_movesLeft (l : Move) (s s' : State) (h : step l s = some s') :
    movesLeft s' < movesLeft s := by
  cases l <;> simp only [step] at h
  · split at h
    · split at h
      · simp at h
      · simp only [Option.some.injEq] at h
        subst h
        simp_all [movesLeft]
        omega
    · simp at h
  · split at h
    · split at h
      · simp at h
      · simp only [Option.some.injEq] at h
        subst h
        simp_all [movesLeft]
    · simp at h
  · split at h
    · split at h
      · simp only [Option.some.injEq] at h
        subst h
        simp_all [movesLeft]
      · simp at h
    · simp at h
  · split at h
    · split at h
      · simp at h
      · simp only [Option.some.injEq] at h
        subst h
        simp_all [movesLeft]
    · simp at h
  · split at h
    · simp only [Option.some.injEq] at h
      subst h
      simp_all [movesLeft]
    · simp at h
  · split at h
    · simp only [Option.some.injEq] at h
      subst h
      simp_all [movesLeft]
    · simp at h

theorem pipeline_init_inv (nums : List Int) : Inv nums (init nums) := by
  simp [Inv, init, pending]

theorem pipeline_step_inv (nums : List Int) (l : Move) (s s' : State) (hinv : Inv nums s)
    (h : step l s = some s') : Inv nums s' := by
  obtain ⟨h1, h2, h3, h4, h5⟩ := hinv
  cases l <;> simp only [step] at h
  · split at h
    · split at h
      · simp at h
      · simp only [Option.some.injEq] at h
        subst h
        simp_all [Inv, pending]
    · simp at h
  · split at h
    · split at h
      · simp at h
      · simp only [Option.some.injEq] at h
        subst h
        simp_all [Inv, pending]
    · simp at h
  · split at h
    · split at h
      · simp only [Option.some.injEq] at h
        subst h
        simp_all [Inv, pending]
      · simp at h
    · simp at h
  · split at h
    · split at h
      · simp at h
      · simp only [Option.some.injEq] at h
        subst h
        simp_all [Inv, pending]
    · simp at h
  · split at h
    · simp only [Option.some.injEq] at h
      subst h
      simp_all [Inv, pending]
    · simp at h
  · split at h
    · simp only [Option.some.injEq] at h
      subst h
      simp_all [Inv, pending]
    · simp at h

theorem pipeline_inv_progress (nums : List Int) (s : State) (hinv : Inv nums s)
    (hloop : s.loopEnded = false) : ∃ l, step l s ≠ none := by
  obtain ⟨h1, h2, h3, h4, h5⟩ := hinv
  cases hsq : s.squarer with
  | receiving =>
    by_cases hc : s.numsClosed = true
    · exact ⟨Move.squarerLeavesLoop, by simp [step, hsq, hc]⟩
    · cases hts : s.toSend with
      | nil => exact ⟨Move.closeNums, by simp [step, hts, hc]⟩
      | cons n rest => exact ⟨Move.passNumber, by simp [step, hts, hsq, hc]⟩
  | sending n => exact ⟨Move.passSquare, by simp [step, hsq, hloop]⟩
  | closing => exact ⟨Move.closeSquares, by simp [step, hsq]⟩
  | finished =>
    have hcl : s.squaresClosed = true := h4.mpr hsq
    exact ⟨Move.mainLeavesLoop, by simp [step, hcl, hloop]⟩

theorem pipeline_exists_complete (nums : List Int) :
    ∀ (n : Nat) (s : State), movesLeft s ≤ n → Inv nums s →
      ∃ sched s', run step sched s = some s' ∧ s'.loopEnded = true := by
  intro n
  induction n with
  | zero =>
    intro s hn hinv
    cases hl : s.loopEnded with
    | true => exact ⟨[], s, rfl, hl⟩
    | false =>
      have : 1 ≤ movesLeft s := by
        simp only [movesLeft, hl]
        simp
      omega
  | succ n ih =>
    intro s hn hinv
    cases hl : s.loopEnded with
    | true => exact ⟨[], s, rfl, hl⟩
    | false =>
      obtain ⟨l, hne⟩ := pipeline_inv_progress nums s hinv hl
      obtain ⟨s₁, hs₁⟩ := Option.ne_none_iff_exists'.mp hne
      have hlt := pipeline_step_movesLeft l s s₁ hs₁
      obtain ⟨sched, s', hrun, hend⟩ := ih s₁ (by omega) (pipeline_step_inv nums l s s₁ hinv hs₁)
      exact ⟨l :: sched, s', by simp [run, hs₁, hrun], hend⟩

/-- C16, as stated, fails on overflow: for the one-element input `2 ^ 32`, an `int`
value, the pipeline runs to the end of the `range` loop and the consumer has seen
the single value 0, not the square `2 ^ 64`. -/
theorem pipeline_square_overflows :
    Calculator.InRange 4294967296 ∧
    (run step [Move.passNumber, Move.passSquare, Move.closeNums, Move.squarerLeavesLoop,
        Move.closeSquares, Move.mainLeavesLoop] (init [4294967296])).map
      (fun s => (s.received, s.loopEnded)) = some ([0], true) ∧
    ([0] : List Int) ≠ [4294967296 * 4294967296] := by
  decide

/-- C16 (amended): for every list of integers `nums` and every interleaving of the
generator, the squarer and the `range` loop of `main`: the consumer has seen a
prefix of the values `n * n` for `n` in `nums`, in the order of `nums`, each
reduced modulo `2 ^ 64` into the range of `int` (so `n * n` itself when that is an
`int` value); while the loop has not ended some goroutine can move, no interleaving
has more than `2 * len(nums) + 4` moves, and it can always be completed; when the
loop has ended the consumer has seen all the values and the output channel is
closed. -/
theorem pipeline_yields_squares (nums : List Int) (sched : List Move) (s : State)
    (hrun : run step sched (init nums) = some s) :
    (∃ k, s.received = (nums.map (fun n => Calculator.wrapInt (n * n))).take k) ∧
    (s.loopEnded = true →
      s.received = nums.map (fun n => Calculator.wrapInt (n * n)) ∧
      s.squaresClosed = true) ∧
    (s.loopEnded = false → ∃ l, step l s ≠ none) ∧
    sched.length ≤ 2 * nums.length + 4 ∧
    (∃ sched' s', run step (sched ++ sched') (init nums) = some s' ∧ s'.loopEnded = true) ∧
    ((∀ n ∈ nums, Calculator.InRange (n * n)) →
      nums.map (fun n => Calculator.wrapInt (n * n)) = nums.map (fun n => n * n)) := by
  have hinv : Inv nums s :=
    run_invariant step (Inv nums) (pipeline_step_inv nums) sched (init nums) s (pipeline_init_inv nums) hrun
  have hlen := run_length_le step movesLeft pipeline_step_movesLeft sched (init nums) s hrun
  obtain ⟨h1, h2, h3, h4, h5⟩ := hinv
  refine ⟨?_, ?_, pipeline_inv_progress nums s ⟨h1, h2, h3, h4, h5⟩, ?_, ?_, ?_⟩
  · refine ⟨s.received.length, ?_⟩
    rw [← h1, List.take_left]
  · intro hend
    have hcl := h5 hend
    have hfin := h4.mp hcl
    have hts : s.toSend = [] := h2 (h3 (Or.inr hfin))
    refine ⟨?_, hcl⟩
    rw [← h1]
    simp [pending, hfin, hts]
  · have hinit : movesLeft (init nums) = 2 * nums.length + 4 := by
      simp [movesLeft, init]
    omega
  · obtain ⟨sched', s', hrun', hend⟩ :=
      pipeline_exists_complete nums (movesLeft s) s (le_refl _) ⟨h1, h2, h3, h4, h5⟩
    exact ⟨sched', s', by rw [run_append, hrun]; exact hrun', hend⟩
  · intro hr
    apply List.map_congr_left
    intro n hn
    exact Calculator.wrapInt_of_inRange (hr n hn)

/-- Witness for C16 (amended): the pipeline of the lesson, `square(generate(2, 3, 4,
5))`, under the interleaving in which each number is squared and consumed before the
next is sent: the consumer sees 4, 9, 16, 25 and the loop ends. -/
theorem pipeline_yields_squares_witness :
    run step [Move.passNumber, Move.passSquare, Move.passNumber, Move.passSquare,
        Move.passNumber, Move.passSquare, Move.passNumber, Move.passSquare,
        Move.closeNums, Move.squarerLeavesLoop, Move.closeSquares, Move.mainLeavesLoop]
      (init [2, 3, 4, 5])
      = some { toSend := [], numsClosed := true, squarer := Squarer.finished,
               squaresClosed := true, received := [4, 9, 16, 25], loopEnded := true } ∧
    ([4, 9, 16, 25] : List Int) = [2, 3, 4, 5].map (fun n => Calculator.wrapInt (n * n)) ∧
    [2, 3, 4, 5].map (fun n => Calculator.wrapInt (n * n)) = [2, 3, 4, 5].map (fun n => n * n) :=
  ⟨by decide,
   ((pipeline_yields_squares [2, 3, 4, 5]
      [Move.passNumber, Move.passSquare, Move.passNumber, Move.passSquare,
        Move.passNumber, Move.passSquare, Move.passNumber, Move.passSquare,
        Move.closeNums, Move.squarerLeavesLoop, Move.closeSquares, Move.mainLeavesLoop]
      { toSend := [], numsClosed := true, squarer := Squarer.finished,
        squaresClosed := true, received := [4, 9, 16, 25], loopEnded := true }
      (by decide)).2.1 rfl).1,
   (pipeline_yields_squares [2, 3, 4, 5] [] (init [2, 3, 4, 5]) rfl).2.2.2.2.2 (by decide)⟩

end Pipeline

end Concurrency

namespace Concurrency

namespace FanOut

/-! ## The fan-out worker pool -/

theorem sum_map_set {α M : Type} [AddCommMonoid M] (f : α → M) :
    ∀ (l : List α) (k : Nat) (old new : α), l[k]? = some old →
      ((l.set k new).map f).sum + f old = (l.map f).sum + f new := by
  intro l
  induction l with
  | nil => intro k old new h; simp at h
  | cons a l ih =>
    intro k old new h
    cases k with
    | zero =>
      simp only [List.getElem?_cons_zero, Option.some.injEq] at h
      subst h
      simp only [List.set_cons_zero, List.map_cons, List.sum_cons]
      abel
    | succ k =>
      simp only [List.getElem?_cons_succ] at h
      have := ih k old new h
      simp only [List.set_cons_succ, List.map_cons, List.sum_cons]
      rw [add_assoc, this, add_assoc]

theorem mem_set_exited {l : List Worker} {k : Nat} {new : Worker}
    (hnew : new ≠ Worker.exited) (h : Worker.exited ∈ l.set k new) : Worker.exited ∈ l := by
  rcases List.mem_or_eq_of_mem_set h with h | h
  · exact h
  · exact absurd h.symm hnew

theorem stepMain_movesLeft (s s' : State) (h : stepMain s = some s') :
    movesLeft s' < movesLeft s := by
  unfold stepMain at h
  split at h
  · split at h <;>
      (simp only [Option.some.injEq] at h; subst h; simp_all [movesLeft, pcWeight, workerWeight]
       omega)
  · split at h
    · split at h
      · simp only [Option.some.injEq] at h; subst h
        simp_all [movesLeft, pcWeight]
        omega
      · simp at h
    · simp only [Option.some.injEq] at h; subst h
      simp_all [movesLeft, pcWeight]
      omega
  · simp only [Option.some.injEq] at h; subst h
    simp_all [movesLeft, pcWeight]
  · split at h
    · split at h
      · simp only [Option.some.injEq] at h; subst h
        simp_all [movesLeft, pcWeight]
        omega
      · simp at h
    · simp only [Option.some.injEq] at h; subst h
      simp_all [movesLeft, pcWeight]
  · simp at h

theorem stepWorker_movesLeft (k : Nat) (s s' : State) (h : stepWorker k s = some s') :
    movesLeft s' < movesLeft s := by
  unfold stepWorker at h
  split at h
  · next hk =>
    split at h
    · next job rest hjobs =>
      simp only [Option.some.injEq] at h; subst h
      have := sum_map_set workerWeight s.workers k _ (Worker.working job) hk
      simp only [movesLeft, hjobs, List.length_cons, workerWeight] at this ⊢
      omega
    · split at h
      · simp only [Option.some.injEq] at h; subst h
        have := sum_map_set workerWeight s.workers k _ Worker.exited hk
        simp only [movesLeft, workerWeight] at this ⊢
        omega
      · simp at h
  · next job hk =>
    split at h
    · simp only [Option.some.injEq] at h; subst h
      have := sum_map_set workerWeight s.workers k _ Worker.waiting hk
      simp only [movesLeft, workerWeight] at this ⊢
      omega
    · simp at h
  · simp at h
  · simp at h

theorem fanOut_step_movesLeft (l : Move) (s s' : State) (h : step l s = some s') :
    movesLeft s' < movesLeft s := by
  cases l with
  | main => exact stepMain_movesLeft s s' h
  | worker k => exact stepWorker_movesLeft k s s' h

theorem fanOut_init_inv : Inv init := by
  simp [Inv, init, sent]

theorem sent_succ (j : Int) (h1 : 1 ≤ j) (h5 : j ≤ 5) :
    sent (MainPc.sending (j + 1)) = sent (MainPc.sending j) ++ [j] := by
  have : j = 1 ∨ j = 2 ∨ j = 3 ∨ j = 4 ∨ j = 5 := by omega
  rcases this with rfl | rfl | rfl | rfl | rfl <;> decide

theorem sent_six (j : Int) (h5 : ¬ j ≤ 5) : sent (MainPc.sending j) = [1, 2, 3, 4, 5] := by
  simp only [sent]
  have h : ∀ i ∈ ([1, 2, 3, 4, 5] : List Int), (decide (i < j)) = true := by
    intro i hi
    simp only [List.mem_cons, List.mem_singleton, List.not_mem_nil, or_false] at hi
    simp only [decide_eq_true_eq]
    omega
  exact List.filter_eq_self.mpr h

theorem stepMain_inv (s s' : State) (hinv : Inv s) (h : stepMain s = some s') : Inv s' := by
  obtain ⟨h1, h2, h3, h4, h5⟩ := hinv
  unfold stepMain at h
  split at h
  · next w hpc =>
    rw [hpc] at h1 h3 h4
    simp only at h4
    split at h
    · simp only [Option.some.injEq] at h; subst h
      refine ⟨?_, h2, ?_, ?_, ?_⟩
      · simpa [sent, heldResult] using h1
      · simpa [sent] using h3
      · simp only [List.length_append, List.length_singleton]
        refine ⟨by omega, by omega, ?_, h4.2.2.2.1, h4.2.2.2.2⟩
        push_cast
        omega
      · intro hmem
        simp only [List.mem_append, List.mem_singleton] at hmem
        rcases hmem with hmem | hmem
        · exact h5 hmem
        · cases hmem
    · simp only [Option.some.injEq] at h; subst h
      refine ⟨?_, h2, ?_, ?_, h5⟩
      · simpa [sent] using h1
      · simpa [sent] using h3
      · simp only
        refine ⟨by omega, by omega, ?_, h4.2.2.2.1, h4.2.2.2.2⟩
        omega
  · next j hpc =>
    rw [hpc] at h1 h3 h4
    simp only at h4
    split at h
    · next hj =>
      split at h
      · simp only [Option.some.injEq] at h; subst h
        refine ⟨?_, h2, ?_, ?_, ?_⟩
        · simp only [sent_succ j h4.1 hj, List.map_append, List.map_cons, List.map_nil,
            ← Multiset.coe_add]
          rw [← h1]
          abel
        · simp only [sent_succ j h4.1 hj, ← Multiset.coe_add]
          rw [← h3]
          abel
        · simp only
          exact ⟨by omega, by omega, h4.2.2.1, h4.2.2.2.1, h4.2.2.2.2⟩
        · intro hmem
          have := (h5 hmem).2
          rw [h4.2.2.2.1] at this
          cases this
      · simp at h
    · next hj =>
      simp only [Option.some.injEq] at h; subst h
      rw [sent_six j hj] at h1 h3
      refine ⟨?_, h2, ?_, ?_, h5⟩
      · simpa [sent] using h1
      · simpa [sent] using h3
      · simp only
        exact ⟨h4.2.2.1, h4.2.2.2.1, h4.2.2.2.2⟩
  · next hpc =>
    rw [hpc] at h1 h3 h4
    simp only at h4
    simp only [Option.some.injEq] at h; subst h
    refine ⟨?_, h2, ?_, ?_, fun hmem => ⟨(h5 hmem).1, rfl⟩⟩
    · simpa [sent] using h1
    · simpa [sent] using h3
    · simp [h4.1, h4.2.2]
  · next a hpc =>
    rw [hpc] at h1 h3 h4
    simp only at h4
    split at h
    · next ha =>
      split at h
      · next v rest hres =>
        simp only [Option.some.injEq] at h; subst h
        refine ⟨?_, ?_, ?_, ?_, h5⟩
        · simpa [sent] using h1
        · rw [h2, hres]
          simp only [← Multiset.coe_add, ← Multiset.cons_coe, ← Multiset.singleton_add]
          abel
        · simpa [sent] using h3
        · simp only [List.length_append, List.length_singleton]
          refine ⟨by omega, by omega, h4.2.2.1, h4.2.2.2.1, ?_⟩
          push_cast
          omega
      · simp at h
    · next ha =>
      simp only [Option.some.injEq] at h; subst h
      refine ⟨?_, h2, ?_, ?_, h5⟩
      · simpa [sent] using h1
      · simpa [sent] using h3
      · simp only
        refine ⟨h4.2.2.1, h4.2.2.2.1, ?_⟩
        have := h4.2.2.2.2
        omega
  · simp at h

theorem stepWorker_inv (k : Nat) (s s' : State) (hinv : Inv s) (h : stepWorker k s = some s') :
    Inv s' := by
  obtain ⟨h1, h2, h3, h4, h5⟩ := hinv
  unfold stepWorker at h
  split at h
  · next hk =>
    split at h
    · next job rest hjobs =>
      simp only [Option.some.injEq] at h; subst h
      have hset := sum_map_set heldResult s.workers k _ (Worker.working job) hk
      simp only [heldResult, add_zero] at hset
      rw [hjobs] at h1 h3
      refine ⟨?_, h2, ?_, ?_, ?_⟩
      · simp only [hset]
        rw [← h1]
        simp only [List.map_cons, ← Multiset.cons_coe, ← Multiset.singleton_add]
        abel
      · simp only [List.map_append, List.map_cons, List.map_nil, ← Multiset.coe_add]
        rw [← h3]
        simp only [← Multiset.cons_coe, ← Multiset.singleton_add, Multiset.coe_nil]
        abel
      · simpa using h4
      · intro hmem
        have hj := (h5 (mem_set_exited (by simp) hmem)).1
        rw [hjobs] at hj
        cases hj
    · next hjobs =>
      split at h
      · next hcl =>
        simp only [Option.some.injEq] at h; subst h
        have hset := sum_map_set heldResult s.workers k _ Worker.exited hk
        simp only [heldResult, add_zero] at hset
        refine ⟨?_, h2, h3, ?_, fun _ => ⟨hjobs, hcl⟩⟩
        · simp only [hset]
          exact h1
        · simpa using h4
      · simp at h
  · next job hk =>
    split at h
    · simp only [Option.some.injEq] at h; subst h
      have hset := sum_map_set heldResult s.workers k _ Worker.waiting hk
      simp only [heldResult, add_zero] at hset
      refine ⟨?_, ?_, h3, ?_, ?_⟩
      · simp only [← Multiset.coe_add]
        rw [← h1, ← hset]
        simp only [double, ← Multiset.cons_coe, ← Multiset.singleton_add, Multiset.coe_nil]
        abel
      · simp only [← Multiset.coe_add]
        rw [h2]
        abel
      · simpa using h4
      · intro hmem
        exact h5 (mem_set_exited (by simp) hmem)
    · simp at h
  · simp at h
  · simp at h

theorem fanOut_step_inv (l : Move) (s s' : State) (hinv : Inv s) (h : step l s = some s') : Inv s' := by
  cases l with
  | main => exact stepMain_inv s s' hinv h
  | worker k => exact stepWorker_inv k s s' hinv h

theorem sent_length_le (pc : MainPc) : (sent pc).length ≤ 5 := by
  cases pc with
  | sending j => exact List.length_filter_le _ _
  | _ => simp [sent]

theorem sent_nodup (pc : MainPc) : (sent pc).Nodup := by
  cases pc with
  | sending j => exact List.Nodup.filter _ (by decide)
  | _ => simp [sent]

theorem inv_card {s : State} (hinv : Inv s) :
    s.jobs.length + Multiset.card (s.workers.map heldResult).sum + s.produced.length
        = (sent s.pc).length ∧
    s.produced.length = s.results.length + s.received.length := by
  obtain ⟨h1, h2, -, -, -⟩ := hinv
  have c1 := congrArg Multiset.card h1
  have c2 := congrArg Multiset.card h2
  simp only [Multiset.card_add, Multiset.coe_card, List.length_map] at c1 c2
  exact ⟨c1, c2⟩

theorem exists_working :
    ∀ l : List Worker, (l.map heldResult).sum ≠ 0 →
      ∃ (k : Nat) (job : Int), l[k]? = some (Worker.working job) := by
  intro l
  induction l with
  | nil => intro h; simp at h
  | cons w l ih =>
    intro h
    cases w with
    | working job => exact ⟨0, job, by simp⟩
    | waiting =>
      simp only [List.map_cons, List.sum_cons, heldResult, zero_add] at h
      obtain ⟨k, job, hk⟩ := ih h
      exact ⟨k + 1, job, by simpa using hk⟩
    | exited =>
      simp only [List.map_cons, List.sum_cons, heldResult, zero_add] at h
      obtain ⟨k, job, hk⟩ := ih h
      exact ⟨k + 1, job, by simpa using hk⟩

theorem fanOut_inv_progress (s : State) (hinv : Inv s) (hpc : s.pc ≠ MainPc.finished) :
    ∃ l, step l s ≠ none := by
  have hcard := inv_card hinv
  have hsent := sent_length_le s.pc
  obtain ⟨h1, h2, h3, h4, h5⟩ := hinv
  cases hp : s.pc with
  | spawning w =>
    refine ⟨Move.main, ?_⟩
    simp only [step, stepMain, hp]
    split <;> simp
  | sending j =>
    refine ⟨Move.main, ?_⟩
    have hlen : s.jobs.length < capacity := by
      simp only [capacity]
      omega
    simp only [step, stepMain, hp, hlen, if_true]
    split <;> simp
  | closing => exact ⟨Move.main, by simp [step, stepMain, hp]⟩
  | finished => exact absurd hp hpc
  | collecting a =>
    rw [hp] at h4
    simp only at h4
    by_cases ha : a ≤ 5
    · cases hres : s.results with
      | cons v rest => exact ⟨Move.main, by simp [step, stepMain, hp, ha, hres]⟩
      | nil =>
        by_cases hw : (s.workers.map heldResult).sum = 0
        · -- nobody holds a job, so a job is still queued and no worker has returned
          have hjobs : s.jobs ≠ [] := by
            intro hj
            rw [hp] at hcard
            simp only [hj, hw, hres, sent, List.length_nil, Multiset.card_zero,
              List.length_cons] at hcard
            omega
          have hex : Worker.exited ∉ s.workers := fun hmem => hjobs (h5 hmem).1
          obtain ⟨w0, hw0⟩ : ∃ w0, s.workers[0]? = some w0 := by
            have : 0 < s.workers.length := by omega
            exact ⟨s.workers[0], List.getElem?_eq_getElem this⟩
          obtain ⟨job, rest, hj⟩ := List.exists_cons_of_ne_nil hjobs
          refine ⟨Move.worker 0, ?_⟩
          cases w0 with
          | waiting => simp [step, stepWorker, hw0, hj]
          | working job' => simp [step, stepWorker, hw0, hres, capacity]
          | exited => exact absurd (List.getElem?_mem hw0) hex
        · obtain ⟨k, job, hk⟩ := exists_working s.workers hw
          exact ⟨Move.worker k, by simp [step, stepWorker, hk, hres, capacity]⟩
    · exact ⟨Move.main, by simp [step, stepMain, hp, ha]⟩

theorem inv_finished (s : State) (hinv : Inv s) (hpc : s.pc = MainPc.finished) :
    s.received.Perm [2, 4, 6, 8, 10] ∧ s.produced.Perm [2, 4, 6, 8, 10] ∧
    (s.consumed.map Prod.snd).Perm [1, 2, 3, 4, 5] ∧ s.jobs = [] ∧ s.results = [] := by
  have hcard := inv_card hinv
  obtain ⟨h1, h2, h3, h4, h5⟩ := hinv
  rw [hpc] at h1 h3 h4 hcard
  simp only at h4
  simp only [sent, List.length_cons, List.length_nil] at hcard
  have hjobs : s.jobs = [] := List.length_eq_zero.mp (by omega)
  have hres : s.results = [] := List.length_eq_zero.mp (by omega)
  have hw : (s.workers.map heldResult).sum = 0 := Multiset.card_eq_zero.mp (by omega)
  rw [hjobs, hw] at h1
  rw [hres] at h2
  rw [hjobs] at h3
  have hdouble : (sent MainPc.finished).map double = [2, 4, 6, 8, 10] := by decide
  rw [hdouble] at h1
  simp only [List.map_nil, Multiset.coe_nil, zero_add, add_zero] at h1 h2 h3
  have hprod : s.produced.Perm [2, 4, 6, 8, 10] := Multiset.coe_eq_coe.mp h1
  have hrecv : s.received.Perm s.produced := Multiset.coe_eq_coe.mp h2.symm
  exact ⟨hrecv.trans hprod, hprod, Multiset.coe_eq_coe.mp h3, hjobs, hres⟩

theorem inv_consumed_nodup (s : State) (hinv : Inv s) : (s.consumed.map Prod.snd).Nodup := by
  obtain ⟨-, -, h3, -, -⟩ := hinv
  have hle : ((s.consumed.map Prod.snd : List Int) : Multiset Int) ≤ (sent s.pc : Multiset Int) := by
    rw [← h3]
    exact Multiset.le_add_right _ _
  have hnd : ((sent s.pc : List Int) : Multiset Int).Nodup := Multiset.coe_nodup.mpr (sent_nodup _)
  exact Multiset.coe_nodup.mp (Multiset.nodup_of_le hle hnd)

theorem fanOut_exists_complete :
    ∀ (n : Nat) (s : State), movesLeft s ≤ n → Inv s →
      ∃ sched s', run step sched s = some s' ∧ s'.pc = MainPc.finished := by
  intro n
  induction n with
  | zero =>
    intro s hn hinv
    by_cases hp : s.pc = MainPc.finished
    · exact ⟨[], s, rfl, hp⟩
    · obtain ⟨l, hne⟩ := fanOut_inv_progress s hinv hp
      obtain ⟨s₁, hs₁⟩ := Option.ne_none_iff_exists'.mp hne
      have hlt := fanOut_step_movesLeft l s s₁ hs₁
      omega
  | succ n ih =>
    intro s hn hinv
    by_cases hp : s.pc = MainPc.finished
    · exact ⟨[], s, rfl, hp⟩
    · obtain ⟨l, hne⟩ := fanOut_inv_progress s hinv hp
      obtain ⟨s₁, hs₁⟩ := Option.ne_none_iff_exists'.mp hne
      have hlt := fanOut_step_movesLeft l s s₁ hs₁
      obtain ⟨sched, s', hrun, hend⟩ := ih s₁ (by omega) (fanOut_step_inv l s s₁ hinv hs₁)
      exact ⟨l :: sched, s', by simp [run, hs₁, hrun], hend⟩

/-- C15: in the fan-out worker pool (3 workers, jobs 1..5 sent, then `jobs` closed),
under every interleaving: no job is ever consumed twice; as long as the five
receives of `main` have not all completed some goroutine can move, no interleaving
has more than 48 moves, and every one can be completed; once the five receives have
completed, the jobs consumed are exactly 1, 2, 3, 4, 5, each once, exactly five
results were placed on `results`, and the values sent and the values received both
form the multiset {2, 4, 6, 8, 10}, both channels being empty.  The order is not
fixed: one interleaving delivers 2, 4, 6, 8, 10 and another 4, 2, 6, 8, 10. -/
theorem fanOut_delivers_all (sched : List Move) (s : State)
    (hrun : run step sched init = some s) :
    (s.consumed.map Prod.snd).Nodup ∧
    (s.pc = MainPc.finished →
      s.received.Perm [2, 4, 6, 8, 10] ∧ s.produced.Perm [2, 4, 6, 8, 10] ∧
      (s.consumed.map Prod.snd).Perm [1, 2, 3, 4, 5] ∧ s.jobs = [] ∧ s.results = []) ∧
    (s.pc ≠ MainPc.finished → ∃ l, step l s ≠ none) ∧
    sched.length ≤ 48 ∧
    (∃ sched' s', run step (sched ++ sched') init = some s' ∧ s'.pc = MainPc.finished) ∧
    (run step
        ([Move.main, Move.main, Move.main, Move.main, Move.main, Move.main, Move.main,
          Move.main, Move.main, Move.main, Move.main,
          Move.worker 0, Move.worker 0, Move.worker 0, Move.worker 0, Move.worker 0,
          Move.worker 0, Move.worker 0, Move.worker 0, Move.worker 0, Move.worker 0,
          Move.main, Move.main, Move.main, Move.main, Move.main, Move.main]) init).map
      (fun s => (s.pc, s.received)) = some (MainPc.finished, [2, 4, 6, 8, 10]) ∧
    (run step
        ([Move.main, Move.main, Move.main, Move.main, Move.main, Move.main, Move.main,
          Move.main, Move.main, Move.main, Move.main,
          Move.worker 0, Move.worker 1, Move.worker 1, Move.worker 0, Move.worker 0,
          Move.worker 0, Move.worker 2, Move.worker 2, Move.worker 1, Move.worker 1,
          Move.main, Move.main, Move.main, Move.main, Move.main, Move.main]) init).map
      (fun s => (s.pc, s.received)) = some (MainPc.finished, [4, 2, 6, 8, 10]) := by
  have hinv : Inv s := run_invariant step Inv fanOut_step_inv sched init s fanOut_init_inv hrun
  have hlen := run_length_le step movesLeft fanOut_step_movesLeft sched init s hrun
  refine ⟨inv_consumed_nodup s hinv, inv_finished s hinv, fanOut_inv_progress s hinv, ?_, ?_,
    by decide, by decide⟩
  · have hinit : movesLeft init = 48 := by decide
    omega
  · obtain ⟨sched', s', hrun', hend⟩ := fanOut_exists_complete (movesLeft s) s (le_refl _) hinv
    exact ⟨sched', s', by rw [run_append, hrun]; exact hrun', hend⟩

/-- Witness for C15: the interleaving in which worker 1 takes jobs 1 and 3, worker 2
takes job 2 and answers first, worker 3 takes job 4, worker 2 takes job 5, and `main`
then collects the five results 4, 2, 6, 8, 10. -/
theorem fanOut_delivers_all_witness :
    run step
        [Move.main, Move.main, Move.main, Move.main, Move.main, Move.main, Move.main,
          Move.main, Move.main, Move.main, Move.main,
          Move.worker 0, Move.worker 1, Move.worker 1, Move.worker 0, Move.worker 0,
          Move.worker 0, Move.worker 2, Move.worker 2, Move.worker 1, Move.worker 1,
          Move.main, Move.main, Move.main, Move.main, Move.main, Move.main] init
      = some { pc := MainPc.finished, jobs := [], jobsClosed := true, results := [],
               workers := [Worker.waiting, Worker.waiting, Worker.waiting],
               received := [4, 2, 6, 8, 10],
               consumed := [(1, 1), (2, 2), (1, 3), (3, 4), (2, 5)],
               produced := [4, 2, 6, 8, 10] } ∧
    ([4, 2, 6, 8, 10] : List Int).Perm [2, 4, 6, 8, 10] ∧
    ([1, 2, 3, 4, 5] : List Int).Perm [1, 2, 3, 4, 5] :=
  ⟨by decide,
   ((fanOut_delivers_all
      [Move.main, Move.main, Move.main, Move.main, Move.main, Move.main, Move.main,
        Move.main, Move.main, Move.main, Move.main,
        Move.worker 0, Move.worker 1, Move.worker 1, Move.worker 0, Move.worker 0,
        Move.worker 0, Move.worker 2, Move.worker 2, Move.worker 1, Move.worker 1,
        Move.main, Move.main, Move.main, Move.main, Move.main, Move.main]
      { pc := MainPc.finished, jobs := [], jobsClosed := true, results := [],
        workers := [Worker.waiting, Worker.waiting, Worker.waiting],
        received := [4, 2, 6, 8, 10],
        consumed := [(1, 1), (2, 2), (1, 3), (3, 4), (2, 5)],
        produced := [4, 2, 6, 8, 10] }
      (by decide)).2.1 rfl).1,
   ((fanOut_delivers_all
      [Move.main, Move.main, Move.main, Move.main, Move.main, Move.main, Move.main,
        Move.main, Move.main, Move.main, Move.main,
        Move.worker 0, Move.worker 1, Move.worker 1, Move.worker 0, Move.worker 0,
        Move.worker 0, Move.worker 2, Move.worker 2, Move.worker 1, Move.worker 1,
        Move.main, Move.main, Move.main, Move.main, Move.main, Move.main]
      { pc := MainPc.finished, jobs := [], jobsClosed := true, results := [],
        workers := [Worker.waiting, Worker.waiting, Worker.waiting],
        received := [4, 2, 6, 8, 10],
        consumed := [(1, 1), (2, 2), (1, 3), (3, 4), (2, 5)],
        produced := [4, 2, 6, 8, 10] }
      (by decide)).2.1 rfl).2.2.1⟩

end FanOut

end Concurrency

namespace ContactBook

/-! ## DeleteContact -/

theorem deleteLoop_eq (name : String) :
    ∀ (rest visited : List Contact), (∀ x ∈ visited, x.Name ≠ name) →
      deleteLoop (visited ++ rest) name visited.length rest
        = visited ++ rest.eraseP (fun c => c.Name = name) := by
  intro rest
  induction rest with
  | nil => intro visited _; simp [deleteLoop]
  | cons c rest ih =>
    intro visited hv
    by_cases hc : c.Name = name
    · simp only [deleteLoop, if_pos hc]
      have hdrop : (visited ++ c :: rest).drop (visited.length + 1) = rest := by
        rw [show visited ++ c :: rest = (visited ++ [c]) ++ rest by simp]
        exact List.drop_left' (by simp)
      rw [List.take_left' rfl, hdrop]
      simp [hc]
    · simp only [deleteLoop, if_neg hc]
      have := ih (visited ++ [c]) (by
        intro x hx
        rcases List.mem_append.mp hx with h | h
        · exact hv x h
        · rw [List.mem_singleton.mp h]; exact hc)
      simp only [List.append_assoc, List.singleton_append, List.length_append,
        List.length_singleton] at this
      rw [this]
      simp [hc]

theorem DeleteContact_eq_eraseP (contacts : List Contact) (name : String) :
    DeleteContact contacts name = contacts.eraseP (fun c => c.Name = name) := by
  have := deleteLoop_eq name contacts [] (by simp)
  simpa [DeleteContact] using this

theorem FindContact_not_found (contacts : List Contact) (name : String) :
    (FindContact contacts name).2 = false ↔ ∀ c ∈ contacts, c.Name ≠ name := by
  induction contacts with
  | nil => simp [FindContact]
  | cons c rest ih =>
    by_cases hc : c.Name = name
    · simp [FindContact, hc]
    · simp [FindContact, hc, ih]

/-- C22: for every contact list and every name: if no contact has the name,
`DeleteContact` returns the list unchanged; otherwise it returns the list without
the first contact of that name, every other contact kept in place and in order, so
the length drops by exactly 1; and when the name occurs exactly once, `FindContact`
reports it as not found in the result. -/
theorem DeleteContact_spec (contacts : List Contact) (name : String) :
    ((∀ c ∈ contacts, c.Name ≠ name) → DeleteContact contacts name = contacts) ∧
    ((∃ c ∈ contacts, c.Name = name) →
      ∃ before removed after,
        contacts = before ++ removed :: after ∧ removed.Name = name ∧
        (∀ x ∈ before, x.Name ≠ name) ∧
        DeleteContact contacts name = before ++ after ∧
        (DeleteContact contacts name).length + 1 = contacts.length) ∧
    (contacts.countP (fun c => c.Name = name) = 1 →
      (FindContact (DeleteContact contacts name) name).2 = false) := by
  rw [DeleteContact_eq_eraseP]
  refine ⟨?_, ?_, ?_⟩
  · intro h
    apply List.eraseP_of_forall_not
    intro c hc
    simpa using h c hc
  · rintro ⟨c, hc, hname⟩
    obtain ⟨removed, before, after, hbefore, hrem, hsplit, herase⟩ :=
      List.exists_of_eraseP (p := fun c => decide (c.Name = name)) hc (by simpa using hname)
    refine ⟨before, removed, after, hsplit, by simpa using hrem, ?_, herase, ?_⟩
    · intro x hx
      simpa using hbefore x hx
    · rw [herase, hsplit]
      simp
      omega
  · intro hcount
    rw [FindContact_not_found]
    have hex : ∃ c ∈ contacts, (decide (c.Name = name)) = true := by
      have : 0 < contacts.countP (fun c => c.Name = name) := by omega
      simpa [List.countP_pos_iff] using this
    obtain ⟨c, hc, hname⟩ := hex
    obtain ⟨removed, before, after, hbefore, hrem, hsplit, herase⟩ :=
      List.exists_of_eraseP (p := fun c => decide (c.Name = name)) hc hname
    rw [herase]
    rw [hsplit, List.countP_append, List.countP_cons] at hcount
    simp only [hrem, if_true] at hcount
    have hafter : List.countP (fun c => decide (c.Name = name)) after = 0 := by omega
    intro x hx
    rcases List.mem_append.mp hx with h | h
    · simpa using hbefore x h
    · have := List.countP_eq_zero.mp hafter x h
      simpa using this

/-- Witness for C22: the deletion of "Carol Williams" from the four contacts of the
lesson's `main`. -/
theorem DeleteContact_spec_witness :
    DeleteContact
        [⟨"Alice Johnson", "555-0101", "alice@example.com"⟩,
         ⟨"Bob Smith", "555-0102", "bob@example.com"⟩,
         ⟨"Carol Williams", "555-0103", "carol@example.com"⟩,
         ⟨"David Brown", "555-0104", "david@example.com"⟩] "Carol Williams"
      = [⟨"Alice Johnson", "555-0101", "alice@example.com"⟩,
         ⟨"Bob Smith", "555-0102", "bob@example.com"⟩,
         ⟨"David Brown", "555-0104", "david@example.com"⟩] ∧
    (FindContact
        (DeleteContact
          [⟨"Alice Johnson", "555-0101", "alice@example.com"⟩,
           ⟨"Bob Smith", "555-0102", "bob@example.com"⟩,
           ⟨"Carol Williams", "555-0103", "carol@example.com"⟩,
           ⟨"David Brown", "555-0104", "david@example.com"⟩] "Carol Williams")
        "Carol Williams").2 = false ∧
    DeleteContact [⟨"Alice Johnson", "555-0101", "alice@example.com"⟩] "Bob Smith"
      = [⟨"Alice Johnson", "555-0101", "alice@example.com"⟩] :=
  ⟨by decide,
   (DeleteContact_spec
      [⟨"Alice Johnson", "555-0101", "alice@example.com"⟩,
       ⟨"Bob Smith", "555-0102", "bob@example.com"⟩,
       ⟨"Carol Williams", "555-0103", "carol@example.com"⟩,
       ⟨"David Brown", "555-0104", "david@example.com"⟩] "Carol Williams").2.2 (by decide),
   (DeleteContact_spec [⟨"Alice Johnson", "555-0101", "alice@example.com"⟩] "Bob Smith").1
     (by decide)⟩

end ContactBook

namespace RestApi

open Calculator

/-! ## The user store -/

theorem seeded_inv (t₁ t₂ : Nat) :
    Inv (seeded t₁ t₂) ∧
    (seeded t₁ t₂).nextID = 3 ∧
    (seeded t₁ t₂).users 1
      = some { ID := 1, Name := "Alice Johnson", Email := "alice@example.com", CreatedAt := t₁ } ∧
    (seeded t₁ t₂).users 2
      = some { ID := 2, Name := "Bob Smith", Email := "bob@example.com", CreatedAt := t₂ } := by
  have h2 : wrapInt 2 = 2 := by decide
  have h3 : wrapInt 3 = 3 := by decide
  have hn : (seeded t₁ t₂).nextID = 3 := by
    simp [seeded, addSample, Store.increment, Store.put, declared, h2, h3]
  have hu : ∀ k, (seeded t₁ t₂).users k =
      if k = 2 then
        some { ID := 2, Name := "Bob Smith", Email := "bob@example.com", CreatedAt := t₂ }
      else if k = 1 then
        some { ID := 1, Name := "Alice Johnson", Email := "alice@example.com", CreatedAt := t₁ }
      else none := by
    intro k
    simp [seeded, addSample, Store.increment, Store.put, declared, h2]
  refine ⟨⟨by rw [hn]; decide, ?_⟩, hn, ?_, ?_⟩
  · intro k u hk
    rw [hu] at hk
    rw [hn]
    split at hk
    · next h => cases hk; subst h; exact ⟨rfl, by decide⟩
    · split at hk
      · next h => cases hk; subst h; exact ⟨rfl, by decide⟩
      · cases hk
  · rw [hu]; simp
  · rw [hu]; simp

theorem increment_nextID (s : Store) (h1 : 1 ≤ s.nextID) (hmax : s.nextID < maxInt) :
    wrapInt (s.nextID + 1) = s.nextID + 1 := by
  apply wrapInt_of_inRange
  unfold InRange
  rw [minInt_eq, maxInt_eq] at *
  omega

/-- One request: the invariant is kept, `nextID` grows by one exactly when a user is
created, and a key that is free and below `nextID` stays free. -/
theorem handle_step (r : Request) (s : Store) (hinv : Inv s)
    (hmax : r.creates = true → s.nextID < maxInt) :
    Inv (handle r s).1 ∧
    (handle r s).1.nextID = s.nextID + (if r.creates then 1 else 0) ∧
    (∀ id, s.users id = none → id < s.nextID → (handle r s).1.users id = none) := by
  obtain ⟨h1, hu⟩ := hinv
  have hsame : ∀ code, (handle r s) = (s, code) → r.creates = false →
      Inv (handle r s).1 ∧
      (handle r s).1.nextID = s.nextID + (if r.creates then 1 else 0) ∧
      (∀ id, s.users id = none → id < s.nextID → (handle r s).1.users id = none) := by
    intro code hs hc
    rw [hs, hc]
    exact ⟨⟨h1, hu⟩, by simp, fun _ h _ => h⟩
  cases r with
  | create body now =>
    cases body with
    | none => exact hsame 400 rfl rfl
    | some user =>
      by_cases hn : user.Name = ""
      · exact hsame 400 (by simp [handle, createUser, hn]) (by simp [Request.creates, hn])
      · by_cases he : user.Email = ""
        · exact hsame 400 (by simp [handle, createUser, hn, he])
            (by simp [Request.creates, he])
        · have hc : (Request.create (some user) now).creates = true := by
            simp [Request.creates, hn, he]
          have hinc := increment_nextID s h1 (hmax hc)
          have hs : (handle (Request.create (some user) now) s).1
              = { users := fun k =>
                    if k = s.nextID then some { user with ID := s.nextID, CreatedAt := now }
                    else s.users k,
                  nextID := s.nextID + 1 } := by
            simp [handle, createUser, hn, he, Store.increment, Store.put, hinc]
          rw [hs, hc]
          unfold Inv
          dsimp only
          refine ⟨⟨by omega, ?_⟩, by simp, ?_⟩
          · intro k u hk
            by_cases hkn : k = s.nextID
            · rw [if_pos hkn] at hk
              cases hk
              exact ⟨hkn.symm, by omega⟩
            · rw [if_neg hkn] at hk
              have := hu k u hk
              exact ⟨this.1, by omega⟩
          · intro id hid hlt
            rw [if_neg (by omega)]
            exact hid
  | update id body =>
    cases id with
    | none => exact hsame 400 rfl rfl
    | some id =>
      cases hget : s.users id with
      | none => exact hsame 404 (by simp [handle, updateUser, hget]) rfl
      | some user =>
        cases body with
        | none => exact hsame 400 (by simp [handle, updateUser, hget]) rfl
        | some updates =>
          have hs : (handle (Request.update (some id) (some updates)) s).1
              = { users := fun k =>
                    if k = id then
                      some { user with Name := updates.Name, Email := updates.Email }
                    else s.users k,
                  nextID := s.nextID } := by
            simp [handle, updateUser, hget, Store.put]
          have hnc : (Request.update (some id) (some updates)).creates = false := rfl
          rw [hs, hnc]
          unfold Inv
          dsimp only
          refine ⟨⟨h1, ?_⟩, by simp, ?_⟩
          · intro k u hk
            by_cases hki : k = id
            · rw [if_pos hki] at hk
              cases hk
              have := hu id user hget
              exact ⟨by rw [hki]; exact this.1, by rw [hki]; exact this.2⟩
            · rw [if_neg hki] at hk
              exact hu k u hk
          · intro k hk _
            by_cases hki : k = id
            · rw [hki, hget] at hk
              cases hk
            · rw [if_neg hki]
              exact hk
  | delete id =>
    cases id with
    | none => exact hsame 400 rfl rfl
    | some id =>
      cases hget : s.users id with
      | none => exact hsame 404 (by simp [handle, deleteUser, hget]) rfl
      | some user =>
        have hs : (handle (Request.delete (some id)) s).1
            = { users := fun k => if k = id then none else s.users k,
                nextID := s.nextID } := by
          simp [handle, deleteUser, hget, Store.remove]
        have hnc : (Request.delete (some id)).creates = false := rfl
        rw [hs, hnc]
        unfold Inv
        dsimp only
        refine ⟨⟨h1, ?_⟩, by simp, ?_⟩
        · intro k u hk
          by_cases hki : k = id
          · rw [if_pos hki] at hk
            cases hk
          · rw [if_neg hki] at hk
            exact hu k u hk
        · intro k hk _
          by_cases hki : k = id
          · rw [if_pos hki]
          · rw [if_neg hki]
            exact hk

theorem serve_cons (r : Request) (rs : List Request) (s : Store) :
    serve (r :: rs) s = serve rs (handle r s).1 := rfl

theorem serve_append (rs₁ rs₂ : List Request) (s : Store) :
    serve (rs₁ ++ rs₂) s = serve rs₂ (serve rs₁ s) := by
  simp [serve, List.foldl_append]

/-- A sequence of requests that does not take `nextID` past the largest `int`: the
invariant is kept, `nextID` has grown by the number of users created, and a key that
was free and below `nextID` is still free. -/
theorem serve_spec :
    ∀ (requests : List Request) (s : Store), Inv s →
      s.nextID + (requests.countP Request.creates : Int) ≤ maxInt →
      Inv (serve requests s) ∧
      (serve requests s).nextID = s.nextID + (requests.countP Request.creates : Int) ∧
      (∀ id, s.users id = none → id < s.nextID →
        (serve requests s).users id = none ∧ id < (serve requests s).nextID) := by
  intro requests
  induction requests with
  | nil =>
    intro s hinv _
    exact ⟨hinv, by simp [serve], fun id h hlt => ⟨h, hlt⟩⟩
  | cons r rs ih =>
    intro s hinv hbound
    rw [List.countP_cons] at hbound ⊢
    have hnn : (0 : Int) ≤ (rs.countP Request.creates : Int) := Int.natCast_nonneg _
    have hstep := handle_step r s hinv (by
      intro hc
      rw [hc] at hbound
      simp only [if_true] at hbound
      push_cast at hbound
      omega)
    obtain ⟨hinv', hnext, hfree⟩ := hstep
    have hbound' : (handle r s).1.nextID + (rs.countP Request.creates : Int) ≤ maxInt := by
      rw [hnext]
      by_cases hc : r.creates = true
      · rw [hc] at hbound
        simp only [hc, if_true] at hbound ⊢
        push_cast at hbound
        omega
      · simp only [hc, Bool.false_eq_true, if_false, add_zero] at hbound ⊢
        exact_mod_cast hbound
    obtain ⟨hinv'', hnext', hfree'⟩ := ih (handle r s).1 hinv' hbound'
    rw [serve_cons]
    refine ⟨hinv'', ?_, ?_⟩
    · rw [hnext', hnext]
      by_cases hc : r.creates = true
      · simp only [hc, if_true]
        push_cast
        omega
      · simp only [hc, Bool.false_eq_true, if_false, add_zero]
    · intro id hid hlt
      apply hfree' id (hfree id hid hlt)
      rw [hnext]
      split <;> omega

/-- One request keeps every stored user under the key that is its ID, whatever
`nextID` is. -/
theorem handle_keyInv (r : Request) (s : Store) (hkey : KeyInv s) :
    KeyInv (handle r s).1 := by
  cases r with
  | create body now =>
    cases body with
    | none => exact hkey
    | some user =>
      by_cases hn : user.Name = ""
      · simpa [handle, createUser, hn] using hkey
      · by_cases he : user.Email = ""
        · simpa [handle, createUser, hn, he] using hkey
        · intro k u hk
          simp only [handle, createUser, hn, he, if_false, Store.increment, Store.put] at hk
          by_cases hkn : k = s.nextID
          · rw [if_pos hkn] at hk
            cases hk
            exact hkn.symm
          · rw [if_neg hkn] at hk
            exact hkey k u hk
  | update id body =>
    cases id with
    | none => exact hkey
    | some id =>
      cases hget : s.users id with
      | none => simpa [handle, updateUser, hget] using hkey
      | some user =>
        cases body with
        | none => simpa [handle, updateUser, hget] using hkey
        | some updates =>
          intro k u hk
          simp only [handle, updateUser, hget, Store.put] at hk
          by_cases hki : k = id
          · rw [if_pos hki] at hk
            cases hk
            rw [hki]
            exact hkey id user hget
          · rw [if_neg hki] at hk
            exact hkey k u hk
  | delete id =>
    cases id with
    | none => exact hkey
    | some id =>
      cases hget : s.users id with
      | none => simpa [handle, deleteUser, hget] using hkey
      | some user =>
        intro k u hk
        simp only [handle, deleteUser, hget, Store.remove] at hk
        by_cases hki : k = id
        · rw [if_pos hki] at hk
          cases hk
        · rw [if_neg hki] at hk
          exact hkey k u hk

theorem serve_keyInv (requests : List Request) :
    ∀ s : Store, KeyInv s → KeyInv (serve requests s) := by
  induction requests with
  | nil => intro s h; exact h
  | cons r rs ih =>
    intro s h
    rw [serve_cons]
    exact ih _ (handle_keyInv r s h)

/-! ### Handlers that run alone -/

/-- A handler that runs alone from its first statement does what the handler function
says: the same store and the same status code. -/
theorem solo_start (r : Request) (s : Store) :
    Task.solo r.start.rank r.start s = some (handle r s) := by
  cases r with
  | create body now =>
    cases body with
    | none => rfl
    | some user =>
      by_cases hn : user.Name = ""
      · simp [Request.start, Task.rank, Task.solo, Task.move, handle, createUser, hn]
      · by_cases he : user.Email = ""
        · simp [Request.start, Task.rank, Task.solo, Task.move, handle, createUser, hn, he]
        · simp [Request.start, Task.rank, Task.solo, Task.move, handle, createUser, hn, he,
            Store.put, Store.increment]
  | update id body =>
    cases id with
    | none => rfl
    | some id =>
      cases hget : s.users id with
      | none => simp [Request.start, Task.rank, Task.solo, Task.move, handle, updateUser, hget]
      | some user =>
        cases body with
        | none =>
          simp [Request.start, Task.rank, Task.solo, Task.move, handle, updateUser, hget]
        | some updates =>
          simp [Request.start, Task.rank, Task.solo, Task.move, handle, updateUser, hget]
  | delete id =>
    cases id with
    | none => rfl
    | some id =>
      cases hget : s.users id with
      | none => simp [Request.start, Task.rank, Task.solo, Task.move, handle, deleteUser, hget]
      | some user =>
        simp [Request.start, Task.rank, Task.solo, Task.move, handle, deleteUser, hget]

/-- A step that does not end the handler lowers its rank by one. -/
theorem move_rank (t t' : Task) (s s' : Store) (h : t.move s = (s', Sum.inl t')) :
    t.rank = t'.rank + 1 := by
  cases t with
  | createAssign body now =>
    cases body with
    | none => simp [Task.move] at h
    | some user =>
      by_cases hn : user.Name = ""
      · simp [Task.move, hn] at h
      · by_cases he : user.Email = ""
        · simp [Task.move, hn, he] at h
        · simp [Task.move, hn, he] at h
          rw [← h.2]
          rfl
  | createStore user =>
    simp [Task.move] at h
    rw [← h.2]
    rfl
  | createIncrement => simp [Task.move] at h
  | updateLookup id body =>
    cases id with
    | none => simp [Task.move] at h
    | some id =>
      cases hget : s.users id with
      | none => simp [Task.move, hget] at h
      | some user =>
        cases body with
        | none => simp [Task.move, hget] at h
        | some updates =>
          simp [Task.move, hget] at h
          rw [← h.2]
          rfl
  | updateStore id user => simp [Task.move] at h
  | deleteLookup id =>
    cases id with
    | none => simp [Task.move] at h
    | some id =>
      cases hget : s.users id with
      | none => simp [Task.move, hget] at h
      | some user =>
        simp [Task.move, hget] at h
        rw [← h.2]
        rfl
  | deleteRemove id => simp [Task.move] at h

theorem solo_move_inl (t t' : Task) (s s' : Store) (h : t.move s = (s', Sum.inl t')) :
    Task.solo t.rank t s = Task.solo t'.rank t' s' := by
  rw [move_rank t t' s s' h]
  simp only [Task.solo, h]

theorem rank_pos (t : Task) : ∃ n, t.rank = n + 1 := by
  cases t <;> exact ⟨_, rfl⟩

theorem solo_move_inr (t : Task) (s s' : Store) (status : Nat)
    (h : t.move s = (s', Sum.inr status)) :
    Task.solo t.rank t s = some (s', status) := by
  obtain ⟨n, hn⟩ := rank_pos t
  rw [hn]
  simp only [Task.solo, h]

/-! ### Requests handled one at a time -/

theorem arrive_linked (s₀ : Store) (r : Request) (srv : Server) (reqs : List Request)
    (hl : Linked s₀ reqs srv) (hempty : srv.running = []) :
    Linked s₀ (reqs ++ [r]) { srv with running := srv.running ++ [r.start] } := by
  rcases hl with ⟨-, hstore⟩ | ⟨task, status, hrun, -⟩
  · right
    refine ⟨r.start, (handle r srv.store).2, by rw [hempty]; rfl, ?_⟩
    rw [solo_start, serve_append, ← hstore]
    rfl
  · rw [hempty] at hrun
    cases hrun

theorem advance_linked (s₀ : Store) (k : Nat) (srv srv' : Server) (reqs : List Request)
    (hl : Linked s₀ reqs srv) (hstep : step (Move.advance k) srv = some srv') :
    Linked s₀ reqs srv' := by
  rcases hl with ⟨hempty, -⟩ | ⟨task, status, hrun, hsolo⟩
  · simp [step, hempty] at hstep
  · cases k with
    | succ k => simp [step, hrun] at hstep
    | zero =>
      simp only [step, hrun, List.getElem?_cons_zero] at hstep
      cases hmove : task.move srv.store with
      | mk s' res =>
        cases res with
        | inl next =>
          rw [hmove] at hstep
          simp only [Option.some.injEq] at hstep
          subst hstep
          right
          refine ⟨next, status, rfl, ?_⟩
          rw [← solo_move_inl task next srv.store s' hmove]
          exact hsolo
        | inr c =>
          rw [hmove] at hstep
          simp only [Option.some.injEq] at hstep
          subst hstep
          left
          refine ⟨rfl, ?_⟩
          rw [solo_move_inr task srv.store s' c hmove] at hsolo
          simp only [Option.some.injEq, Prod.mk.injEq] at hsolo
          exact hsolo.1

/-- Along a schedule that handles its requests one at a time, the server stays linked
to `serve` of the requests that have arrived. -/
theorem run_linked (s₀ : Store) :
    ∀ (schedule : List Move) (srv final : Server) (reqs : List Request),
      Linked s₀ reqs srv → Concurrency.run step schedule srv = some final →
      exclusive schedule srv = true → Linked s₀ (reqs ++ arrivals schedule) final := by
  intro schedule
  induction schedule with
  | nil =>
    intro srv final reqs hl hrun _
    simp only [Concurrency.run, Option.some.injEq] at hrun
    subst hrun
    simpa [arrivals] using hl
  | cons m ms ih =>
    intro srv final reqs hl hrun hex
    cases m with
    | arrive r =>
      simp only [Concurrency.run, step, Option.some_bind] at hrun
      simp only [exclusive, step, Bool.and_eq_true, List.isEmpty_iff] at hex
      have h := ih _ final (reqs ++ [r]) (arrive_linked s₀ r srv reqs hl hex.1) hrun hex.2
      simpa [arrivals] using h
    | advance k =>
      simp only [Concurrency.run] at hrun
      cases hstep : step (Move.advance k) srv with
      | none => rw [hstep] at hrun; simp at hrun
      | some srv' =>
        rw [hstep] at hrun
        simp only [Option.some_bind] at hrun
        simp only [exclusive, hstep] at hex
        have h := ih srv' final reqs (advance_linked s₀ k srv srv' reqs hl hstep) hrun hex
        simpa [arrivals] using h

/-- The refinement: a schedule that handles its requests one at a time and lets every
handler return leaves the store that `serve` computes for the requests that arrived. -/
theorem run_exclusive_eq_serve (s₀ : Store) (schedule : List Move) (final : Server)
    (hrun : Concurrency.run step schedule { store := s₀, running := [] } = some final)
    (hex : exclusive schedule { store := s₀, running := [] } = true)
    (hdone : final.running = []) :
    final.store = serve (arrivals schedule) s₀ := by
  have h := run_linked s₀ schedule _ final [] (Or.inl ⟨rfl, rfl⟩) hrun hex
  rcases h with ⟨-, hstore⟩ | ⟨task, status, hr, -⟩
  · simpa using hstore
  · rw [hdone] at hr
    cases hr

/-- A schedule that handles its requests one at a time, cut in two: both parts handle
their requests one at a time. -/
theorem exclusive_append :
    ∀ (l₁ l₂ : List Move) (srv mid : Server),
      Concurrency.run step l₁ srv = some mid → exclusive (l₁ ++ l₂) srv = true →
      exclusive l₁ srv = true ∧ exclusive l₂ mid = true := by
  intro l₁
  induction l₁ with
  | nil =>
    intro l₂ srv mid hrun hex
    simp only [Concurrency.run, Option.some.injEq] at hrun
    subst hrun
    exact ⟨rfl, hex⟩
  | cons m ms ih =>
    intro l₂ srv mid hrun hex
    simp only [Concurrency.run] at hrun
    cases hstep : step m srv with
    | none => rw [hstep] at hrun; simp at hrun
    | some srv' =>
      rw [hstep] at hrun
      simp only [Option.some_bind] at hrun
      cases m with
      | arrive r =>
        simp only [List.cons_append, exclusive, hstep, Bool.and_eq_true] at hex ⊢
        obtain ⟨h1, h2⟩ := ih l₂ srv' mid hrun hex.2
        exact ⟨⟨hex.1, h1⟩, h2⟩
      | advance k =>
        simp only [List.cons_append, exclusive, hstep] at hex ⊢
        exact ih l₂ srv' mid hrun hex

theorem arrivals_append (l₁ l₂ : List Move) :
    arrivals (l₁ ++ l₂) = arrivals l₁ ++ arrivals l₂ := by
  induction l₁ with
  | nil => rfl
  | cons m ms ih =>
    cases m with
    | arrive r => simp [arrivals, ih]
    | advance k => simp [arrivals, ih]

theorem exclusive_of_no_arrivals :
    ∀ (l : List Move) (srv : Server), arrivals l = [] → exclusive l srv = true := by
  intro l
  induction l with
  | nil => intro _ _; rfl
  | cons m ms ih =>
    intro srv h
    cases m with
    | arrive r => simp [arrivals] at h
    | advance k =>
      simp only [arrivals] at h
      simp only [exclusive]
      cases step (Move.advance k) srv with
      | none => rfl
      | some srv' => exact ih srv' h

theorem exclusive_append_of :
    ∀ (l₁ l₂ : List Move) (srv mid : Server),
      Concurrency.run step l₁ srv = some mid → exclusive l₁ srv = true →
      exclusive l₂ mid = true → exclusive (l₁ ++ l₂) srv = true := by
  intro l₁
  induction l₁ with
  | nil =>
    intro l₂ srv mid hrun _ h2
    simp only [Concurrency.run, Option.some.injEq] at hrun
    subst hrun
    exact h2
  | cons m ms ih =>
    intro l₂ srv mid hrun h1 h2
    simp only [Concurrency.run] at hrun
    cases hstep : step m srv with
    | none => rw [hstep] at hrun; simp at hrun
    | some srv' =>
      rw [hstep] at hrun
      simp only [Option.some_bind] at hrun
      cases m with
      | arrive r =>
        simp only [List.cons_append, exclusive, hstep, Bool.and_eq_true] at h1 ⊢
        exact ⟨h1.1, ih l₂ srv' mid hrun h1.2 h2⟩
      | advance k =>
        simp only [List.cons_append, exclusive, hstep] at h1 ⊢
        exact ih l₂ srv' mid hrun h1 h2

/-- The moves of a handler that runs alone take the server from the state where it
is the only running handler to the state where it has returned. -/
theorem soloMoves_run :
    ∀ (fuel : Nat) (t : Task) (s s' : Store) (status : Nat),
      Task.solo fuel t s = some (s', status) →
      Concurrency.run step (Task.soloMoves fuel t s) { store := s, running := [t] }
        = some { store := s', running := [] } ∧
      arrivals (Task.soloMoves fuel t s) = [] := by
  intro fuel
  induction fuel with
  | zero => intro t s s' status h; simp [Task.solo] at h
  | succ fuel ih =>
    intro t s s' status h
    cases hmove : t.move s with
    | mk s₁ res =>
      cases res with
      | inl next =>
        simp only [Task.solo, hmove] at h
        obtain ⟨h1, h2⟩ := ih next s₁ s' status h
        refine ⟨?_, ?_⟩
        · simp only [Task.soloMoves, hmove, Concurrency.run, step, List.getElem?_cons_zero,
            List.set_cons_zero, Option.some_bind]
          exact h1
        · simp only [Task.soloMoves, hmove, arrivals]
          exact h2
      | inr c =>
        simp only [Task.solo, hmove, Option.some.injEq, Prod.mk.injEq] at h
        refine ⟨?_, ?_⟩
        · simp only [Task.soloMoves, hmove, Concurrency.run, step, List.getElem?_cons_zero,
            List.eraseIdx_cons_zero, Option.some_bind, h.1]
        · simp only [Task.soloMoves, hmove, arrivals]

/-- The sequential schedule of a list of requests is a run of the server that handles
them one at a time, lets every handler return, and ends in the store `serve` gives. -/
theorem sequentialSchedule_run :
    ∀ (requests : List Request) (s : Store),
      Concurrency.run step (sequentialSchedule requests s) { store := s, running := [] }
        = some { store := serve requests s, running := [] } ∧
      exclusive (sequentialSchedule requests s) { store := s, running := [] } = true ∧
      arrivals (sequentialSchedule requests s) = requests := by
  intro requests
  induction requests with
  | nil => intro s; exact ⟨rfl, rfl, rfl⟩
  | cons r rs ih =>
    intro s
    obtain ⟨h1, h2, h3⟩ := ih (handle r s).1
    obtain ⟨g1, g2⟩ := soloMoves_run r.start.rank r.start s (handle r s).1 (handle r s).2
      (solo_start r s)
    have hrun : Concurrency.run step
        (Task.soloMoves r.start.rank r.start s ++ sequentialSchedule rs (handle r s).1)
        { store := s, running := [r.start] }
        = some { store := serve rs (handle r s).1, running := [] } := by
      rw [Concurrency.run_append, g1]
      exact h1
    refine ⟨?_, ?_, ?_⟩
    · simp only [sequentialSchedule, Concurrency.run, step, List.nil_append, Option.some_bind]
      rw [hrun, serve_cons]
    · simp only [sequentialSchedule, exclusive, step, List.isEmpty_nil, List.nil_append,
        Bool.true_and]
      exact exclusive_append_of _ _ _ _ g1 (exclusive_of_no_arrivals _ _ g2) h2
    · simp only [sequentialSchedule, arrivals, arrivals_append, g2, h3, List.nil_append]

/-- The store after requests handled one at a time, from the seeded state, while
`nextID` has not passed the largest `int`: every stored user's ID is its key and is
below `nextID`, which is 3 plus the number of users created; an update of a stored
user changes only its `Name` and `Email`; an ID freed by a delete stays free and
below `nextID`. -/
theorem serve_invariant (t₁ t₂ : Nat) (requests : List Request)
    (hbound : 3 + (requests.countP Request.creates : Int) ≤ maxInt) :
    (∀ k u, (serve requests (seeded t₁ t₂)).users k = some u →
      u.ID = k ∧ u.ID < (serve requests (seeded t₁ t₂)).nextID) ∧
    (serve requests (seeded t₁ t₂)).nextID = 3 + (requests.countP Request.creates : Int) ∧
    (∀ id user updates, (serve requests (seeded t₁ t₂)).users id = some user →
      (updateUser (some id) (some updates) (serve requests (seeded t₁ t₂))).1.users id
        = some { ID := user.ID, Name := updates.Name, Email := updates.Email,
                 CreatedAt := user.CreatedAt } ∧
      (∀ k, k ≠ id →
        (updateUser (some id) (some updates) (serve requests (seeded t₁ t₂))).1.users k
          = (serve requests (seeded t₁ t₂)).users k) ∧
      (updateUser (some id) (some updates) (serve requests (seeded t₁ t₂))).1.nextID
        = (serve requests (seeded t₁ t₂)).nextID) ∧
    (∀ before id after, requests = before ++ Request.delete (some id) :: after →
      (serve before (seeded t₁ t₂)).users id ≠ none →
      (serve requests (seeded t₁ t₂)).users id = none ∧
      id < (serve requests (seeded t₁ t₂)).nextID) := by
  obtain ⟨hseed, hseedn, -, -⟩ := seeded_inv t₁ t₂
  obtain ⟨hinv, hnext, -⟩ := serve_spec requests (seeded t₁ t₂) hseed (by rw [hseedn]; exact hbound)
  rw [hseedn] at hnext
  refine ⟨?_, hnext, ?_, ?_⟩
  · intro k u hk
    have := hinv.2 k u hk
    exact ⟨this.1, by rw [this.1]; exact this.2⟩
  · intro id user updates hget
    simp only [updateUser, hget, Store.put]
    refine ⟨by simp, ?_, trivial⟩
    intro k hk
    simp [hk]
  · intro before id after hsplit hpresent
    subst hsplit
    rw [List.countP_append, List.countP_cons] at hbound
    have hnc : (Request.delete (some id)).creates = false := rfl
    simp only [hnc, Bool.false_eq_true, if_false, add_zero] at hbound
    push_cast at hbound
    have hn1 : (0 : Int) ≤ (before.countP Request.creates : Int) := Int.natCast_nonneg _
    have hn2 : (0 : Int) ≤ (after.countP Request.creates : Int) := Int.natCast_nonneg _
    obtain ⟨hinv₁, hnext₁, -⟩ :=
      serve_spec before (seeded t₁ t₂) hseed (by rw [hseedn]; omega)
    rw [hseedn] at hnext₁
    obtain ⟨user, huser⟩ := Option.ne_none_iff_exists'.mp hpresent
    have hlt : id < (serve before (seeded t₁ t₂)).nextID := (hinv₁.2 id user huser).2
    have hstep := handle_step (Request.delete (some id)) (serve before (seeded t₁ t₂)) hinv₁
      (by intro h; cases h)
    obtain ⟨hinv₂, hnext₂, -⟩ := hstep
    simp only [hnc, Bool.false_eq_true, if_false, add_zero] at hnext₂
    have hfreed : (handle (Request.delete (some id)) (serve before (seeded t₁ t₂))).1.users id
        = none := by
      simp [handle, deleteUser, huser, Store.remove]
    obtain ⟨-, -, hfree⟩ :=
      serve_spec after (handle (Request.delete (some id)) (serve before (seeded t₁ t₂))).1 hinv₂
        (by rw [hnext₂, hnext₁]; omega)
    rw [serve_append, serve_cons]
    exact hfree id hfreed (by rw [hnext₂]; exact hlt)

/-! ### Creating and deleting in turn -/

theorem churn_snoc (user : User) (now : Nat) :
    ∀ (n : Nat) (id : Int),
      churn user now (n + 1) id
        = churn user now n id
          ++ [Request.create (some user) now, Request.delete (some (id + (n : Int)))] := by
  intro n
  induction n with
  | zero => intro id; simp [churn]
  | succ n ih =>
    intro id
    rw [churn, ih (id + 1)]
    simp only [churn, List.cons_append]
    push_cast
    rw [show id + 1 + (n : Int) = id + ((n : Int) + 1) by ring]

/-- One round: a user is created under the key `nextID` and deleted again; the map is
as before and `nextID` has been incremented. -/
theorem churn_round (user : User) (now : Nat) (hn : user.Name ≠ "") (he : user.Email ≠ "")
    (s : Store) (hfree : s.users s.nextID = none) :
    (serve [Request.create (some user) now, Request.delete (some s.nextID)] s).nextID
      = wrapInt (s.nextID + 1) ∧
    ∀ k, (serve [Request.create (some user) now, Request.delete (some s.nextID)] s).users k
      = s.users k := by
  refine ⟨?_, ?_⟩
  · simp [serve, handle, createUser, deleteUser, hn, he, Store.increment, Store.put,
      Store.remove]
  · intro k
    by_cases hk : k = s.nextID
    · simp [serve, handle, createUser, deleteUser, hn, he, Store.increment, Store.put,
        Store.remove, hk, hfree]
    · simp [serve, handle, createUser, deleteUser, hn, he, Store.increment, Store.put,
        Store.remove, hk]

theorem serve_churn (user : User) (now : Nat) (hn : user.Name ≠ "") (he : user.Email ≠ "") :
    ∀ (n : Nat) (s : Store), Inv s → s.nextID + (n : Int) ≤ maxInt →
      (serve (churn user now n s.nextID) s).nextID = s.nextID + (n : Int) ∧
      (∀ k, (serve (churn user now n s.nextID) s).users k = s.users k) := by
  intro n
  induction n with
  | zero => intro s _ _; simp [churn, serve]
  | succ n ih =>
    intro s hinv hbound
    push_cast at hbound
    have hfree : s.users s.nextID = none := by
      cases hget : s.users s.nextID with
      | none => rfl
      | some u => exact absurd (hinv.2 _ u hget).2 (lt_irrefl _)
    obtain ⟨hnext, husers⟩ := churn_round user now hn he s hfree
    have hinc : wrapInt (s.nextID + 1) = s.nextID + 1 :=
      increment_nextID s hinv.1 (by omega)
    rw [hinc] at hnext
    have hinv' : Inv (serve [Request.create (some user) now, Request.delete (some s.nextID)] s) := by
      refine ⟨by rw [hnext]; have := hinv.1; omega, ?_⟩
      intro k u hk
      rw [husers] at hk
      have := hinv.2 k u hk
      exact ⟨this.1, by rw [hnext]; omega⟩
    obtain ⟨h1, h2⟩ := ih _ hinv' (by rw [hnext]; omega)
    rw [hnext] at h1 h2
    have hsplit : churn user now (n + 1) s.nextID
        = [Request.create (some user) now, Request.delete (some s.nextID)]
          ++ churn user now n (s.nextID + 1) := rfl
    rw [hsplit, serve_append]
    refine ⟨?_, ?_⟩
    · rw [h1]
      push_cast
      ring
    · intro k
      rw [h2, husers]

/-- After `2 ^ 63 - 3` rounds from the seeded state `nextID` has wrapped to the most
negative `int`, and the map holds the two sample users and nothing else. -/
theorem serve_churn_wraps (t₁ t₂ : Nat) (user : User) (now : Nat) (hn : user.Name ≠ "")
    (he : user.Email ≠ "") (n : Nat) (hpos : 0 < n) (hn3 : (n : Int) + 3 = maxInt + 1) :
    (serve (churn user now n 3) (seeded t₁ t₂)).nextID = minInt ∧
    (∀ k, (serve (churn user now n 3) (seeded t₁ t₂)).users k = (seeded t₁ t₂).users k) := by
  obtain ⟨m, rfl⟩ : ∃ m, n = m + 1 := ⟨n - 1, by omega⟩
  obtain ⟨hseed, hseedn, -, -⟩ := seeded_inv t₁ t₂
  push_cast at hn3
  have h := serve_churn user now hn he m (seeded t₁ t₂) hseed (by rw [hseedn]; omega)
  rw [hseedn] at h
  obtain ⟨hnx, hus⟩ := h
  have hmax : (serve (churn user now m 3) (seeded t₁ t₂)).nextID = maxInt := by
    rw [hnx]; omega
  have hfree : (serve (churn user now m 3) (seeded t₁ t₂)).users
      (serve (churn user now m 3) (seeded t₁ t₂)).nextID = none := by
    rw [hus, hmax]
    cases hget : (seeded t₁ t₂).users maxInt with
    | none => rfl
    | some u =>
      have := (hseed.2 _ u hget).2
      rw [hseedn] at this
      exact absurd this (by decide)
  obtain ⟨g1, g2⟩ := churn_round user now hn he _ hfree
  have hid : (3 : Int) + (m : Int) = (serve (churn user now m 3) (seeded t₁ t₂)).nextID := by
    rw [hmax]; omega
  rw [churn_snoc, serve_append, hid]
  refine ⟨?_, ?_⟩
  · rw [g1, hmax]
    decide
  · intro k
    rw [g2, hus]

theorem map_server_some (st : Store) (n : Int) (u : Option User) (h1 : st.nextID = n)
    (h2 : st.users 1 = u) :
    (some ({ store := st, running := [] } : Server)).map
      (fun srv => (srv.running, srv.store.nextID, srv.store.users 1))
      = some ([], n, u) := by
  rw [Option.map_some', h1, h2]

/-- C23, as stated, fails in two ways.  Two `POST` requests whose handlers overlap:
both execute `user.ID = nextID` while `nextID` is 3, the first then stores its user
under key 3 and increments `nextID`, and the second executes `users[nextID] = user`
with `nextID` equal to 4, so a user with ID 3 is stored under key 4.  And `nextID++`
overflows: when a user is created and deleted again `2 ^ 63 - 3` times, one request
at a time, `nextID` is the most negative `int`, while "Alice Johnson" is still stored
with ID 1, which is not smaller than `nextID`; the map never holds more than three
users on the way. -/
theorem store_key_and_nextID_fail :
    (Concurrency.run step
        [Move.arrive (Request.create (some ⟨0, "Carol", "carol@example.com", 0⟩) 7),
         Move.arrive (Request.create (some ⟨0, "Dave", "dave@example.com", 0⟩) 8),
         Move.advance 0, Move.advance 1, Move.advance 0, Move.advance 0,
         Move.advance 0, Move.advance 0]
        (listening 1 2)).map
      (fun srv => (srv.running, srv.store.nextID, srv.store.users 3, srv.store.users 4))
      = some ([], 5, some ⟨3, "Carol", "carol@example.com", 7⟩,
          some ⟨3, "Dave", "dave@example.com", 8⟩) ∧
    (Concurrency.run step
        (sequentialSchedule
          (churn ⟨0, "Carol", "carol@example.com", 0⟩ 0 9223372036854775805 3) (seeded 0 0))
        (listening 0 0)).map
      (fun srv => (srv.running, srv.store.nextID, srv.store.users 1))
      = some ([], minInt, some ⟨1, "Alice Johnson", "alice@example.com", 0⟩) ∧
    ¬ ((1 : Int) < minInt) := by
  refine ⟨by decide, ?_, by decide⟩
  have hrun := (sequentialSchedule_run
    (churn ⟨0, "Carol", "carol@example.com", 0⟩ 0 9223372036854775805 3) (seeded 0 0)).1
  have hw := serve_churn_wraps 0 0 ⟨0, "Carol", "carol@example.com", 0⟩ 0
    (by decide) (by decide) 9223372036854775805 (by decide) (by decide)
  have halice := (seeded_inv 0 0).2.2.1
  unfold listening
  rw [hrun]
  exact map_server_some _ _ _ hw.1 ((hw.2 1).trans halice)

/-- C23 (amended): the server starts with the two sample users and runs any schedule
of create, update and delete requests in which the requests are handled one at a
time (no request arrives while a handler is running) and every handler has returned.
Then the store is the one the handler functions give when applied in the order of
arrival, and every stored user's ID equals the key it is stored under.  While fewer
than `2 ^ 63 - 3` users have been created, so that `nextID` has not passed the
largest `int`: `nextID` is 3 plus the number of users created, every stored user's ID
is strictly smaller than `nextID`, and once a delete request has arrived for a stored
user, no user is stored under that ID at the end and `nextID`, the ID the next create
assigns, is above it.  An update request handled next for a stored user changes only
the `Name` and `Email` of that user: its `ID` and `CreatedAt`, the other users and
`nextID` are kept. -/
theorem store_invariant (t₁ t₂ : Nat) (schedule : List Move) (final : Server)
    (hrun : Concurrency.run step schedule (listening t₁ t₂) = some final)
    (hex : exclusive schedule (listening t₁ t₂) = true)
    (hdone : final.running = []) :
    final.store = serve (arrivals schedule) (seeded t₁ t₂) ∧
    (∀ k u, final.store.users k = some u → u.ID = k) ∧
    (3 + ((arrivals schedule).countP Request.creates : Int) ≤ maxInt →
      final.store.nextID = 3 + ((arrivals schedule).countP Request.creates : Int) ∧
      (∀ k u, final.store.users k = some u → u.ID < final.store.nextID) ∧
      (∀ before id after mid,
        schedule = before ++ Move.arrive (Request.delete (some id)) :: after →
        Concurrency.run step before (listening t₁ t₂) = some mid →
        mid.store.users id ≠ none →
        final.store.users id = none ∧ id < final.store.nextID)) ∧
    (∀ id user updates rest final',
      final.store.users id = some user →
      Concurrency.run step
        (Move.arrive (Request.update (some id) (some updates)) :: rest) final = some final' →
      arrivals rest = [] → final'.running = [] →
      final'.store.users id
        = some { ID := user.ID, Name := updates.Name, Email := updates.Email,
                 CreatedAt := user.CreatedAt } ∧
      (∀ k, k ≠ id → final'.store.users k = final.store.users k) ∧
      final'.store.nextID = final.store.nextID) := by
  have hstore : final.store = serve (arrivals schedule) (seeded t₁ t₂) :=
    run_exclusive_eq_serve (seeded t₁ t₂) schedule final hrun hex hdone
  have hkey0 : KeyInv (seeded t₁ t₂) := fun k u hk => ((seeded_inv t₁ t₂).1.2 k u hk).1
  refine ⟨hstore, ?_, ?_, ?_⟩
  · rw [hstore]
    exact serve_keyInv _ _ hkey0
  · intro hbound
    obtain ⟨h1, h2, -, h4⟩ := serve_invariant t₁ t₂ (arrivals schedule) hbound
    rw [← hstore] at h1 h2 h4
    refine ⟨h2, fun k u hk => (h1 k u hk).2, ?_⟩
    intro before id after mid hsplit hbefore hpresent
    have hexb := exclusive_append before _ (listening t₁ t₂) mid hbefore (by rw [← hsplit]; exact hex)
    have hmid : mid.running = [] := by
      have := hexb.2
      simp only [exclusive, Bool.and_eq_true, List.isEmpty_iff] at this
      exact this.1
    have hmidstore : mid.store = serve (arrivals before) (seeded t₁ t₂) :=
      run_exclusive_eq_serve (seeded t₁ t₂) before mid hbefore hexb.1 hmid
    apply h4 (arrivals before) id (arrivals after)
    · rw [hsplit, arrivals_append]
      rfl
    · rw [← hmidstore]
      exact hpresent
  · intro id user updates rest final' hget hrun' hrest hdone'
    have hfinal : final = { store := final.store, running := [] } := by
      cases final
      simp only at hdone
      subst hdone
      rfl
    rw [hfinal] at hrun'
    have hex' : exclusive (Move.arrive (Request.update (some id) (some updates)) :: rest)
        { store := final.store, running := [] } = true := by
      simp only [exclusive, step, List.isEmpty_nil, Bool.true_and]
      exact exclusive_of_no_arrivals _ _ hrest
    have h := run_exclusive_eq_serve final.store _ final' hrun' hex' hdone'
    simp only [arrivals, hrest] at h
    rw [h]
    simp only [serve, List.foldl, handle, updateUser, hget, Store.put]
    refine ⟨by simp, ?_, trivial⟩
    intro k hk
    simp [hk]

/-- Witness for C23 (amended): a user is created, user 1 is renamed, user 2 is deleted
and another user is created, one request at a time.  `nextID` is 5, every stored user
has its key as ID, key 2 is free and below `nextID`, and user 1 keeps its ID and its
time of creation. -/
theorem store_invariant_witness :
    Concurrency.run step sampleSchedule (listening 1 2)
      = some { store := serve (arrivals sampleSchedule) (seeded 1 2), running := [] } ∧
    exclusive sampleSchedule (listening 1 2) = true ∧
    3 + (((arrivals sampleSchedule).countP Request.creates : Nat) : Int) ≤ maxInt ∧
    (∀ k u, (serve (arrivals sampleSchedule) (seeded 1 2)).users k = some u → u.ID = k) ∧
    (serve (arrivals sampleSchedule) (seeded 1 2)).nextID
      = 3 + (((arrivals sampleSchedule).countP Request.creates : Nat) : Int) ∧
    ((serve (arrivals sampleSchedule) (seeded 1 2)).users 2 = none ∧
      2 < (serve (arrivals sampleSchedule) (seeded 1 2)).nextID) ∧
    (serve (arrivals sampleSchedule) (seeded 1 2)).nextID = 5 ∧
    (serve (arrivals sampleSchedule) (seeded 1 2)).users 1
      = some ⟨1, "Alice J.", "alice@example.org", 1⟩ :=
  ⟨rfl, by decide, by decide,
   (store_invariant 1 2 sampleSchedule
      { store := serve (arrivals sampleSchedule) (seeded 1 2), running := [] }
      rfl (by decide) rfl).2.1,
   ((store_invariant 1 2 sampleSchedule
      { store := serve (arrivals sampleSchedule) (seeded 1 2), running := [] }
      rfl (by decide) rfl).2.2.1 (by decide)).1,
   ((store_invariant 1 2 sampleSchedule
      { store := serve (arrivals sampleSchedule) (seeded 1 2), running := [] }
      rfl (by decide) rfl).2.2.1 (by decide)).2.2
     (sampleSchedule.take 7) 2 (sampleSchedule.drop 8)
     { store := serve (arrivals (sampleSchedule.take 7)) (seeded 1 2), running := [] }
     rfl rfl (by decide),
   by decide, by decide⟩

end RestApi
